import Mathlib

/-! # Lagrange UI runtime core: animation values, smooth scrolling, tickers, commands

A shallow embedding of the parts of `src/ui/util.c` and `src/app.c` that the
specification talks about, followed by the theorems about them.

Modelling conventions

* `float` is modelled by the exact rationals `ℚ`: the easing formulas are the
  source's expressions evaluated without rounding. Where the rounding decides a
  result that can be observed (the tick `due` computed by `setValueSpeed_Anim`, the
  order of two values of `valueAt_Anim_`), the functions are given a second time with
  every `float` operation rounded to binary32 (`roundF32`, the names with `F32`).
* `uint32_t` tick values are natural numbers; the wrapping operations of the
  source are written with an explicit `% 2 ^ 32`.
* `int` is modelled by `Int` (signed overflow is undefined in C and is not modelled).
* Pointers are natural numbers (addresses); a pointer that may be `NULL` and is
  tested for it is an `Option`.
* Readings of the outside world (`SDL_GetTicks`, `frameTime_Window`, the touch
  mode of the owning widget, the current root, ...) are explicit arguments.
-/

namespace Lagrange

/-! ## Machine arithmetic -/

/-- Addition of two `uint32_t` values. -/
def u32add (a b : Nat) : Nat := (a + b) % 2 ^ 32

/-- Subtraction of two `uint32_t` values. -/
def u32sub (a b : Nat) : Nat := (a % 2 ^ 32 + (2 ^ 32 - b % 2 ^ 32)) % 2 ^ 32

/-- Conversion of a `float` to `int`: truncation toward zero. -/
def truncToInt (q : ℚ) : Int := Int.tdiv q.num (q.den : Int)

/-- Conversion of an `int` to `uint32_t`. -/
def intToU32 (i : Int) : Nat := (i % 2 ^ 32).toNat

/-! ## Anim (`ui/util.c`) -/

/-- Modelled from the spec: the `iAnimFlag` enumeration of `ui/util.h`, which is not among the
sources. The spec calls the flags "easing-mode bits"; `easeBoth` is both ease bits, the
modifiers `softer`, `muchSofter` and the `bounce` mode are further single bits. -/
def easeIn_AnimFlag : Nat := 2

/-- Modelled from the spec: see `easeIn_AnimFlag`. -/
def easeOut_AnimFlag : Nat := 4

/-- Modelled from the spec: see `easeIn_AnimFlag`; both ease bits. -/
def easeBoth_AnimFlag : Nat := easeIn_AnimFlag ||| easeOut_AnimFlag

/-- Modelled from the spec: see `easeIn_AnimFlag`. -/
def softer_AnimFlag : Nat := 8

/-- Modelled from the spec: see `easeIn_AnimFlag`. -/
def muchSofter_AnimFlag : Nat := 16

/-- Modelled from the spec: see `easeIn_AnimFlag`. -/
def bounce_AnimFlag : Nat := 32

/-- The `iAnim` record: `from`, `to`, `when`, `due`, `flags`, `bounce`. The fields `from` and
`to` carry a trailing underscore because the plain words are reserved. -/
structure Anim where
  from_ : ℚ
  to_ : ℚ
  when : Nat
  due : Nat
  flags : Nat
  bounce : ℚ
deriving DecidableEq

/-- The source's `isFinished_Anim`, with the window frame time as an argument. -/
def isFinished_Anim (frameTime : Nat) (d : Anim) : Bool :=
  decide (d.from_ = d.to_) || decide (frameTime ≥ d.due)

/-- The source's `init_Anim`, with the reading of `SDL_GetTicks` as an argument. -/
def init_Anim (ticks : Nat) (value : ℚ) : Anim :=
  { from_ := value, to_ := value, when := ticks, due := ticks, flags := 0, bounce := 0 }

/-- The source's `pos_Anim_`: the normalized position, both differences taken in
`uint32_t`. -/
def pos_Anim_ (d : Anim) (now : Nat) : ℚ :=
  (u32sub now d.when : ℚ) / (u32sub d.due d.when : ℚ)

/-- The source's `easeIn_`. -/
def easeIn_ (t : ℚ) : ℚ := t * t

/-- The source's `easeOut_`. -/
def easeOut_ (t : ℚ) : ℚ := t * (2 - t)

/-- The source's `easeBoth_`. -/
def easeBoth_ (t : ℚ) : ℚ :=
  if t < 1 / 2 then easeIn_ (t * 2) * (1 / 2)
  else 1 / 2 + easeOut_ ((t - 1 / 2) * 2) * (1 / 2)

/-- The source's `valueAt_Anim_`. The successive assignments to the local `t` of the source
are the bindings `t0`, `t1`, `t2`, `t3`. -/
def valueAt_Anim_ (d : Anim) (now : Nat) : ℚ :=
  if now ≥ d.due then d.to_
  else if now ≤ d.when then d.from_
  else
    let t0 := pos_Anim_ d now
    let isSoft : Bool := (d.flags &&& softer_AnimFlag) != 0
    let isVerySoft : Bool := (d.flags &&& muchSofter_AnimFlag) != 0
    let t3 :=
      if (d.flags &&& easeBoth_AnimFlag) = easeBoth_AnimFlag then
        let t1 := easeBoth_ t0
        let t2 := if isSoft then easeBoth_ t1 else t1
        if isVerySoft then easeBoth_ (easeBoth_ t2) else t2
      else if (d.flags &&& easeIn_AnimFlag) ≠ 0 then
        let t1 := easeIn_ t0
        let t2 := if isSoft then easeIn_ t1 else t1
        if isVerySoft then easeIn_ (easeIn_ t2) else t2
      else if (d.flags &&& easeOut_AnimFlag) ≠ 0 then
        let t1 := easeOut_ t0
        let t2 := if isSoft then easeOut_ t1 else t1
        if isVerySoft then easeOut_ (easeOut_ t2) else t2
      else t0
    let value := d.from_ * (1 - t3) + d.to_ * t3
    if (d.flags &&& bounce_AnimFlag) ≠ 0 then
      value + d.bounce * ((1 - easeOut_ (easeOut_ t3)) * easeOut_ t3)
    else value

/-- The source's `value_Anim`: the value at the window frame time. -/
def value_Anim (frameTime : Nat) (d : Anim) : ℚ := valueAt_Anim_ d frameTime

/-- Modelled from the spec: `targetValue_Anim` of `ui/util.h` (not among the sources), the
"retarget-value" of an animation: its target `to`. -/
def targetValue_Anim (d : Anim) : ℚ := d.to_

/-- The source's `setValue_Anim`. `frameTime` is `frameTime_Window (get_Window ())`, `ticks`
the reading of `SDL_GetTicks`. -/
def setValue_Anim (frameTime ticks : Nat) (d : Anim) (to_ : ℚ) (span : Nat) : Anim :=
  let d1 : Anim :=
    if span = 0 then
      { d with from_ := to_, to_ := to_, when := frameTime, due := frameTime }
    else if |to_ - d.to_| > 1 / 100000 then
      let now := ticks
      { d with from_ := valueAt_Anim_ d now, to_ := to_, when := now, due := u32add now span }
    else d
  { d1 with bounce := 0 }

/-- The source's `setValueEased_Anim`. -/
def setValueEased_Anim (frameTime ticks : Nat) (d : Anim) (to_ : ℚ) (span : Nat) : Anim :=
  if |to_ - d.to_| ≤ 1 / 100000 then
    { d with to_ := to_ }
  else
    let now := ticks
    let d1 : Anim :=
      if isFinished_Anim frameTime d then
        { d with from_ := d.to_, flags := easeBoth_AnimFlag }
      else
        { d with from_ := valueAt_Anim_ d now, flags := easeOut_AnimFlag }
    { d1 with to_ := to_, when := now, due := u32add now span, bounce := 0 }

/-- User events as the event loop tells them apart (`SDL_USEREVENT` with one of the
`UserEventCode` values), and everything else. -/
inductive Event where
  | refresh
  | immediateRefresh
  | command (text : List Char) (root : Option Nat)
  | widgetTouchEnds
  | other (type : Nat)
deriving DecidableEq

/-- What the SmoothScroll functions read from outside the record: globals, preferences,
clocks, the touch state of the owning widget, and the C library `sqrt`. -/
structure UiEnv where
  /-- The global `gap_UI`. -/
  gap_UI : Int
  /-- Whether `deviceType_App ()` is `desktop_AppDeviceType`. -/
  isDesktop : Bool
  /-- Whether the build defines `iPlatformMobile`. -/
  platformMobile : Bool
  /-- The preference `prefs_App ()->smoothScrolling`. -/
  smoothScrolling : Bool
  /-- The value `frameTime_Window (get_Window ())`. -/
  frameTime : Nat
  /-- Reading of `SDL_GetTicks` by the first retargeting call. -/
  ticks : Nat
  /-- Reading of `SDL_GetTicks` by the retargeting call of the momentum branch. -/
  ticks2 : Nat
  /-- Whether `widgetMode_Touch (d->widget)` is `momentum_WidgetTouchMode`. -/
  touchMomentum : Bool
  /-- The result of `stopWidgetMomentum_Touch (d->widget)`. -/
  remaining : ℚ
  /-- The C library `sqrt`. -/
  sqrt : ℚ → ℚ

/-- The `iSmoothScroll` record (the owner widget and the notify callback are outside the
model). -/
structure SmoothScroll where
  pos : Anim
  max : Int
  overscroll : Int
deriving DecidableEq

/-- The source's `setMax_SmoothScroll`. -/
def setMax_SmoothScroll (d : SmoothScroll) (max : Int) : SmoothScroll :=
  let max := Max.max 0 max
  if max ≠ d.max then
    let d1 : SmoothScroll := { d with max := max }
    if targetValue_Anim d1.pos > (d1.max : ℚ) then
      { d1 with pos := { d1.pos with to_ := (d1.max : ℚ) } }
    else d1
  else d

/-- The source's `overscroll_SmoothScroll_`. -/
def overscroll_SmoothScroll_ (env : UiEnv) (d : SmoothScroll) : Int :=
  if d.overscroll ≠ 0 then
    let y : Int := truncToInt (value_Anim env.frameTime d.pos)
    if y ≤ 0 then y
    else if y ≥ d.max then y - d.max
    else 0
  else 0

/-- The source's `pos_SmoothScroll`. -/
def pos_SmoothScroll (env : UiEnv) (d : SmoothScroll) : ℚ :=
  value_Anim env.frameTime d.pos - (overscroll_SmoothScroll_ env d : ℚ) * (667 / 1000)

/-- The source's `isFinished_SmoothScroll`. -/
def isFinished_SmoothScroll (env : UiEnv) (d : SmoothScroll) : Bool :=
  isFinished_Anim env.frameTime d.pos

/-- The source's `moveSpan_SmoothScroll`. The final call of the notify callback acts outside
the record and is not modelled. -/
def moveSpan_SmoothScroll (env : UiEnv) (d : SmoothScroll) (offset : Int) (span : Nat) :
    SmoothScroll :=
  let span1 : Nat := if !env.platformMobile && !env.smoothScrolling then 0 else span
  let destY0 : Int := truncToInt (targetValue_Anim d.pos + (offset : ℚ))
  let destY1 : Int := if destY0 < -d.overscroll then -d.overscroll else destY0
  let destY2 : Int :=
    if d.max > 0 then
      if destY1 ≥ d.max + d.overscroll then d.max + d.overscroll else destY1
    else 0
  let d1 : SmoothScroll :=
    if span1 ≠ 0 then
      { d with pos := setValueEased_Anim env.frameTime env.ticks d.pos (destY2 : ℚ) span1 }
    else
      { d with pos := setValue_Anim env.frameTime env.ticks d.pos (destY2 : ℚ) 0 }
  if d1.overscroll ≠ 0 ∧ env.touchMomentum = true then
    let osDelta := overscroll_SmoothScroll_ env d1
    if osDelta ≠ 0 then
      let remaining := env.remaining
      let span2 : Nat :=
        intToU32 (min 1000 (truncToInt (50 * env.sqrt (remaining / (env.gap_UI : ℚ)))))
      let p1 := setValue_Anim env.frameTime env.ticks2 d1.pos
        (if osDelta < 0 then 0 else (d1.max : ℚ)) span2
      let p2 : Anim :=
        { p1 with flags := bounce_AnimFlag ||| easeOut_AnimFlag ||| softer_AnimFlag }
      let p3 : Anim :=
        { p2 with
          bounce := ((if osDelta < 0 then -1 else 1 : Int) *
            min (5 * d1.overscroll) (truncToInt (remaining * remaining * (5 / 100000))) : Int) }
      { d1 with pos := p3 }
    else d1
  else d1

/-- The source's `move_SmoothScroll`. -/
def move_SmoothScroll (env : UiEnv) (d : SmoothScroll) (offset : Int) : SmoothScroll :=
  moveSpan_SmoothScroll env d offset 0

/-- The source's `processEvent_SmoothScroll`: the new record and the returned flag. -/
def processEvent_SmoothScroll (env : UiEnv) (d : SmoothScroll) (ev : Event) :
    SmoothScroll × Bool :=
  if ev = Event.widgetTouchEnds then
    let osDelta := overscroll_SmoothScroll_ env d
    if osDelta ≠ 0 then
      let span : Nat :=
        intToU32 (truncToInt (100 * env.sqrt ((Int.tdiv |osDelta| env.gap_UI : Int) : ℚ)))
      let d1 := moveSpan_SmoothScroll env d (-osDelta) span
      ({ d1 with pos := { d1.pos with flags := easeOut_AnimFlag ||| muchSofter_AnimFlag } }, true)
    else (d, true)
  else (d, false)

/-- The operations on a SmoothScroll, each with the outside readings of its call. -/
inductive SmoothScrollOp where
  | setMax (max : Int)
  | moveSpan (env : UiEnv) (offset : Int) (span : Nat)
  | move (env : UiEnv) (offset : Int)
  | processEvent (env : UiEnv) (ev : Event)

/-- One operation applied to a SmoothScroll. -/
def SmoothScrollOp.apply (d : SmoothScroll) : SmoothScrollOp → SmoothScroll
  | .setMax m => setMax_SmoothScroll d m
  | .moveSpan env offset span => moveSpan_SmoothScroll env d offset span
  | .move env offset => move_SmoothScroll env d offset
  | .processEvent env ev => (processEvent_SmoothScroll env d ev).1

/-- Modelled from the spec: the macro `iCmp` of the foundation library (not among the
sources), the three-way comparison of two values, here of two addresses. -/
def iCmp (a b : Nat) : Int := if a = b then 0 else if a < b then -1 else 1

/-- The `iTicker` record: context, root (may be `NULL`), callback (may be `NULL`). Functions
are named by their address. -/
structure Ticker where
  context : Nat
  root : Option Nat
  callback : Option Nat
deriving DecidableEq

/-- The source's `cmp_Ticker_`: tickers are ordered by context alone. -/
def cmp_Ticker_ (a b : Ticker) : Int := iCmp a.context b.context

/-- Modelled from the spec: `insert_SortedArray` of the foundation library (not among the
sources); it "inserts or replaces (by context identity) an entry in an always-sorted
collection". The array is a list in ascending order of `cmp`; the position is found by a
scan from the front, and an element that compares equal is overwritten. -/
def insert_SortedArray {α : Type} (cmp : α → α → Int) : List α → α → List α
  | [], x => [x]
  | y :: ys, x =>
    if cmp x y < 0 then x :: y :: ys
    else if cmp x y = 0 then x :: ys
    else y :: insert_SortedArray cmp ys x

/-- Modelled from the spec: `remove_SortedArray` of the foundation library (not among the
sources); it "deletes a matching entry if present (no-op otherwise)", the match being
equality under `cmp`. -/
def remove_SortedArray {α : Type} (cmp : α → α → Int) : List α → α → List α
  | [], _ => []
  | y :: ys, x => if cmp x y = 0 then ys else y :: remove_SortedArray cmp ys x

/-- Build options that the modelled functions depend on. -/
structure Build where
  /-- Whether `LAGRANGE_ENABLE_IDLE_SLEEP` is defined. -/
  idleSleep : Bool
  /-- Whether `iPlatformMobile` is defined. -/
  platformMobile : Bool

/-- One line written by the command echo: the `[Prefs]` mark, the root index, the text. -/
structure EchoLine where
  prefs : Bool
  rootIndex : Nat
  command : List Char
deriving DecidableEq

/-- The fields of `iApp` that the modelled functions use, and the parts of the outside
world they act on: the SDL event queue (pushes append at the end), the current root, the
window (`none` when `get_Window ()` is `NULL`, else its `roots[0]`) with its root-offset
animation, the echo stream, and the number of `draw_Window` calls made so far. -/
structure App where
  tickers : List Ticker
  lastTickerTime : Nat
  elapsedSinceLastTicker : Nat
  isIdling : Bool
  pendingRefresh : Bool
  isLoadingPrefs : Bool
  launchCommands : List (List Char)
  isFinishedLaunching : Bool
  periodicIsEmpty : Bool
  warmupFrames : Int
  commandEcho : Bool
  events : List Event
  currentRoot : Option Nat
  window : Option (Option Nat)
  rootOffset : Anim
  echoed : List EchoLine
  draws : Nat

/-- The source's `postRefresh_App`. -/
def postRefresh_App (B : Build) (d : App) : App :=
  let d1 : App := if B.idleSleep then { d with isIdling := false } else d
  let wasPending := d1.pendingRefresh
  let d2 : App := { d1 with pendingRefresh := true }
  if !wasPending then { d2 with events := d2.events ++ [Event.refresh] } else d2

/-- The source's `postImmediateRefresh_App`. -/
def postImmediateRefresh_App (d : App) : App :=
  { d with events := d.events ++ [Event.immediateRefresh] }

/-- The source's `refresh_App`, with the window frame time as an argument. The calls of
`destroyPending_Root` act on the widget trees and are not modelled; `draw_Window` is counted. -/
def refresh_App (B : Build) (frameTime : Nat) (d : App) : App :=
  if B.idleSleep = true ∧ (d.warmupFrames = 0 ∧ d.isIdling = true) then d
  else
    let wasPending := d.pendingRefresh
    let d1 : App := { d with pendingRefresh := false }
    if wasPending = false ∧ isFinished_Anim frameTime d1.rootOffset = true then d1
    else
      let d2 : App := { d1 with draws := d1.draws + 1 }
      if d2.warmupFrames > 0 then { d2 with warmupFrames := d2.warmupFrames - 1 } else d2

/-- The source's `isRefreshPending_App`. -/
def isRefreshPending_App (d : App) : Bool := d.pendingRefresh

/-- The tail of `postCommand_Root`: the command event is pushed and, when the command echo
is on, a line is written. -/
def pushCommand_ (app : App) (d : Option Nat) (command : List Char) : App :=
  let app1 : App := { app with events := app.events ++ [Event.command command d] }
  if app1.commandEcho then
    { app1 with
      echoed := app1.echoed ++
        [{ prefs := app1.isLoadingPrefs
           rootIndex :=
            match d, app1.window with
            | none, _ => 0
            | some _, none => 0
            | some r, some root0 => if some r = root0 then 1 else 2
           command := command }] }
  else app1

/-- The source's `postCommand_Root`: `d` is the root argument (`none` for `NULL`), `command`
the text. Advancing the pointer past a marker is taking the tail of the text. -/
def postCommand_Root (app : App) (d : Option Nat) (command : List Char) : App :=
  if command.length = 0 then app
  else
    let command1 := if command.head? = some '!' then command.tail else command
    if command1.head? = some '~' then
      let command2 := command1.tail
      if app.isFinishedLaunching = false then
        { app with launchCommands := app.launchCommands ++ [command2] }
      else pushCommand_ app d command2
    else pushCommand_ app d command1

/-- Modelled from the spec: `postCommandString_Root` of `ui/root.h` (not among the sources),
which posts the text of a string through `postCommand_Root`. -/
def postCommandString_Root (app : App) (d : Option Nat) (command : List Char) : App :=
  postCommand_Root app d command

/-- The end of `init_App_`: launch is marked finished and the commands that were pending
completion of launch are posted, in list order. -/
def finishLaunching_App_ (d : App) : App :=
  let d1 : App := { d with isFinishedLaunching := true }
  d1.launchCommands.foldl (fun a c => postCommandString_Root a none c) d1

/-- The source's `addTicker_App`; the root is the current root (`get_Root ()`). -/
def addTicker_App (B : Build) (d : App) (ticker : Option Nat) (context : Nat) : App :=
  postRefresh_App B
    { d with tickers := insert_SortedArray cmp_Ticker_ d.tickers ⟨context, d.currentRoot, ticker⟩ }

/-- The source's `addTickerRoot_App`. -/
def addTickerRoot_App (B : Build) (d : App) (ticker : Option Nat) (root : Option Nat)
    (context : Nat) : App :=
  postRefresh_App B
    { d with tickers := insert_SortedArray cmp_Ticker_ d.tickers ⟨context, root, ticker⟩ }

/-- The source's `removeTicker_App`. -/
def removeTicker_App (d : App) (ticker : Option Nat) (context : Nat) : App :=
  { d with tickers := remove_SortedArray cmp_Ticker_ d.tickers ⟨context, none, ticker⟩ }

/-- Modelled from the spec: `setCurrent_Root` of `ui/root.c` (not among the sources), which
sets the "current surface". -/
def setCurrent_Root (d : App) (root : Option Nat) : App := { d with currentRoot := root }

/-- One call of a ticker callback: the function, its argument, and the current root during
the call. -/
structure TickerCall where
  callback : Nat
  context : Nat
  root : Option Nat
deriving DecidableEq

/-- The loop of `runTickers_App_` over the copied array: every entry with a callback has the
current root set to its root and its callback run on the application state. `run f c` is the
effect of calling the function at address `f` with context `c`. The calls made are
collected in order. -/
def runPending_ (run : Nat → Nat → App → App) : List Ticker → App → List TickerCall →
    App × List TickerCall
  | [], d, calls => (d, calls)
  | ticker :: rest, d, calls =>
    match ticker.callback with
    | some f =>
      runPending_ run rest (run f ticker.context (setCurrent_Root d ticker.root))
        (calls ++ [⟨f, ticker.context, ticker.root⟩])
    | none => runPending_ run rest d calls

/-- The source's `runTickers_App_`, with the reading of `SDL_GetTicks` as an argument: the
new state and the callback calls made by the pass. -/
def runTickers_App_ (B : Build) (run : Nat → Nat → App → App) (now : Nat) (d : App) :
    App × List TickerCall :=
  let d1 : App :=
    { d with
      elapsedSinceLastTicker := if d.lastTickerTime ≠ 0 then u32sub now d.lastTickerTime else 0
      lastTickerTime := now }
  if d1.tickers.isEmpty then ({ d1 with lastTickerTime := 0 }, [])
  else
    let pending := d1.tickers
    let d2 : App := postRefresh_App B { d1 with tickers := [] }
    let r := runPending_ run pending d2 []
    let d4 := setCurrent_Root r.1 none
    (if d4.tickers.isEmpty then { d4 with lastTickerTime := 0 } else d4, r.2)

/-- The registration calls on the ticker collection, and the change of the current root
(which `addTicker_App` reads). -/
inductive TickerOp where
  | addTicker (ticker : Option Nat) (context : Nat)
  | addTickerRoot (ticker : Option Nat) (root : Option Nat) (context : Nat)
  | removeTicker (ticker : Option Nat) (context : Nat)
  | setCurrent (root : Option Nat)

/-- One registration call applied to the application. -/
def TickerOp.apply (B : Build) (d : App) : TickerOp → App
  | .addTicker ticker context => addTicker_App B d ticker context
  | .addTickerRoot ticker root context => addTickerRoot_App B d ticker root context
  | .removeTicker ticker context => removeTicker_App d ticker context
  | .setCurrent root => setCurrent_Root d root

/-- Ascending order of contexts, strictly: the order of the ticker collection. -/
def TickersSorted (ts : List Ticker) : Prop :=
  ts.Pairwise (fun a b => a.context < b.context)

/-- The ticker of context `X` with callback `f` is registered. -/
def Registered (X f : Nat) (d : App) : Prop :=
  ∃ e ∈ d.tickers, e.context = X ∧ e.callback = some f

/-- The "text with the markers stripped" that `postCommand_Root` arrives at: a leading `!`
is dropped, then a leading `~`. -/
def strippedCommand (c : List Char) : List Char :=
  let c1 := if c.head? = some '!' then c.tail else c
  if c1.head? = some '~' then c1.tail else c1

/-- The event that posting a text after launch pushes: none for the empty text. -/
def postedEvent (d : Option Nat) (c : List Char) : Option Event :=
  if c.length = 0 then none else some (Event.command (strippedCommand c) d)

/-- The number of entries of a collection with the given context. -/
def countContext (ts : List Ticker) (context : Nat) : Nat :=
  (ts.filter (fun t => t.context = context)).length

/-! ## The easing of an animation, as the specification words it -/

/-- The number of additional applications of the easing function: one for `softer`, two
for `muchSofter`. -/
def extraEasings (flags : Nat) : Nat :=
  (if flags &&& softer_AnimFlag ≠ 0 then 1 else 0) +
    (if flags &&& muchSofter_AnimFlag ≠ 0 then 2 else 0)

/-- The eased position as the specification describes it: the easing function chosen by the
two ease bits, applied `1 + extraEasings` times; the position itself when neither bit is set. -/
def easedPosition (flags : Nat) (t : ℚ) : ℚ :=
  if flags &&& easeIn_AnimFlag ≠ 0 ∧ flags &&& easeOut_AnimFlag ≠ 0 then
    easeBoth_^[1 + extraEasings flags] t
  else if flags &&& easeIn_AnimFlag ≠ 0 then easeIn_^[1 + extraEasings flags] t
  else if flags &&& easeOut_AnimFlag ≠ 0 then easeOut_^[1 + extraEasings flags] t
  else t

/-! ## Sample values -/

/-- An ease-out animation from 0 to 100 over the ticks 0..200. -/
def sampleAnim : Anim :=
  { from_ := 0, to_ := 100, when := 0, due := 200, flags := easeOut_AnimFlag, bounce := 0 }

/-- A softer ease-in-out animation from 10 down to 0 over the ticks 0..200. -/
def sampleSoftAnim : Anim :=
  { from_ := 10, to_ := 0, when := 0, due := 200,
    flags := easeBoth_AnimFlag ||| softer_AnimFlag, bounce := 0 }

/-- A build with idle sleep on a desktop platform. -/
def sampleBuild : Build := { idleSleep := true, platformMobile := false }

/-- An application during launch: nothing registered, queued or pending. -/
def sampleApp : App :=
  { tickers := [], lastTickerTime := 0, elapsedSinceLastTicker := 0, isIdling := true,
    pendingRefresh := false, isLoadingPrefs := false, launchCommands := [],
    isFinishedLaunching := false, periodicIsEmpty := true, warmupFrames := 0,
    commandEcho := false, events := [], currentRoot := none, window := some (some 1),
    rootOffset := init_Anim 0 0, echoed := [], draws := 0 }

/-- Registration calls: contexts 7 and 3 are registered, 7 again with another callback and
root, 3 is removed. -/
def sampleTickerOps : List TickerOp :=
  [.addTicker (some 50) 7, .addTicker (some 50) 3, .addTickerRoot (some 51) (some 2) 7,
    .removeTicker (some 50) 3]

/-- Callbacks that do nothing but register themselves again. -/
def sampleRun (f c : Nat) (s : App) : App := addTicker_App sampleBuild s (some f) c

/-- A running application with two registered tickers, of contexts 3 and 7. -/
def sampleTickerApp : App :=
  { sampleApp with
    tickers := [⟨3, none, some 50⟩, ⟨7, some 2, some 51⟩]
    isFinishedLaunching := true }

/-- Two texts posted with the `~` marker during launch (shown without the marker). -/
def sampleDeferred : List (List Char) := ["window.unfreeze".toList, ['a']]

/-- The scenario of the specification: `max = 1000`, `overscroll = 100`, at rest at 980. -/
def sampleScenarioScroll : SmoothScroll :=
  { pos := init_Anim 0 980, max := 1000, overscroll := 100 }

/-! ## The value of an animation with a fallible division -/

/-- The part of `valueAt_Anim_` that follows the computation of the position: easing,
interpolation and bounce, as a function of the position `t0`. -/
def easedValue_ (d : Anim) (t0 : ℚ) : ℚ :=
  let isSoft : Bool := (d.flags &&& softer_AnimFlag) != 0
  let isVerySoft : Bool := (d.flags &&& muchSofter_AnimFlag) != 0
  let t3 :=
    if (d.flags &&& easeBoth_AnimFlag) = easeBoth_AnimFlag then
      let t1 := easeBoth_ t0
      let t2 := if isSoft then easeBoth_ t1 else t1
      if isVerySoft then easeBoth_ (easeBoth_ t2) else t2
    else if (d.flags &&& easeIn_AnimFlag) ≠ 0 then
      let t1 := easeIn_ t0
      let t2 := if isSoft then easeIn_ t1 else t1
      if isVerySoft then easeIn_ (easeIn_ t2) else t2
    else if (d.flags &&& easeOut_AnimFlag) ≠ 0 then
      let t1 := easeOut_ t0
      let t2 := if isSoft then easeOut_ t1 else t1
      if isVerySoft then easeOut_ (easeOut_ t2) else t2
    else t0
  let value := d.from_ * (1 - t3) + d.to_ * t3
  if (d.flags &&& bounce_AnimFlag) ≠ 0 then
    value + d.bounce * ((1 - easeOut_ (easeOut_ t3)) * easeOut_ t3)
  else value

/-- The source's `pos_Anim_` with the division made fallible: `none` when the divisor
`due - when` is zero. -/
def posChecked_Anim_ (d : Anim) (now : Nat) : Option ℚ :=
  if u32sub d.due d.when = 0 then none else some (pos_Anim_ d now)

/-- The source's `valueAt_Anim_` over the fallible `posChecked_Anim_`: `none` when the
evaluation divides by zero. -/
def valueAtChecked_Anim_ (d : Anim) (now : Nat) : Option ℚ :=
  if now ≥ d.due then some d.to_
  else if now ≤ d.when then some d.from_
  else (posChecked_Anim_ d now).map (easedValue_ d)

/-- The overshoot term as the specification writes it, at a position `t`. -/
def overshootTerm (bounce t : ℚ) : ℚ := bounce * ((1 - easeOut_ (easeOut_ t)) * easeOut_ t)

/-- An ease-out animation from 0 to 100 over the ticks 0..200 with the bounce mode on and a
bounce of 8. -/
def sampleBounceEaseAnim : Anim :=
  { from_ := 0, to_ := 100, when := 0, due := 200,
    flags := bounce_AnimFlag ||| easeOut_AnimFlag, bounce := 8 }

/-- A degenerate animation (`due = when = 10`) whose endpoints 0 and 100 differ. -/
def sampleDegenerateAnim : Anim :=
  { from_ := 0, to_ := 100, when := 10, due := 10, flags := 0, bounce := 0 }

/-- Outside readings of a touch device at frame time 100, the widget not in momentum mode. -/
def sampleFrameEnv : UiEnv :=
  { gap_UI := 4, isDesktop := false, platformMobile := true, smoothScrolling := true,
    frameTime := 100, ticks := 100, ticks2 := 100, touchMomentum := false,
    remaining := 0, sqrt := fun x => x }

/-- A touch scroller (`max = 100`, `overscroll = 100`) moving from 100 to 199 over the ticks
0..200: at frame time 100 its value is `149 + 1 / 2`, inside the overscroll band. -/
def sampleBandScroll : SmoothScroll :=
  { pos := { from_ := 100, to_ := 199, when := 0, due := 200, flags := 0, bounce := 0 }
    max := 100, overscroll := 100 }

/-- A scroller without overscroll allowance whose content has shrunk to 300 while it moves
from 500 to 300 over the ticks 0..200: at frame time 100 its value is 400. -/
def sampleShrunkScroll : SmoothScroll :=
  { pos := { from_ := 500, to_ := 300, when := 0, due := 200, flags := 0, bounce := 0 }
    max := 300, overscroll := 0 }

/-- The `iAppEventMode` values that `nextEvent_App_` is called with. -/
inductive AppEventMode where
  | postedEventsOnly
  | waitForNewEvents
deriving DecidableEq

/-- The SDL call by which `nextEvent_App_` fetches the next event. -/
inductive EventFetch where
  | pollEvent
  | waitEvent
  | waitEventTimeout (ms : Nat)
deriving DecidableEq

/-- The source's `isWaitingAllowed_App_`, with the window frame time as an argument. -/
def isWaitingAllowed_App_ (B : Build) (frameTime : Nat) (d : App) : Bool :=
  if d.periodicIsEmpty = false then false
  else if d.warmupFrames > 0 then false
  else if B.idleSleep = true ∧ d.isIdling = true then false
  else if B.platformMobile = true ∧ isFinished_Anim frameTime d.rootOffset = false then false
  else !d.pendingRefresh && d.tickers.isEmpty

/-- The source's `nextEvent_App_`: which SDL call fetches the event. -/
def nextEvent_App_ (B : Build) (frameTime : Nat) (d : App) (eventMode : AppEventMode) :
    EventFetch :=
  if eventMode = AppEventMode.waitForNewEvents ∧ isWaitingAllowed_App_ B frameTime d = true then
    if d.periodicIsEmpty = false then EventFetch.waitEventTimeout 500
    else if isWaitingAllowed_App_ B frameTime d = true then EventFetch.waitEvent
    else EventFetch.pollEvent
  else EventFetch.pollEvent

/-- Whether a fetch blocks: the two waits do, the poll does not. -/
def EventFetch.blocks : EventFetch → Bool
  | .pollEvent => false
  | .waitEvent => true
  | .waitEventTimeout _ => true

/-- A running application with periodic tasks pending and nothing else going on: no warmup
countdown, not idling, no tickers, no refresh pending. -/
def samplePeriodicApp : App :=
  { sampleApp with periodicIsEmpty := false, isIdling := false, isFinishedLaunching := true }

/-- A running application with nothing going on at all. -/
def sampleQuietApp : App :=
  { sampleApp with isIdling := false, isFinishedLaunching := true }

/-- Whether a registration call registers the context `X`. -/
def TickerOp.registers (X : Nat) : TickerOp → Bool
  | .addTicker _ context => decide (context = X)
  | .addTickerRoot _ _ context => decide (context = X)
  | .removeTicker _ _ => false
  | .setCurrent _ => false

/-- The call that a pass makes for an entry: none for an entry without callback. -/
def tickerCall (t : Ticker) : Option TickerCall :=
  t.callback.map (fun f => ⟨f, t.context, t.root⟩)

/-- Registration calls on other contexts than 7: context 9 is registered, context 3 removed. -/
def sampleOtherOps : List TickerOp := [.addTicker (some 52) 9, .removeTicker none 3]

/-- The progress of an animation at a time: 1 from `due` on, 0 up to `when`, the eased
position in between. -/
def progress_ (d : Anim) (now : Nat) : ℚ :=
  if now ≥ d.due then 1
  else if now ≤ d.when then 0
  else easedPosition d.flags (pos_Anim_ d now)

/-! ## Binary32 arithmetic

The definitions above take `float` operations as exact. The ones below are the same
functions with the rounding of every `float` operation made explicit, for the statements in
which the rounding decides the result. Every operation is rounded on its own (no fused
multiply-add, no wider intermediate precision), and the `float` arguments are taken to be
binary32 values. -/

/-- Rounding to the nearest integer, a tie going to the even one. -/
def roundHalfEven (x : ℚ) : Int :=
  let f := ⌊x⌋
  let r := x - (f : ℚ)
  if r < 1 / 2 then f else if r > 1 / 2 then f + 1 else if f % 2 = 0 then f else f + 1

/-- The loop of `floorLog2`: halving `n` while it is at least 2, at most `fuel` times. -/
def floorLog2Fuel : Nat → Nat → Nat
  | 0, _ => 0
  | fuel + 1, n => if 2 ≤ n then floorLog2Fuel fuel (n / 2) + 1 else 0

/-- The position of the leading binary digit of `n`: the `k` with `2 ^ k ≤ n < 2 ^ (k + 1)`
for `n ≥ 1` (`n` halvings are more than enough). -/
def floorLog2 (n : Nat) : Nat := floorLog2Fuel n n

/-- The binary exponent of a non-zero rational: the `e` with `2 ^ e ≤ |q| < 2 ^ (e + 1)`.
The difference of the leading digit positions of numerator and denominator is `e` or
`e + 1`. -/
def binaryExponent (q : ℚ) : Int :=
  let e0 : Int := (floorLog2 q.num.natAbs : Int) - (floorLog2 q.den : Int)
  if (2 : ℚ) ^ e0 ≤ |q| then e0 else e0 - 1

/-- The IEEE 754 binary32 value nearest to `q`, ties to even: 24 significant bits, with the
fixed spacing `2 ^ (-149)` below `2 ^ (-126)`. Overflow to infinity (from `2 ^ 128` on) is
not modelled. -/
def roundF32 (q : ℚ) : ℚ :=
  if q = 0 then 0
  else
    let e := max (binaryExponent q) (-126)
    (roundHalfEven (q / (2 : ℚ) ^ (e - 23)) : ℚ) * (2 : ℚ) ^ (e - 23)

/-- The source's `pos_Anim_` in binary32: both differences are converted to `float`, then
divided. -/
def posF32_Anim_ (d : Anim) (now : Nat) : ℚ :=
  roundF32 (roundF32 (u32sub now d.when : ℚ) / roundF32 (u32sub d.due d.when : ℚ))

/-- The source's `easeIn_` in binary32. -/
def easeInF32_ (t : ℚ) : ℚ := roundF32 (t * t)

/-- The source's `easeOut_` in binary32. -/
def easeOutF32_ (t : ℚ) : ℚ := roundF32 (t * roundF32 (2 - t))

/-- The source's `easeBoth_` in binary32. -/
def easeBothF32_ (t : ℚ) : ℚ :=
  if t < 1 / 2 then roundF32 (easeInF32_ (roundF32 (t * 2)) * (1 / 2))
  else roundF32 (1 / 2 + roundF32 (easeOutF32_ (roundF32 (roundF32 (t - 1 / 2) * 2)) * (1 / 2)))

/-- The source's `valueAt_Anim_` in binary32: `valueAt_Anim_` above with every `float`
operation rounded. -/
def valueAtF32_Anim_ (d : Anim) (now : Nat) : ℚ :=
  if now ≥ d.due then d.to_
  else if now ≤ d.when then d.from_
  else
    let t0 := posF32_Anim_ d now
    let isSoft : Bool := (d.flags &&& softer_AnimFlag) != 0
    let isVerySoft : Bool := (d.flags &&& muchSofter_AnimFlag) != 0
    let t3 :=
      if (d.flags &&& easeBoth_AnimFlag) = easeBoth_AnimFlag then
        let t1 := easeBothF32_ t0
        let t2 := if isSoft then easeBothF32_ t1 else t1
        if isVerySoft then easeBothF32_ (easeBothF32_ t2) else t2
      else if (d.flags &&& easeIn_AnimFlag) ≠ 0 then
        let t1 := easeInF32_ t0
        let t2 := if isSoft then easeInF32_ t1 else t1
        if isVerySoft then easeInF32_ (easeInF32_ t2) else t2
      else if (d.flags &&& easeOut_AnimFlag) ≠ 0 then
        let t1 := easeOutF32_ t0
        let t2 := if isSoft then easeOutF32_ t1 else t1
        if isVerySoft then easeOutF32_ (easeOutF32_ t2) else t2
      else t0
    let value := roundF32 (roundF32 (d.from_ * roundF32 (1 - t3)) + roundF32 (d.to_ * t3))
    if (d.flags &&& bounce_AnimFlag) ≠ 0 then
      roundF32 (value + roundF32 (d.bounce *
        roundF32 (roundF32 (1 - easeOutF32_ (easeOutF32_ t3)) * easeOutF32_ t3)))
    else value

/-- The source's `setValueSpeed_Anim` in binary32: the tolerance is the `float` constant
`0.0001f` and is compared with the rounded difference of the targets, the value at `now`
is `valueAtF32_Anim_`, and the subtraction, the division and the multiplication that give
the span are rounded before the conversion to `uint32_t`. -/
def setValueSpeedF32_Anim (ticks : Nat) (d : Anim) (to_ : ℚ) (unitsPerSecond : ℚ) : Anim :=
  if |roundF32 (d.to_ - to_)| > roundF32 (1 / 10000) then
    let now := ticks
    let from_ := valueAtF32_Anim_ d now
    let delta := roundF32 (to_ - from_)
    let span := intToU32 (truncToInt (roundF32 (roundF32 (|delta| / unitsPerSecond) * 1000)))
    { d with from_ := from_, to_ := to_, when := now, due := u32add now span, bounce := 0 }
  else d

/-! ## Sample values for the binary32 statements and for the counterexamples -/

/-- A much softer ease-out animation from 0 to 100 over the ticks 0..200. -/
def sampleMuchSofterAnim : Anim :=
  { from_ := 0, to_ := 100, when := 0, due := 200,
    flags := easeOut_AnimFlag ||| muchSofter_AnimFlag, bounce := 0 }

/-- A linear animation from 0 to 100 over the ticks 0..1000. -/
def sampleLinearAnim : Anim :=
  { from_ := 0, to_ := 100, when := 0, due := 1000, flags := 0, bounce := 0 }

/-- Callbacks of which the one at address 50 registers itself again, and every other one
unregisters the ticker of context 3. -/
def sampleUnregisteringRun (f c : Nat) (s : App) : App :=
  if f = 50 then addTicker_App sampleBuild s (some 50) c
  else removeTicker_App s (some 50) 3

/-! # Theorems -/

/-! ## Auxiliary facts -/

theorem u32sub_of_le {a b : Nat} (h : b ≤ a) (ha : a < 2 ^ 32) : u32sub a b = a - b := by
  unfold u32sub
  omega

theorem u32add_of_lt {a b : Nat} (h : a + b < 2 ^ 32) : u32add a b = a + b := by
  unfold u32add
  omega

theorem land_mask_mod (n m k : Nat) (hm : m < 2 ^ k) : n &&& m = (n % 2 ^ k) &&& m := by
  apply Nat.eq_of_testBit_eq
  intro i
  simp only [Nat.testBit_and, Nat.testBit_mod_two_pow]
  by_cases hi : i < k
  · simp [hi]
  · have hmi : m.testBit i = false :=
      Nat.testBit_lt_two_pow
        (lt_of_lt_of_le hm (Nat.pow_le_pow_right (by norm_num) (not_lt.mp hi)))
    simp [hmi]

theorem easeBoth_bits (n : Nat) :
    n &&& easeBoth_AnimFlag = easeBoth_AnimFlag ↔
      (n &&& easeIn_AnimFlag ≠ 0 ∧ n &&& easeOut_AnimFlag ≠ 0) := by
  have h6 : n &&& 6 = (n % 2 ^ 3) &&& 6 := land_mask_mod n 6 3 (by norm_num)
  have h2 : n &&& 2 = (n % 2 ^ 3) &&& 2 := land_mask_mod n 2 3 (by norm_num)
  have h4 : n &&& 4 = (n % 2 ^ 3) &&& 4 := land_mask_mod n 4 3 (by norm_num)
  have hr : n % 2 ^ 3 < 8 := Nat.mod_lt _ (by norm_num)
  show n &&& 6 = 6 ↔ (n &&& 2 ≠ 0 ∧ n &&& 4 ≠ 0)
  rw [h6, h2, h4]
  generalize n % 2 ^ 3 = r at hr
  interval_cases r <;> decide

theorem easeIn_mem {t : ℚ} (h0 : 0 ≤ t) (h1 : t ≤ 1) : 0 ≤ easeIn_ t ∧ easeIn_ t ≤ 1 := by
  unfold easeIn_
  constructor <;> nlinarith

theorem easeOut_mem {t : ℚ} (h0 : 0 ≤ t) (h1 : t ≤ 1) : 0 ≤ easeOut_ t ∧ easeOut_ t ≤ 1 := by
  unfold easeOut_
  constructor <;> nlinarith

theorem easeBoth_mem {t : ℚ} (h0 : 0 ≤ t) (h1 : t ≤ 1) :
    0 ≤ easeBoth_ t ∧ easeBoth_ t ≤ 1 := by
  unfold easeBoth_ easeIn_ easeOut_
  split_ifs with h
  · constructor <;> nlinarith
  · push_neg at h
    constructor <;> nlinarith

theorem iterate_mem (f : ℚ → ℚ) (hf : ∀ t, 0 ≤ t → t ≤ 1 → 0 ≤ f t ∧ f t ≤ 1) (k : Nat)
    {t : ℚ} (h0 : 0 ≤ t) (h1 : t ≤ 1) : 0 ≤ f^[k] t ∧ f^[k] t ≤ 1 := by
  induction k generalizing t with
  | zero => exact ⟨h0, h1⟩
  | succ k ih =>
    rw [Function.iterate_succ_apply]
    exact ih (hf t h0 h1).1 (hf t h0 h1).2

theorem easedPosition_mem (flags : Nat) {t : ℚ} (h0 : 0 ≤ t) (h1 : t ≤ 1) :
    0 ≤ easedPosition flags t ∧ easedPosition flags t ≤ 1 := by
  unfold easedPosition
  split_ifs
  · exact iterate_mem _ (fun _ a b => easeBoth_mem a b) _ h0 h1
  · exact iterate_mem _ (fun _ a b => easeIn_mem a b) _ h0 h1
  · exact iterate_mem _ (fun _ a b => easeOut_mem a b) _ h0 h1
  · exact ⟨h0, h1⟩

/-- Between `when` and `due` the source computes the interpolation at the eased position,
plus the bounce term when the bounce flag is set. -/
theorem valueAt_Anim__mid (d : Anim) (now : Nat) (hw : d.when < now) (hd : now < d.due) :
    valueAt_Anim_ d now =
      d.from_ * (1 - easedPosition d.flags (pos_Anim_ d now)) +
        d.to_ * easedPosition d.flags (pos_Anim_ d now) +
        (if d.flags &&& bounce_AnimFlag ≠ 0 then
          d.bounce * ((1 - easeOut_ (easeOut_ (easedPosition d.flags (pos_Anim_ d now)))) *
            easeOut_ (easedPosition d.flags (pos_Anim_ d now)))
        else 0) := by
  have e1 : ¬ now ≥ d.due := by omega
  have e2 : ¬ now ≤ d.when := by omega
  have hE : (if (d.flags &&& easeBoth_AnimFlag) = easeBoth_AnimFlag then
        (if ((d.flags &&& muchSofter_AnimFlag) != 0) = true then
          easeBoth_ (easeBoth_ (if ((d.flags &&& softer_AnimFlag) != 0) = true then
            easeBoth_ (easeBoth_ (pos_Anim_ d now)) else easeBoth_ (pos_Anim_ d now)))
        else (if ((d.flags &&& softer_AnimFlag) != 0) = true then
            easeBoth_ (easeBoth_ (pos_Anim_ d now)) else easeBoth_ (pos_Anim_ d now)))
      else if (d.flags &&& easeIn_AnimFlag) ≠ 0 then
        (if ((d.flags &&& muchSofter_AnimFlag) != 0) = true then
          easeIn_ (easeIn_ (if ((d.flags &&& softer_AnimFlag) != 0) = true then
            easeIn_ (easeIn_ (pos_Anim_ d now)) else easeIn_ (pos_Anim_ d now)))
        else (if ((d.flags &&& softer_AnimFlag) != 0) = true then
            easeIn_ (easeIn_ (pos_Anim_ d now)) else easeIn_ (pos_Anim_ d now)))
      else if (d.flags &&& easeOut_AnimFlag) ≠ 0 then
        (if ((d.flags &&& muchSofter_AnimFlag) != 0) = true then
          easeOut_ (easeOut_ (if ((d.flags &&& softer_AnimFlag) != 0) = true then
            easeOut_ (easeOut_ (pos_Anim_ d now)) else easeOut_ (pos_Anim_ d now)))
        else (if ((d.flags &&& softer_AnimFlag) != 0) = true then
            easeOut_ (easeOut_ (pos_Anim_ d now)) else easeOut_ (pos_Anim_ d now)))
      else pos_Anim_ d now) = easedPosition d.flags (pos_Anim_ d now) := by
    unfold easedPosition extraEasings
    simp only [easeBoth_bits]
    by_cases hs : d.flags &&& softer_AnimFlag = 0 <;>
    by_cases hv : d.flags &&& muchSofter_AnimFlag = 0 <;>
    by_cases hi : d.flags &&& easeIn_AnimFlag = 0 <;>
    by_cases ho : d.flags &&& easeOut_AnimFlag = 0 <;>
    simp [hs, hv, hi, ho, Function.iterate_succ_apply, Function.iterate_zero]
  unfold valueAt_Anim_
  simp only [e1, e2, if_false]
  rw [hE]
  split_ifs <;> ring

theorem pos_Anim__eq (d : Anim) (now : Nat) (hw : d.when < now) (hd : now < d.due)
    (hdue : d.due < 2 ^ 32) :
    pos_Anim_ d now = ((now : ℚ) - (d.when : ℚ)) / ((d.due : ℚ) - (d.when : ℚ)) := by
  unfold pos_Anim_
  rw [u32sub_of_le (le_of_lt hw) (by omega), u32sub_of_le (by omega) hdue]
  rw [Nat.cast_sub (le_of_lt hw), Nat.cast_sub (by omega)]

theorem pos_Anim__mem (d : Anim) (now : Nat) (hw : d.when < now) (hd : now < d.due)
    (hdue : d.due < 2 ^ 32) : 0 < pos_Anim_ d now ∧ pos_Anim_ d now < 1 := by
  rw [pos_Anim__eq d now hw hd hdue]
  have h1 : (d.when : ℚ) < (now : ℚ) := by exact_mod_cast hw
  have h2 : (now : ℚ) < (d.due : ℚ) := by exact_mod_cast hd
  have h3 : (0 : ℚ) < (d.due : ℚ) - (d.when : ℚ) := by linarith
  constructor
  · apply div_pos <;> linarith
  · rw [div_lt_one h3]
    linarith

theorem interpolation_mem (a b e : ℚ) (h0 : 0 ≤ e) (h1 : e ≤ 1) :
    min a b ≤ a * (1 - e) + b * e ∧ a * (1 - e) + b * e ≤ max a b := by
  rcases le_total a b with h | h
  · rw [min_eq_left h, max_eq_right h]
    constructor <;> nlinarith
  · rw [min_eq_right h, max_eq_left h]
    constructor <;> nlinarith

/-! ## Anim: the value at a time -/

/-- C1: for an animation with `due > when`, whatever its flags and bounce, `valueAt_Anim_`
returns exactly `from` at `now = when` and exactly `to` at `now = due`; it returns `from` for
every `now ≤ when` and `to` for every `now ≥ due`. -/
theorem C1_valueAt_endpoints (d : Anim) (h : d.when < d.due) :
    valueAt_Anim_ d d.when = d.from_ ∧ valueAt_Anim_ d d.due = d.to_ ∧
      (∀ now, now ≤ d.when → valueAt_Anim_ d now = d.from_) ∧
      (∀ now, now ≥ d.due → valueAt_Anim_ d now = d.to_) := by
  have hfrom : ∀ now, now ≤ d.when → valueAt_Anim_ d now = d.from_ := by
    intro now hn
    have e1 : ¬ now ≥ d.due := by omega
    unfold valueAt_Anim_
    simp only [e1, hn, if_false, if_true]
  have hto : ∀ now, now ≥ d.due → valueAt_Anim_ d now = d.to_ := by
    intro now hn
    unfold valueAt_Anim_
    simp only [hn, if_true]
  exact ⟨hfrom _ le_rfl, hto _ le_rfl, hfrom, hto⟩

/-- Witness of C1: the ease-out animation from 0 to 100 over the ticks 0..200. -/
theorem C1_valueAt_endpoints_witness :
    sampleAnim.when < sampleAnim.due ∧
      valueAt_Anim_ sampleAnim sampleAnim.when = sampleAnim.from_ ∧
      valueAt_Anim_ sampleAnim sampleAnim.due = sampleAnim.to_ :=
  ⟨by decide, (C1_valueAt_endpoints sampleAnim (by decide)).1,
    (C1_valueAt_endpoints sampleAnim (by decide)).2.1⟩

/-- C2: for an animation with `due > when` whose bounce flag is clear, for every combination
of the easing and softness flags and every `now` in `[when, due]`, the value lies within
`[min from to, max from to]` (arithmetic over the rationals). -/
theorem C2_value_within_range (d : Anim) (now : Nat) (h : d.when < d.due)
    (hdue : d.due < 2 ^ 32) (hb : d.flags &&& bounce_AnimFlag = 0)
    (h1 : d.when ≤ now) (h2 : now ≤ d.due) :
    min d.from_ d.to_ ≤ valueAt_Anim_ d now ∧ valueAt_Anim_ d now ≤ max d.from_ d.to_ := by
  rcases Nat.eq_or_lt_of_le h1 with hw | hw
  · have hv : valueAt_Anim_ d now = d.from_ := by
      have e1 : ¬ now ≥ d.due := by omega
      have e2 : now ≤ d.when := by omega
      unfold valueAt_Anim_
      simp only [e1, e2, if_false, if_true]
    rw [hv]
    exact ⟨min_le_left _ _, le_max_left _ _⟩
  · rcases Nat.eq_or_lt_of_le h2 with hd | hd
    · have hv : valueAt_Anim_ d now = d.to_ := by
        have e1 : now ≥ d.due := by omega
        unfold valueAt_Anim_
        simp only [e1, if_true]
      rw [hv]
      exact ⟨min_le_right _ _, le_max_right _ _⟩
    · rw [valueAt_Anim__mid d now hw hd]
      simp only [hb, ne_eq, not_true_eq_false, if_false, add_zero]
      have hp := pos_Anim__mem d now hw hd hdue
      have he := easedPosition_mem d.flags (le_of_lt hp.1) (le_of_lt hp.2)
      exact interpolation_mem _ _ _ he.1 he.2

/-- Witness of C2: the softer ease-in-out animation from 10 down to 0, halfway. -/
theorem C2_value_within_range_witness :
    (sampleSoftAnim.when < sampleSoftAnim.due ∧ sampleSoftAnim.due < 2 ^ 32 ∧
      sampleSoftAnim.flags &&& bounce_AnimFlag = 0 ∧ sampleSoftAnim.when ≤ 100 ∧
      100 ≤ sampleSoftAnim.due) ∧
    min sampleSoftAnim.from_ sampleSoftAnim.to_ ≤ valueAt_Anim_ sampleSoftAnim 100 ∧
      valueAt_Anim_ sampleSoftAnim 100 ≤ max sampleSoftAnim.from_ sampleSoftAnim.to_ :=
  ⟨⟨by decide, by decide, by decide, by decide, by decide⟩,
    C2_value_within_range sampleSoftAnim 100 (by decide) (by decide) (by decide)
      (by decide) (by decide)⟩

/-- C10: for an animation with `when < now < due` and the bounce flag clear, the value is
`from * (1 - e) + to * e`, where `t = (now - when) / (due - when)` and `e` is the easing
function chosen by the ease bits applied `1 + s` times to `t` (`easedPosition`): `easeBoth`
(`2 t²` below one half, `0.5 + 0.5 * easeOut (2 t - 1)` from there on) when both ease bits
are set, `easeIn` (`t²`) when only the ease-in bit is, `easeOut` (`t (2 - t)`) when only the
ease-out bit is, `e = t` when neither is set; `s` counts one further application for
`softer` and two for `muchSofter`. An ease-out animation from 0 to 100 over 200 ms is at 75
after 100 ms. -/
theorem C10_eased_interpolation (d : Anim) (now : Nat) (hw : d.when < now)
    (hd : now < d.due) (hdue : d.due < 2 ^ 32) (hb : d.flags &&& bounce_AnimFlag = 0) :
    (valueAt_Anim_ d now =
        d.from_ * (1 - easedPosition d.flags
            (((now : ℚ) - (d.when : ℚ)) / ((d.due : ℚ) - (d.when : ℚ)))) +
          d.to_ * easedPosition d.flags
            (((now : ℚ) - (d.when : ℚ)) / ((d.due : ℚ) - (d.when : ℚ)))) ∧
      (∀ t : ℚ, easeIn_ t = t ^ 2) ∧ (∀ t : ℚ, easeOut_ t = t * (2 - t)) ∧
      (∀ t : ℚ, easeBoth_ t =
        if t < 1 / 2 then 2 * t ^ 2 else 1 / 2 + 1 / 2 * easeOut_ (2 * t - 1)) ∧
      (∀ start : Nat, start + 200 < 2 ^ 32 →
        valueAt_Anim_ ⟨0, 100, start, start + 200, easeOut_AnimFlag, 0⟩ (start + 100) = 75) := by
  refine ⟨?_, ?_, ?_, ?_, ?_⟩
  · rw [valueAt_Anim__mid d now hw hd, pos_Anim__eq d now hw hd hdue]
    simp only [hb, ne_eq, not_true_eq_false, if_false, add_zero]
  · intro t
    unfold easeIn_
    ring
  · intro t
    rfl
  · intro t
    unfold easeBoth_ easeIn_ easeOut_
    split_ifs <;> ring
  · intro start hs
    rw [valueAt_Anim__mid _ _ (by simp) (by simp), pos_Anim__eq _ _ (by simp) (by simp)
      (by simpa using hs)]
    have hfl : easeOut_AnimFlag &&& bounce_AnimFlag = 0 := by decide
    have he : ∀ t : ℚ, easedPosition easeOut_AnimFlag t = easeOut_ t := by
      intro t
      have hi : easeOut_AnimFlag &&& easeIn_AnimFlag = 0 := by decide
      have ho : easeOut_AnimFlag ≠ 0 := by decide
      have hx : extraEasings easeOut_AnimFlag = 0 := by decide
      unfold easedPosition
      simp [hi, ho, hx]
    simp only [hfl, he, ne_eq, not_true_eq_false, if_false, add_zero]
    unfold easeOut_
    push_cast
    have hne : ((start : ℚ) + 200 - (start : ℚ)) = 200 := by ring
    have hne2 : ((start : ℚ) + 100 - (start : ℚ)) = 100 := by ring
    rw [hne, hne2]
    norm_num

/-- Witness of C10: the ease-out animation from 0 to 100 over the ticks 0..200, at 100. -/
theorem C10_eased_interpolation_witness :
    (sampleAnim.when < 100 ∧ 100 < sampleAnim.due ∧ sampleAnim.due < 2 ^ 32 ∧
      sampleAnim.flags &&& bounce_AnimFlag = 0) ∧
    valueAt_Anim_ sampleAnim 100 =
      sampleAnim.from_ * (1 - easedPosition sampleAnim.flags
          ((((100 : Nat) : ℚ) - (sampleAnim.when : ℚ)) /
            ((sampleAnim.due : ℚ) - (sampleAnim.when : ℚ)))) +
        sampleAnim.to_ * easedPosition sampleAnim.flags
          ((((100 : Nat) : ℚ) - (sampleAnim.when : ℚ)) /
            ((sampleAnim.due : ℚ) - (sampleAnim.when : ℚ))) :=
  ⟨⟨by decide, by decide, by decide, by decide⟩,
    (C10_eased_interpolation sampleAnim 100 (by decide) (by decide) (by decide)
      (by decide)).1⟩

/-! ## Anim: retargeting -/

theorem valueAt_Anim__of_le_when (d : Anim) (now : Nat) (h1 : now ≤ d.when)
    (h2 : now < d.due) : valueAt_Anim_ d now = d.from_ := by
  have e1 : ¬ now ≥ d.due := by omega
  unfold valueAt_Anim_
  simp only [e1, h1, if_false, if_true]

theorem valueAt_Anim__of_due_le (d : Anim) (now : Nat) (h : d.due ≤ now) :
    valueAt_Anim_ d now = d.to_ := by
  have e1 : now ≥ d.due := h
  unfold valueAt_Anim_
  simp only [e1, if_true]

/-- An animation with equal endpoints and an inactive bounce term is at its target. -/
theorem valueAt_Anim__of_from_eq_to (d : Anim) (now : Nat) (h : d.from_ = d.to_)
    (hb : d.flags &&& bounce_AnimFlag = 0 ∨ d.bounce = 0) : valueAt_Anim_ d now = d.to_ := by
  by_cases h1 : d.due ≤ now
  · exact valueAt_Anim__of_due_le d now h1
  · by_cases h2 : now ≤ d.when
    · rw [valueAt_Anim__of_le_when d now h2 (by omega), h]
    · rw [valueAt_Anim__mid d now (by omega) (by omega), h]
      rcases hb with hb | hb
      · simp only [hb, ne_eq, not_true_eq_false, if_false]
        ring
      · rw [hb]
        split_ifs <;> ring

theorem truncToInt_intCast (k : Int) : truncToInt (k : ℚ) = k := by
  unfold truncToInt
  simp

theorem iCmp_lt_zero (a b : Nat) : iCmp a b < 0 ↔ a < b := by
  unfold iCmp
  split_ifs with h1 h2
  · simp [h1]
  · simp [h2]
  · simp [h2]

theorem iCmp_eq_zero (a b : Nat) : iCmp a b = 0 ↔ a = b := by
  unfold iCmp
  split_ifs with h1 h2
  · simp [h1]
  · simp [h1]
  · simp [h1]

theorem mem_insert_SortedArray (ts : List Ticker) (x t : Ticker)
    (h : t ∈ insert_SortedArray cmp_Ticker_ ts x) : t = x ∨ t ∈ ts := by
  induction ts with
  | nil =>
    simp only [insert_SortedArray, List.mem_singleton] at h
    exact Or.inl h
  | cons y ys ih =>
    simp only [insert_SortedArray] at h
    split_ifs at h with h1 h2
    · rcases List.mem_cons.mp h with h | h
      · exact Or.inl h
      · exact Or.inr h
    · rcases List.mem_cons.mp h with h | h
      · exact Or.inl h
      · exact Or.inr (List.mem_cons_of_mem _ h)
    · rcases List.mem_cons.mp h with h | h
      · exact Or.inr (h ▸ List.mem_cons_self _ _)
      · rcases ih h with h | h
        · exact Or.inl h
        · exact Or.inr (List.mem_cons_of_mem _ h)

theorem self_mem_insert_SortedArray (ts : List Ticker) (x : Ticker) :
    x ∈ insert_SortedArray cmp_Ticker_ ts x := by
  induction ts with
  | nil => simp [insert_SortedArray]
  | cons y ys ih =>
    simp only [insert_SortedArray]
    split_ifs
    · exact List.mem_cons_self _ _
    · exact List.mem_cons_self _ _
    · exact List.mem_cons_of_mem _ ih

theorem insert_SortedArray_sorted (ts : List Ticker) (x : Ticker) (h : TickersSorted ts) :
    TickersSorted (insert_SortedArray cmp_Ticker_ ts x) := by
  unfold TickersSorted at *
  induction ts with
  | nil => simp [insert_SortedArray]
  | cons y ys ih =>
    obtain ⟨hy, hys⟩ := List.pairwise_cons.mp h
    simp only [insert_SortedArray]
    split_ifs with h1 h2
    · have hxy : x.context < y.context := (iCmp_lt_zero _ _).mp h1
      refine List.pairwise_cons.mpr ⟨?_, h⟩
      intro z hz
      rcases List.mem_cons.mp hz with hz | hz
      · rw [hz]
        exact hxy
      · exact lt_trans hxy (hy z hz)
    · have hxy : x.context = y.context := (iCmp_eq_zero _ _).mp h2
      refine List.pairwise_cons.mpr ⟨?_, hys⟩
      intro z hz
      rw [hxy]
      exact hy z hz
    · have hlt : ¬ x.context < y.context := fun hc => h1 ((iCmp_lt_zero _ _).mpr hc)
      have hne : ¬ x.context = y.context := fun hc => h2 ((iCmp_eq_zero _ _).mpr hc)
      refine List.pairwise_cons.mpr ⟨?_, ih hys⟩
      intro z hz
      rcases mem_insert_SortedArray ys x z hz with hz | hz
      · rw [hz]
        omega
      · exact hy z hz

theorem remove_SortedArray_sublist (ts : List Ticker) (x : Ticker) :
    (remove_SortedArray cmp_Ticker_ ts x).Sublist ts := by
  induction ts with
  | nil => simp [remove_SortedArray]
  | cons y ys ih =>
    simp only [remove_SortedArray]
    split_ifs
    · exact List.sublist_cons_self _ _
    · exact ih.cons₂ _

theorem remove_SortedArray_sorted (ts : List Ticker) (x : Ticker) (h : TickersSorted ts) :
    TickersSorted (remove_SortedArray cmp_Ticker_ ts x) :=
  List.Pairwise.sublist (remove_SortedArray_sublist ts x) h

/-- In a sorted collection no entry beyond the head has the head's context or a smaller
one. -/
theorem countContext_eq_zero_of_lt (ts : List Ticker) (c : Nat)
    (h : ∀ z ∈ ts, c < z.context) : countContext ts c = 0 := by
  unfold countContext
  rw [List.length_eq_zero, List.filter_eq_nil_iff]
  intro z hz
  have := h z hz
  simp only [decide_eq_true_eq]
  omega

theorem countContext_cons (y : Ticker) (ys : List Ticker) (c : Nat) :
    countContext (y :: ys) c = (if y.context = c then 1 else 0) + countContext ys c := by
  unfold countContext
  by_cases h : y.context = c
  · simp [List.filter_cons, h]
    omega
  · simp [List.filter_cons, h]

theorem countContext_le_one (ts : List Ticker) (h : TickersSorted ts) (c : Nat) :
    countContext ts c ≤ 1 := by
  unfold TickersSorted at h
  induction ts with
  | nil => simp [countContext]
  | cons y ys ih =>
    obtain ⟨hy, hys⟩ := List.pairwise_cons.mp h
    rw [countContext_cons]
    split_ifs with hc
    · rw [countContext_eq_zero_of_lt ys c (fun z hz => hc ▸ hy z hz)]
    · have := ih hys
      omega

theorem countContext_pos_of_mem (ts : List Ticker) (t : Ticker) (h : t ∈ ts) :
    0 < countContext ts t.context := by
  unfold countContext
  apply List.length_pos_of_mem (a := t)
  simp [List.mem_filter, h]

/-- What `insert_SortedArray` does to a sorted collection: entries with another context stay,
and the length grows by one exactly when the context was absent. -/
theorem insert_SortedArray_spec (ts : List Ticker) (x : Ticker) (h : TickersSorted ts) :
    (∀ t, t.context ≠ x.context →
        (t ∈ insert_SortedArray cmp_Ticker_ ts x ↔ t ∈ ts)) ∧
      (insert_SortedArray cmp_Ticker_ ts x).length =
        ts.length + 1 - countContext ts x.context := by
  unfold TickersSorted at h
  induction ts with
  | nil =>
    refine ⟨fun t ht => ?_, by simp [insert_SortedArray, countContext]⟩
    simp only [insert_SortedArray, List.mem_singleton, List.not_mem_nil, iff_false]
    exact fun hc => ht (hc ▸ rfl)
  | cons y ys ih =>
    obtain ⟨hy, hys⟩ := List.pairwise_cons.mp h
    obtain ⟨ih1, ih2⟩ := ih hys
    simp only [insert_SortedArray]
    rw [countContext_cons]
    split_ifs with h1 h2 h3 h4 h5
    · have hxy : x.context < y.context := (iCmp_lt_zero _ _).mp h1
      omega
    · have hxy : x.context < y.context := (iCmp_lt_zero _ _).mp h1
      refine ⟨?_, ?_⟩
      · intro t ht
        simp only [List.mem_cons]
        constructor
        · rintro (h | h)
          · exact absurd (h ▸ rfl) ht
          · exact h
        · exact Or.inr
      · rw [countContext_eq_zero_of_lt ys x.context (fun z hz => lt_trans hxy (hy z hz))]
        simp
    · refine ⟨?_, ?_⟩
      · intro t ht
        simp only [List.mem_cons]
        constructor
        · rintro (h | h)
          · exact absurd (h ▸ rfl) ht
          · exact Or.inr h
        · rintro (h | h)
          · exact absurd (h ▸ h4) ht
          · exact Or.inr h
      · rw [countContext_eq_zero_of_lt ys x.context (fun z hz => h4 ▸ hy z hz)]
        simp
    · exact absurd ((iCmp_eq_zero _ _).mp h3).symm h4
    · exact absurd ((iCmp_eq_zero _ _).mpr h5.symm) h3
    · refine ⟨?_, ?_⟩
      · intro t ht
        simp only [List.mem_cons]
        rw [ih1 t ht]
      · have hc := countContext_le_one ys hys x.context
        simp only [List.length_cons]
        omega

theorem postRefresh_App_tickers (B : Build) (d : App) :
    (postRefresh_App B d).tickers = d.tickers := by
  unfold postRefresh_App
  simp only []
  split_ifs <;> rfl

theorem postRefresh_App_currentRoot (B : Build) (d : App) :
    (postRefresh_App B d).currentRoot = d.currentRoot := by
  unfold postRefresh_App
  simp only []
  split_ifs <;> rfl

theorem addTickerRoot_App_tickers (B : Build) (d : App) (ticker root : Option Nat)
    (context : Nat) :
    (addTickerRoot_App B d ticker root context).tickers =
      insert_SortedArray cmp_Ticker_ d.tickers ⟨context, root, ticker⟩ := by
  unfold addTickerRoot_App
  rw [postRefresh_App_tickers]

theorem addTicker_App_eq (B : Build) (d : App) (ticker : Option Nat) (context : Nat) :
    addTicker_App B d ticker context = addTickerRoot_App B d ticker d.currentRoot context :=
  rfl

theorem TickerOp.apply_sorted (B : Build) (d : App) (op : TickerOp)
    (h : TickersSorted d.tickers) : TickersSorted (TickerOp.apply B d op).tickers := by
  cases op with
  | addTicker ticker context =>
    show TickersSorted (addTicker_App B d ticker context).tickers
    rw [addTicker_App_eq, addTickerRoot_App_tickers]
    exact insert_SortedArray_sorted _ _ h
  | addTickerRoot ticker root context =>
    show TickersSorted (addTickerRoot_App B d ticker root context).tickers
    rw [addTickerRoot_App_tickers]
    exact insert_SortedArray_sorted _ _ h
  | removeTicker ticker context => exact remove_SortedArray_sorted _ _ h
  | setCurrent root => exact h

theorem foldl_apply_sorted (B : Build) (ops : List TickerOp) (d : App)
    (h : TickersSorted d.tickers) : TickersSorted (ops.foldl (TickerOp.apply B) d).tickers := by
  induction ops generalizing d with
  | nil => exact h
  | cons op ops ih => exact ih _ (TickerOp.apply_sorted B d op h)

/-- C6: after every sequence of `addTicker_App` / `addTickerRoot_App` / `removeTicker_App`
calls (and changes of the current root), starting from the empty collection, the ticker
collection is sorted by context and holds at most one entry per context; registering then
puts the new entry in the collection as the only one with its context, leaves the entries
of other contexts as they are, leaves the number of entries unchanged when the context was
present (the entry is replaced) and adds exactly one entry when it was not. -/
theorem C6_ticker_collection (B : Build) (d0 : App) (h0 : d0.tickers = [])
    (ops : List TickerOp) :
    TickersSorted (ops.foldl (TickerOp.apply B) d0).tickers ∧
      (∀ c, countContext (ops.foldl (TickerOp.apply B) d0).tickers c ≤ 1) ∧
      (∀ (ticker root : Option Nat) (context : Nat),
        (⟨context, root, ticker⟩ : Ticker) ∈
            (addTickerRoot_App B (ops.foldl (TickerOp.apply B) d0) ticker root context).tickers ∧
          countContext
            (addTickerRoot_App B (ops.foldl (TickerOp.apply B) d0) ticker root context).tickers
            context = 1 ∧
          (∀ t : Ticker, t.context ≠ context →
            (t ∈ (addTickerRoot_App B (ops.foldl (TickerOp.apply B) d0) ticker root
                context).tickers ↔
              t ∈ (ops.foldl (TickerOp.apply B) d0).tickers)) ∧
          (countContext (ops.foldl (TickerOp.apply B) d0).tickers context = 1 →
            (addTickerRoot_App B (ops.foldl (TickerOp.apply B) d0) ticker root
                context).tickers.length =
              (ops.foldl (TickerOp.apply B) d0).tickers.length) ∧
          (countContext (ops.foldl (TickerOp.apply B) d0).tickers context = 0 →
            (addTickerRoot_App B (ops.foldl (TickerOp.apply B) d0) ticker root
                context).tickers.length =
              (ops.foldl (TickerOp.apply B) d0).tickers.length + 1)) ∧
      (∀ (ticker : Option Nat) (context : Nat),
        addTicker_App B (ops.foldl (TickerOp.apply B) d0) ticker context =
          addTickerRoot_App B (ops.foldl (TickerOp.apply B) d0) ticker
            (ops.foldl (TickerOp.apply B) d0).currentRoot context) := by
  have hs : TickersSorted (ops.foldl (TickerOp.apply B) d0).tickers :=
    foldl_apply_sorted B ops d0 (by rw [h0]; exact List.Pairwise.nil)
  refine ⟨hs, countContext_le_one _ hs, ?_, fun _ _ => rfl⟩
  intro ticker root context
  rw [addTickerRoot_App_tickers]
  obtain ⟨hmem, hlen⟩ :=
    insert_SortedArray_spec (ops.foldl (TickerOp.apply B) d0).tickers ⟨context, root, ticker⟩ hs
  have hself := self_mem_insert_SortedArray (ops.foldl (TickerOp.apply B) d0).tickers
    ⟨context, root, ticker⟩
  have hle := countContext_le_one _
    (insert_SortedArray_sorted _ (⟨context, root, ticker⟩ : Ticker) hs) context
  have hpos := countContext_pos_of_mem _ _ hself
  refine ⟨hself, ?_, hmem, ?_, ?_⟩
  · simp only at hpos
    omega
  · intro hc
    rw [hlen]
    simp only
    omega
  · intro hc
    rw [hlen]
    simp only
    omega

/-- Witness of C6: context 7 is registered, context 3 is registered, context 7 is
registered again with another callback and root, context 3 is removed. -/
theorem C6_ticker_collection_witness :
    sampleApp.tickers = [] ∧
      TickersSorted (sampleTickerOps.foldl (TickerOp.apply sampleBuild) sampleApp).tickers ∧
      (sampleTickerOps.foldl (TickerOp.apply sampleBuild) sampleApp).tickers =
        [⟨7, some 2, some 51⟩] :=
  ⟨rfl, (C6_ticker_collection sampleBuild sampleApp rfl sampleTickerOps).1, by decide⟩


/-! ## The ticker pass -/

/-- The calls made by the loop are those of the entries that have a callback, in order,
whatever the callbacks do. -/
theorem runPending__calls (run : Nat → Nat → App → App) (ts : List Ticker) (d : App)
    (calls : List TickerCall) :
    (runPending_ run ts d calls).2 =
      calls ++ ts.filterMap (fun t => t.callback.map (fun f => ⟨f, t.context, t.root⟩)) := by
  induction ts generalizing d calls with
  | nil => simp [runPending_]
  | cons t rest ih =>
    cases hcb : t.callback with
    | none =>
      simp only [runPending_, hcb]
      rw [ih]
      simp [List.filterMap_cons, hcb]
    | some f =>
      simp only [runPending_, hcb]
      rw [ih]
      simp [List.filterMap_cons, hcb]

/-- In a sorted collection the calls for a context are the one call of its entry. -/
theorem calls_of_context (ts : List Ticker) (h : TickersSorted ts) (X : Nat)
    (root : Option Nat) (f : Nat) (hmem : (⟨X, root, some f⟩ : Ticker) ∈ ts) :
    (ts.filterMap (fun t => t.callback.map (fun g => (⟨g, t.context, t.root⟩ : TickerCall)))).filter
        (fun c => c.context = X) = [⟨f, X, root⟩] := by
  unfold TickersSorted at h
  induction ts with
  | nil => simp at hmem
  | cons y ys ih =>
    obtain ⟨hy, hys⟩ := List.pairwise_cons.mp h
    have hnone : ∀ zs : List Ticker, (∀ z ∈ zs, X < z.context) →
        (zs.filterMap (fun t => t.callback.map
          (fun g => (⟨g, t.context, t.root⟩ : TickerCall)))).filter
            (fun c => c.context = X) = [] := by
      intro zs hzs
      rw [List.filter_eq_nil_iff]
      intro c hc
      obtain ⟨z, hz, hzc⟩ := List.mem_filterMap.mp hc
      cases hcb : z.callback with
      | none => simp [hcb] at hzc
      | some g =>
        simp only [hcb, Option.map_some', Option.some.injEq] at hzc
        have := hzs z hz
        simp only [decide_eq_true_eq]
        rw [← hzc]
        simp only
        omega
    rcases List.mem_cons.mp hmem with hm | hm
    · rw [← hm]
      simp only [List.filterMap_cons, Option.map_some']
      rw [List.filter_cons]
      simp only [decide_True, if_true]
      rw [hnone ys (fun z hz => by have := hy z hz; rw [← hm] at this; exact this)]
    · have hlt : y.context < X := hy _ hm
      have hrest := ih hys hm
      cases hcb : y.callback with
      | none =>
        simp only [List.filterMap_cons, hcb, Option.map_none']
        exact hrest
      | some g =>
        simp only [List.filterMap_cons, hcb, Option.map_some']
        rw [List.filter_cons]
        have hne : ¬ y.context = X := by omega
        simp only [hne, decide_False, Bool.false_eq_true, if_false]
        exact hrest

theorem mem_insert_SortedArray_of_mem (ts : List Ticker) (x t : Ticker) (h : t ∈ ts)
    (hne : t.context ≠ x.context) : t ∈ insert_SortedArray cmp_Ticker_ ts x := by
  induction ts with
  | nil => simp at h
  | cons y ys ih =>
    simp only [insert_SortedArray]
    split_ifs with h1 h2
    · exact List.mem_cons_of_mem _ h
    · have hxy : x.context = y.context := (iCmp_eq_zero _ _).mp h2
      rcases List.mem_cons.mp h with h | h
      · exact absurd (h ▸ hxy.symm) hne
      · exact List.mem_cons_of_mem _ h
    · rcases List.mem_cons.mp h with h | h
      · exact h ▸ List.mem_cons_self _ _
      · exact List.mem_cons_of_mem _ (ih h)

theorem registered_addTicker_App (B : Build) (s : App) (f X : Nat) :
    Registered X f (addTicker_App B s (some f) X) := by
  refine ⟨⟨X, s.currentRoot, some f⟩, ?_, rfl, rfl⟩
  rw [addTicker_App_eq, addTickerRoot_App_tickers]
  exact self_mem_insert_SortedArray _ _

theorem registered_addTicker_App_other (B : Build) (s : App) (f X g Y : Nat) (hne : Y ≠ X)
    (h : Registered X f s) : Registered X f (addTicker_App B s (some g) Y) := by
  obtain ⟨e, he, hc, hf⟩ := h
  refine ⟨e, ?_, hc, hf⟩
  rw [addTicker_App_eq, addTickerRoot_App_tickers]
  exact mem_insert_SortedArray_of_mem _ _ _ he (by rw [hc]; exact fun h => hne h.symm)

theorem sorted_context_unique (ts : List Ticker) (h : TickersSorted ts) (a b : Ticker)
    (ha : a ∈ ts) (hb : b ∈ ts) (hc : a.context = b.context) : a = b := by
  unfold TickersSorted at h
  induction ts with
  | nil => simp at ha
  | cons y ys ih =>
    obtain ⟨hy, hys⟩ := List.pairwise_cons.mp h
    rcases List.mem_cons.mp ha with ha | ha <;> rcases List.mem_cons.mp hb with hb | hb
    · rw [ha, hb]
    · have := hy b hb
      rw [← ha, hc] at this
      omega
    · have := hy a ha
      rw [← hb, hc] at this
      omega
    · exact ih hys ha hb

theorem runPending__registered (run : Nat → Nat → App → App) (X f : Nat) (root : Option Nat)
    (hself : ∀ s, Registered X f (run f X s)) (ts : List Ticker) (d : App)
    (calls : List TickerCall)
    (hX : ∀ t ∈ ts, t.context = X → t = ⟨X, root, some f⟩)
    (hothers : ∀ t ∈ ts, t.context ≠ X → ∀ g, t.callback = some g →
      ∀ s, Registered X f s → Registered X f (run g t.context s))
    (hstart : Registered X f d ∨ (⟨X, root, some f⟩ : Ticker) ∈ ts) :
    Registered X f (runPending_ run ts d calls).1 := by
  induction ts generalizing d calls with
  | nil =>
    rcases hstart with h | h
    · exact h
    · simp at h
  | cons t rest ih =>
    have hX' : ∀ t ∈ rest, t.context = X → t = ⟨X, root, some f⟩ :=
      fun z hz => hX z (List.mem_cons_of_mem _ hz)
    have hothers' : ∀ t ∈ rest, t.context ≠ X → ∀ g, t.callback = some g →
        ∀ s, Registered X f s → Registered X f (run g t.context s) :=
      fun z hz => hothers z (List.mem_cons_of_mem _ hz)
    by_cases hc : t.context = X
    · have ht := hX t (List.mem_cons_self _ _) hc
      rw [ht]
      simp only [runPending_]
      exact ih _ _ hX' hothers' (Or.inl (hself _))
    · have hrest : Registered X f d ∨ (⟨X, root, some f⟩ : Ticker) ∈ rest := by
        rcases hstart with h | h
        · exact Or.inl h
        · rcases List.mem_cons.mp h with h | h
          · exact absurd (h ▸ rfl) hc
          · exact Or.inr h
      cases hcb : t.callback with
      | none =>
        simp only [runPending_, hcb]
        exact ih _ _ hX' hothers' hrest
      | some g =>
        simp only [runPending_, hcb]
        refine ih _ _ hX' hothers' ?_
        rcases hrest with h | h
        · exact Or.inl (hothers t (List.mem_cons_self _ _) hc g hcb _ h)
        · exact Or.inr h

/-- A pass over a non-empty collection: the calls and the live collection are those of the
loop over the copy, started from the cleared collection with the refresh posted. -/
theorem runTickers_App__nonempty (B : Build) (run : Nat → Nat → App → App) (now : Nat)
    (d : App) (hne : d.tickers.isEmpty = false) :
    (runTickers_App_ B run now d).2 =
        (runPending_ run d.tickers
          (postRefresh_App B
            { d with
              elapsedSinceLastTicker :=
                if d.lastTickerTime ≠ 0 then u32sub now d.lastTickerTime else 0
              lastTickerTime := now
              tickers := [] }) []).2 ∧
      (runTickers_App_ B run now d).1.tickers =
        (runPending_ run d.tickers
          (postRefresh_App B
            { d with
              elapsedSinceLastTicker :=
                if d.lastTickerTime ≠ 0 then u32sub now d.lastTickerTime else 0
              lastTickerTime := now
              tickers := [] }) []).1.tickers := by
  unfold runTickers_App_
  simp only [hne, Bool.false_eq_true, if_false, true_and]
  split_ifs <;> rfl

/-- The loop over a sorted copy that holds the self-registering ticker of context `X`: the
ticker is registered afterwards as soon as the callbacks that run after it (the entries of
larger context) leave it registered. -/
theorem runPending__registered_sorted (run : Nat → Nat → App → App) (X f : Nat)
    (root : Option Nat) (hself : ∀ s, Registered X f (run f X s)) (ts : List Ticker)
    (hsorted : TickersSorted ts) (d : App) (calls : List TickerCall)
    (hmem : (⟨X, root, some f⟩ : Ticker) ∈ ts)
    (hlater : ∀ t ∈ ts, X < t.context → ∀ g, t.callback = some g →
      ∀ s, Registered X f s → Registered X f (run g t.context s)) :
    Registered X f (runPending_ run ts d calls).1 := by
  induction ts generalizing d calls with
  | nil => simp at hmem
  | cons t rest ih =>
    unfold TickersSorted at hsorted
    obtain ⟨hy, hys⟩ := List.pairwise_cons.mp hsorted
    have hlater' : ∀ t ∈ rest, X < t.context → ∀ g, t.callback = some g →
        ∀ s, Registered X f s → Registered X f (run g t.context s) :=
      fun z hz => hlater z (List.mem_cons_of_mem _ hz)
    by_cases ht : t = ⟨X, root, some f⟩
    · rw [ht]
      simp only [runPending_]
      have hgt : ∀ z ∈ rest, X < z.context := by
        intro z hz
        have := hy z hz
        rw [ht] at this
        exact this
      refine runPending__registered run X f root hself rest _ _ ?_ ?_ (Or.inl (hself _))
      · intro z hz hc
        have := hgt z hz
        omega
      · intro z hz _
        exact hlater' z hz (hgt z hz)
    · have hrest : (⟨X, root, some f⟩ : Ticker) ∈ rest := by
        rcases List.mem_cons.mp hmem with h | h
        · exact absurd h.symm ht
        · exact h
      cases hcb : t.callback with
      | none =>
        simp only [runPending_, hcb]
        exact ih hys _ _ hrest hlater'
      | some g =>
        simp only [runPending_, hcb]
        exact ih hys _ _ hrest hlater'

/-- C7, as the source has it: a ticker whose callback ends by registering itself again (a
call of `addTicker_App` with its own callback and context) is called exactly once by one
`runTickers_App_` pass, and is registered in the live collection when the pass returns,
provided the callbacks that the pass runs after it (those of the tickers of larger context)
leave a registered ticker of that context registered. The pass is a total function: it
returns. -/
theorem C7_self_reregistering_ticker (B : Build) (run : Nat → Nat → App → App) (now : Nat)
    (d : App) (X f : Nat) (root : Option Nat) (hsorted : TickersSorted d.tickers)
    (hmem : (⟨X, root, some f⟩ : Ticker) ∈ d.tickers)
    (hself : ∀ s, ∃ s1, run f X s = addTicker_App B s1 (some f) X)
    (hlater : ∀ t ∈ d.tickers, X < t.context → ∀ g, t.callback = some g →
      ∀ s, Registered X f s → Registered X f (run g t.context s)) :
    (runTickers_App_ B run now d).2.filter (fun c => c.context = X) = [⟨f, X, root⟩] ∧
      Registered X f (runTickers_App_ B run now d).1 := by
  have hne : d.tickers.isEmpty = false := by
    cases hts : d.tickers with
    | nil => rw [hts] at hmem; simp at hmem
    | cons y ys => rfl
  have hself' : ∀ s, Registered X f (run f X s) := by
    intro s
    obtain ⟨s1, hs1⟩ := hself s
    rw [hs1]
    exact registered_addTicker_App B s1 f X
  have hreg := runPending__registered_sorted run X f root hself' d.tickers hsorted
    (postRefresh_App B
      { d with
        elapsedSinceLastTicker :=
          if d.lastTickerTime ≠ 0 then u32sub now d.lastTickerTime else 0
        lastTickerTime := now
        tickers := [] }) [] hmem hlater
  obtain ⟨hcalls, htick⟩ := runTickers_App__nonempty B run now d hne
  constructor
  · rw [hcalls, runPending__calls, List.nil_append]
    exact calls_of_context d.tickers hsorted X root f hmem
  · obtain ⟨e, he, hc, hf⟩ := hreg
    exact ⟨e, htick ▸ he, hc, hf⟩

/-- Witness of C7: two tickers, of contexts 3 and 7, whose callbacks register themselves
again; the pass calls the ticker of context 3 once and leaves it registered, the callback
of context 7 running after it. -/
theorem C7_self_reregistering_ticker_witness :
    (TickersSorted sampleTickerApp.tickers ∧
      (⟨3, none, some 50⟩ : Ticker) ∈ sampleTickerApp.tickers) ∧
    (runTickers_App_ sampleBuild sampleRun 5000 sampleTickerApp).2.filter
        (fun c => c.context = 3) = [⟨50, 3, none⟩] ∧
      Registered 3 50 (runTickers_App_ sampleBuild sampleRun 5000 sampleTickerApp).1 :=
  ⟨⟨by unfold TickersSorted; decide, by decide⟩,
    C7_self_reregistering_ticker sampleBuild sampleRun 5000 sampleTickerApp 3 50 none
      (by unfold TickersSorted; decide) (by decide) (fun s => ⟨s, rfl⟩)
      (by
        intro t _ hc g _ s hs
        have h3 : t.context ≠ 3 := by omega
        exact registered_addTicker_App_other sampleBuild s 50 3 g t.context h3 hs)⟩

/-- C7 as stated fails: the ticker of context 3 registers itself again each time it runs
and the pass calls it exactly once, but the callback of context 7, which the same pass runs
after it, unregisters context 3, and when the pass returns the collection is empty. -/
theorem C7_counterexample :
    (TickersSorted sampleTickerApp.tickers ∧
      (⟨3, none, some 50⟩ : Ticker) ∈ sampleTickerApp.tickers ∧
      ∀ s, sampleUnregisteringRun 50 3 s = addTicker_App sampleBuild s (some 50) 3) ∧
    (runTickers_App_ sampleBuild sampleUnregisteringRun 5000 sampleTickerApp).2.filter
        (fun c => c.context = 3) = [⟨50, 3, none⟩] ∧
      (runTickers_App_ sampleBuild sampleUnregisteringRun 5000 sampleTickerApp).1.tickers =
        [] ∧
      ¬ Registered 3 50
        (runTickers_App_ sampleBuild sampleUnregisteringRun 5000 sampleTickerApp).1 := by
  have hempty :
      (runTickers_App_ sampleBuild sampleUnregisteringRun 5000 sampleTickerApp).1.tickers =
        [] := by decide
  refine ⟨⟨by unfold TickersSorted; decide, by decide, fun s => rfl⟩, by decide, hempty, ?_⟩
  rintro ⟨e, he, _⟩
  rw [hempty] at he
  simp at he


/-! ## Commands deferred until launch has finished -/

theorem postCommand_Root_deferred (app : App) (d : Option Nat) (r : List Char)
    (h : app.isFinishedLaunching = false) :
    postCommand_Root app d ('~' :: r) =
      { app with launchCommands := app.launchCommands ++ [r] } := by
  unfold postCommand_Root
  simp [h]

theorem foldl_postCommand_Root_deferred (d : Option Nat) (rs : List (List Char)) (app : App)
    (h : app.isFinishedLaunching = false) :
    rs.foldl (fun a r => postCommand_Root a d ('~' :: r)) app =
      { app with launchCommands := app.launchCommands ++ rs } := by
  induction rs generalizing app with
  | nil => simp
  | cons r rs ih =>
    rw [List.foldl_cons, postCommand_Root_deferred app d r h,
      ih { app with launchCommands := app.launchCommands ++ [r] } h]
    simp

theorem pushCommand__events (app : App) (d : Option Nat) (c : List Char) :
    (pushCommand_ app d c).events = app.events ++ [Event.command c d] ∧
      (pushCommand_ app d c).isFinishedLaunching = app.isFinishedLaunching := by
  unfold pushCommand_
  simp only []
  split_ifs <;> exact ⟨rfl, rfl⟩

/-- After launch, posting a text pushes the event of its stripped text, or nothing when the
text is empty. -/
theorem postCommand_Root_launched (app : App) (d : Option Nat) (c : List Char)
    (h : app.isFinishedLaunching = true) :
    (postCommand_Root app d c).events = app.events ++ (postedEvent d c).toList ∧
      (postCommand_Root app d c).isFinishedLaunching = true := by
  have hp := fun c1 => pushCommand__events app d c1
  unfold postCommand_Root postedEvent strippedCommand
  by_cases h1 : c.length = 0
  · simp [h1, h]
  · simp only [h1, if_false, h, Bool.true_eq_false, Option.toList_some]
    by_cases h2 : c.head? = some '!'
    · simp only [h2, if_true]
      by_cases h3 : c.tail.head? = some '~'
      · simp only [h3, if_true]
        exact ⟨(hp _).1, (hp _).2.trans h⟩
      · simp only [h3, if_false]
        exact ⟨(hp _).1, (hp _).2.trans h⟩
    · simp only [h2, if_false]
      by_cases h3 : c.head? = some '~'
      · simp only [h3, if_true]
        exact ⟨(hp _).1, (hp _).2.trans h⟩
      · simp only [h3, if_false]
        exact ⟨(hp _).1, (hp _).2.trans h⟩

theorem foldl_postCommand_Root_launched (d : Option Nat) (cs : List (List Char)) (app : App)
    (h : app.isFinishedLaunching = true) :
    (cs.foldl (fun a c => postCommandString_Root a d c) app).events =
      app.events ++ cs.filterMap (postedEvent d) := by
  induction cs generalizing app with
  | nil => simp
  | cons c cs ih =>
    obtain ⟨h1, h2⟩ := postCommand_Root_launched app d c h
    rw [List.foldl_cons]
    unfold postCommandString_Root at ih ⊢
    rw [ih _ h2, h1, List.append_assoc]
    congr 1
    cases hp : postedEvent d c <;> simp [List.filterMap_cons, hp]

theorem postedEvent_plain (d : Option Nat) (c : List Char)
    (h : c ≠ [] ∧ c.head? ≠ some '!' ∧ c.head? ≠ some '~') :
    postedEvent d c = some (Event.command c d) := by
  obtain ⟨h1, h2, h3⟩ := h
  have hl : ¬ c.length = 0 := fun hc => h1 (List.length_eq_zero.mp hc)
  unfold postedEvent strippedCommand
  simp only [hl, h2, h3, if_false]

/-- C8: while launch is not finished, `postCommand_Root` with a text beginning with `~`
pushes no event and appends the text with the marker stripped to the end of the
launch-command list (nothing else changes); when launch finishes, the queued texts are
posted through `postCommand_Root`, once each and in list order, which is the order of the
original posts. Each queued text thereby pushes one command event with its stripped text,
except the empty text, for which `postCommand_Root` does nothing: for queued texts that are
not empty and do not begin with a marker the events pushed are exactly the queued texts in
order. -/
theorem C8_deferred_until_launch (app : App) (d : Option Nat)
    (h : app.isFinishedLaunching = false) (rs : List (List Char)) :
    (∀ r : List Char, postCommand_Root app d ('~' :: r) =
        { app with launchCommands := app.launchCommands ++ [r] }) ∧
      (rs.foldl (fun a r => postCommand_Root a d ('~' :: r)) app).events = app.events ∧
      (rs.foldl (fun a r => postCommand_Root a d ('~' :: r)) app).launchCommands =
        app.launchCommands ++ rs ∧
      finishLaunching_App_ (rs.foldl (fun a r => postCommand_Root a d ('~' :: r)) app) =
        (app.launchCommands ++ rs).foldl (fun a c => postCommand_Root a none c)
          { app with launchCommands := app.launchCommands ++ rs, isFinishedLaunching := true } ∧
      (finishLaunching_App_ (rs.foldl (fun a r => postCommand_Root a d ('~' :: r)) app)).events =
        app.events ++ (app.launchCommands ++ rs).filterMap (postedEvent none) ∧
      ((∀ c ∈ app.launchCommands ++ rs, c ≠ [] ∧ c.head? ≠ some '!' ∧ c.head? ≠ some '~') →
        (finishLaunching_App_
            (rs.foldl (fun a r => postCommand_Root a d ('~' :: r)) app)).events =
          app.events ++ (app.launchCommands ++ rs).map (fun c => Event.command c none)) := by
  have hq := foldl_postCommand_Root_deferred d rs app h
  have hev : (finishLaunching_App_
      (rs.foldl (fun a r => postCommand_Root a d ('~' :: r)) app)).events =
        app.events ++ (app.launchCommands ++ rs).filterMap (postedEvent none) := by
    rw [hq]
    unfold finishLaunching_App_
    exact foldl_postCommand_Root_launched none _ _ rfl
  refine ⟨fun r => postCommand_Root_deferred app d r h, ?_, ?_, ?_, hev, ?_⟩
  · rw [hq]
  · rw [hq]
  · rw [hq]
    rfl
  · intro hplain
    rw [hev]
    congr 1
    generalize app.launchCommands ++ rs = cs at hplain
    induction cs with
    | nil => rfl
    | cons c cs ih =>
      rw [List.filterMap_cons, postedEvent_plain none c (hplain c (List.mem_cons_self _ _)),
        List.map_cons, ih (fun z hz => hplain z (List.mem_cons_of_mem _ hz))]

/-- Witness of C8: `~window.unfreeze` and `~a` are posted during launch, in that order. -/
theorem C8_deferred_until_launch_witness :
    sampleApp.isFinishedLaunching = false ∧
      (finishLaunching_App_
          (sampleDeferred.foldl (fun a r => postCommand_Root a none ('~' :: r)) sampleApp)).events =
        sampleApp.events ++
          (sampleApp.launchCommands ++ sampleDeferred).filterMap (postedEvent none) ∧
      (sampleApp.launchCommands ++ sampleDeferred).filterMap (postedEvent none) =
        [Event.command "window.unfreeze".toList none, Event.command ['a'] none] :=
  ⟨rfl, (C8_deferred_until_launch sampleApp none rfl sampleDeferred).2.2.2.2.1, by decide⟩

/-! ## Refresh coalescing -/

theorem postRefresh_App_first (B : Build) (s : App) (h : s.pendingRefresh = false) :
    (postRefresh_App B s).events = s.events ++ [Event.refresh] ∧
      (postRefresh_App B s).pendingRefresh = true ∧
      (postRefresh_App B s).draws = s.draws ∧
      (B.idleSleep = true → (postRefresh_App B s).isIdling = false) := by
  unfold postRefresh_App
  cases hB : B.idleSleep <;> simp [h]

theorem postRefresh_App_again (B : Build) (s : App) (h : s.pendingRefresh = true) :
    (postRefresh_App B s).events = s.events ∧
      (postRefresh_App B s).pendingRefresh = true ∧
      (postRefresh_App B s).draws = s.draws ∧
      (B.idleSleep = true → (postRefresh_App B s).isIdling = false) := by
  unfold postRefresh_App
  cases hB : B.idleSleep <;> simp [h]

theorem iterate_postRefresh_App (B : Build) (app : App) (h : app.pendingRefresh = false)
    (n : Nat) :
    ((postRefresh_App B)^[n + 1] app).events = app.events ++ [Event.refresh] ∧
      ((postRefresh_App B)^[n + 1] app).pendingRefresh = true ∧
      ((postRefresh_App B)^[n + 1] app).draws = app.draws ∧
      (B.idleSleep = true → ((postRefresh_App B)^[n + 1] app).isIdling = false) := by
  induction n with
  | zero => exact postRefresh_App_first B app h
  | succ n ih =>
    obtain ⟨i1, i2, i3, -⟩ := ih
    obtain ⟨a1, a2, a3, a4⟩ := postRefresh_App_again B _ i2
    rw [Function.iterate_succ_apply']
    exact ⟨a1.trans i1, a2, a3.trans i3, a4⟩

/-- A refresh that is pending and not suppressed by idling draws once and clears the flag. -/
theorem refresh_App_pending (B : Build) (frameTime : Nat) (s : App)
    (hp : s.pendingRefresh = true)
    (hs : ¬ (B.idleSleep = true ∧ (s.warmupFrames = 0 ∧ s.isIdling = true))) :
    (refresh_App B frameTime s).draws = s.draws + 1 ∧
      (refresh_App B frameTime s).pendingRefresh = false := by
  unfold refresh_App
  simp only [hs, if_false, hp, Bool.true_eq_false, false_and]
  split_ifs <;> exact ⟨rfl, rfl⟩

/-- C9: for every `N ≥ 1`, `N` calls of `postRefresh_App` made while the pending flag is
initially clear push exactly one refresh event (the first call; a call made while the flag is
set pushes none), and one `refresh_App` after them (it is not idle-suppressed: with idle sleep
built in, `postRefresh_App` has cleared the idling state) makes exactly one `draw_Window`
call and leaves the flag clear; so does `refresh_App` in any state with the flag set that is
not idle-suppressed. -/
theorem C9_refresh_coalescing (B : Build) (frameTime : Nat) (app : App) (N : Nat)
    (hN : 1 ≤ N) (hclear : app.pendingRefresh = false) :
    ((postRefresh_App B)^[N] app).events = app.events ++ [Event.refresh] ∧
      ((postRefresh_App B)^[N] app).pendingRefresh = true ∧
      ((postRefresh_App B)^[N] app).draws = app.draws ∧
      (∀ s : App, s.pendingRefresh = true → (postRefresh_App B s).events = s.events) ∧
      (refresh_App B frameTime ((postRefresh_App B)^[N] app)).draws = app.draws + 1 ∧
      (refresh_App B frameTime ((postRefresh_App B)^[N] app)).pendingRefresh = false ∧
      (∀ s : App, s.pendingRefresh = true →
        ¬ (B.idleSleep = true ∧ (s.warmupFrames = 0 ∧ s.isIdling = true)) →
        (refresh_App B frameTime s).draws = s.draws + 1 ∧
          (refresh_App B frameTime s).pendingRefresh = false) := by
  obtain ⟨n, rfl⟩ : ∃ n, N = n + 1 := ⟨N - 1, by omega⟩
  obtain ⟨h1, h2, h3, h4⟩ := iterate_postRefresh_App B app hclear n
  have hs : ¬ (B.idleSleep = true ∧ (((postRefresh_App B)^[n + 1] app).warmupFrames = 0 ∧
      ((postRefresh_App B)^[n + 1] app).isIdling = true)) := by
    rintro ⟨hb, -, hi⟩
    rw [h4 hb] at hi
    exact Bool.false_ne_true hi
  obtain ⟨r1, r2⟩ := refresh_App_pending B frameTime _ h2 hs
  exact ⟨h1, h2, h3, fun s hsp => (postRefresh_App_again B s hsp).1, r1.trans (by rw [h3]), r2,
    fun s hp hns => refresh_App_pending B frameTime s hp hns⟩

/-- Witness of C9: three refresh requests while the application idles, then one refresh. -/
theorem C9_refresh_coalescing_witness :
    ((1 : Nat) ≤ 3 ∧ sampleApp.pendingRefresh = false) ∧
      ((postRefresh_App sampleBuild)^[3] sampleApp).events =
        sampleApp.events ++ [Event.refresh] ∧
      (refresh_App sampleBuild 1000 ((postRefresh_App sampleBuild)^[3] sampleApp)).draws =
        sampleApp.draws + 1 :=
  ⟨⟨by decide, rfl⟩,
    (C9_refresh_coalescing sampleBuild 1000 sampleApp 3 (by decide) rfl).1,
    (C9_refresh_coalescing sampleBuild 1000 sampleApp 3 (by decide) rfl).2.2.2.2.1⟩

/-! ## Anim: bounce, snapping, speed, degenerate animations -/

theorem easedPosition_of_no_ease (flags : Nat) (t : ℚ) (hi : flags &&& easeIn_AnimFlag = 0)
    (ho : flags &&& easeOut_AnimFlag = 0) : easedPosition flags t = t := by
  unfold easedPosition
  simp [hi, ho]

/-- C11, as the source has it: for an animation with the bounce flag set and
`when < now < due`, the value is the eased interpolation between `from` and `to` plus the
overshoot term `bounce * (1 - easeOut (easeOut e)) * easeOut e` taken at the eased position
`e` (the normalized position `(now - when) / (due - when)` after the configured easing), which
is the normalized position itself when neither ease bit is set. -/
theorem C11_bounce_overshoot (d : Anim) (now : Nat) (hw : d.when < now) (hd : now < d.due)
    (hdue : d.due < 2 ^ 32) (hb : d.flags &&& bounce_AnimFlag ≠ 0) :
    valueAt_Anim_ d now =
        d.from_ * (1 - easedPosition d.flags
            (((now : ℚ) - (d.when : ℚ)) / ((d.due : ℚ) - (d.when : ℚ)))) +
          d.to_ * easedPosition d.flags
            (((now : ℚ) - (d.when : ℚ)) / ((d.due : ℚ) - (d.when : ℚ))) +
          overshootTerm d.bounce (easedPosition d.flags
            (((now : ℚ) - (d.when : ℚ)) / ((d.due : ℚ) - (d.when : ℚ)))) ∧
      (d.flags &&& easeIn_AnimFlag = 0 → d.flags &&& easeOut_AnimFlag = 0 →
        valueAt_Anim_ d now =
          d.from_ * (1 - ((now : ℚ) - (d.when : ℚ)) / ((d.due : ℚ) - (d.when : ℚ))) +
            d.to_ * (((now : ℚ) - (d.when : ℚ)) / ((d.due : ℚ) - (d.when : ℚ))) +
            overshootTerm d.bounce
              (((now : ℚ) - (d.when : ℚ)) / ((d.due : ℚ) - (d.when : ℚ)))) := by
  have h1 : valueAt_Anim_ d now =
      d.from_ * (1 - easedPosition d.flags
          (((now : ℚ) - (d.when : ℚ)) / ((d.due : ℚ) - (d.when : ℚ)))) +
        d.to_ * easedPosition d.flags
          (((now : ℚ) - (d.when : ℚ)) / ((d.due : ℚ) - (d.when : ℚ))) +
        overshootTerm d.bounce (easedPosition d.flags
          (((now : ℚ) - (d.when : ℚ)) / ((d.due : ℚ) - (d.when : ℚ)))) := by
    rw [valueAt_Anim__mid d now hw hd, pos_Anim__eq d now hw hd hdue, if_pos hb]
    rfl
  refine ⟨h1, ?_⟩
  intro hi ho
  rw [h1, easedPosition_of_no_ease d.flags _ hi ho]

/-- Witness of C11: the bouncing ease-out animation from 0 to 100 over the ticks 0..200, at
tick 100. -/
theorem C11_bounce_overshoot_witness :
    (sampleBounceEaseAnim.when < 100 ∧ 100 < sampleBounceEaseAnim.due ∧
      sampleBounceEaseAnim.due < 2 ^ 32 ∧
      sampleBounceEaseAnim.flags &&& bounce_AnimFlag ≠ 0) ∧
    valueAt_Anim_ sampleBounceEaseAnim 100 =
      sampleBounceEaseAnim.from_ * (1 - easedPosition sampleBounceEaseAnim.flags
          ((((100 : Nat) : ℚ) - (sampleBounceEaseAnim.when : ℚ)) /
            ((sampleBounceEaseAnim.due : ℚ) - (sampleBounceEaseAnim.when : ℚ)))) +
        sampleBounceEaseAnim.to_ * easedPosition sampleBounceEaseAnim.flags
          ((((100 : Nat) : ℚ) - (sampleBounceEaseAnim.when : ℚ)) /
            ((sampleBounceEaseAnim.due : ℚ) - (sampleBounceEaseAnim.when : ℚ))) +
        overshootTerm sampleBounceEaseAnim.bounce (easedPosition sampleBounceEaseAnim.flags
          ((((100 : Nat) : ℚ) - (sampleBounceEaseAnim.when : ℚ)) /
            ((sampleBounceEaseAnim.due : ℚ) - (sampleBounceEaseAnim.when : ℚ)))) :=
  ⟨⟨by decide, by decide, by decide, by decide⟩,
    (C11_bounce_overshoot sampleBounceEaseAnim 100 (by decide) (by decide) (by decide)
      (by decide)).1⟩

/-- C11 as stated fails when an ease bit is set: for the bouncing ease-out animation from 0
to 100, halfway (normalized position `1 / 2`, eased position `3 / 4`), the value is
`75 + 15 / 512`, the overshoot taken at the eased position, and not `75 + 3 / 8`, the eased
interpolation plus the overshoot taken at the normalized position. -/
theorem C11_counterexample :
    valueAt_Anim_ sampleBounceEaseAnim 100 = 75 + 15 / 512 ∧
      sampleBounceEaseAnim.from_ * (1 - easedPosition sampleBounceEaseAnim.flags (1 / 2)) +
        sampleBounceEaseAnim.to_ * easedPosition sampleBounceEaseAnim.flags (1 / 2) +
        overshootTerm sampleBounceEaseAnim.bounce (1 / 2) = 75 + 3 / 8 ∧
      valueAt_Anim_ sampleBounceEaseAnim 100 ≠
        sampleBounceEaseAnim.from_ * (1 - easedPosition sampleBounceEaseAnim.flags (1 / 2)) +
          sampleBounceEaseAnim.to_ * easedPosition sampleBounceEaseAnim.flags (1 / 2) +
          overshootTerm sampleBounceEaseAnim.bounce (1 / 2) := by
  have he : ∀ t : ℚ, easedPosition sampleBounceEaseAnim.flags t = easeOut_ t := by
    intro t
    have hi : sampleBounceEaseAnim.flags &&& easeIn_AnimFlag = 0 := by decide
    have ho : sampleBounceEaseAnim.flags &&& easeOut_AnimFlag ≠ 0 := by decide
    have hx : extraEasings sampleBounceEaseAnim.flags = 0 := by decide
    unfold easedPosition
    simp only [hi, ho, hx, ne_eq, not_true_eq_false, false_and, if_false, not_false_eq_true,
      if_true, add_zero, Function.iterate_one]
  have hcode : valueAt_Anim_ sampleBounceEaseAnim 100 = 75 + 15 / 512 := by
    rw [valueAt_Anim__mid _ _ (by decide) (by decide),
      pos_Anim__eq _ _ (by decide) (by decide) (by decide),
      if_pos (by decide : sampleBounceEaseAnim.flags &&& bounce_AnimFlag ≠ 0), he]
    simp only [sampleBounceEaseAnim, easeOut_]
    norm_num
  have hclaim : sampleBounceEaseAnim.from_ *
        (1 - easedPosition sampleBounceEaseAnim.flags (1 / 2)) +
      sampleBounceEaseAnim.to_ * easedPosition sampleBounceEaseAnim.flags (1 / 2) +
      overshootTerm sampleBounceEaseAnim.bounce (1 / 2) = 75 + 3 / 8 := by
    rw [he]
    simp only [sampleBounceEaseAnim, easeOut_, overshootTerm]
    norm_num
  refine ⟨hcode, hclaim, ?_⟩
  rw [hcode, hclaim]
  norm_num

/-- C12: when the new target is within 0.00001 of the old one, `setValueEased_Anim` only
records the target: `to` is the new value and `from`, `when`, `due`, `flags` and `bounce`
are unchanged. -/
theorem C12_setValueEased_noop (frameTime ticks : Nat) (d : Anim) (to_ : ℚ) (span : Nat)
    (h : |to_ - d.to_| ≤ 1 / 100000) :
    setValueEased_Anim frameTime ticks d to_ span = { d with to_ := to_ } ∧
      (setValueEased_Anim frameTime ticks d to_ span).to_ = to_ ∧
      (setValueEased_Anim frameTime ticks d to_ span).from_ = d.from_ ∧
      (setValueEased_Anim frameTime ticks d to_ span).when = d.when ∧
      (setValueEased_Anim frameTime ticks d to_ span).due = d.due ∧
      (setValueEased_Anim frameTime ticks d to_ span).flags = d.flags ∧
      (setValueEased_Anim frameTime ticks d to_ span).bounce = d.bounce := by
  have he : setValueEased_Anim frameTime ticks d to_ span = { d with to_ := to_ } := by
    unfold setValueEased_Anim
    rw [if_pos h]
  rw [he]
  exact ⟨rfl, rfl, rfl, rfl, rfl, rfl, rfl⟩

/-- Witness of C12: the sample animation retargeted from 100 to 100.000001. -/
theorem C12_setValueEased_noop_witness :
    |(100 + 1 / 1000000 : ℚ) - sampleAnim.to_| ≤ 1 / 100000 ∧
      setValueEased_Anim 100 100 sampleAnim (100 + 1 / 1000000) 50 =
        { sampleAnim with to_ := 100 + 1 / 1000000 } :=
  ⟨by simp only [sampleAnim]; norm_num [abs_le],
    (C12_setValueEased_noop 100 100 sampleAnim (100 + 1 / 1000000) 50
      (by simp only [sampleAnim]; norm_num [abs_le])).1⟩

/-- C13: `setValue_Anim` with span 0 snaps: afterwards `from = to` is the new target,
`when = due` is the current (window frame) time, the bounce is 0, the value is the new target
at every time, and the animation is finished at every frame time. -/
theorem C13_setValue_zero_snaps (frameTime ticks : Nat) (d : Anim) (to_ : ℚ) :
    (setValue_Anim frameTime ticks d to_ 0).from_ = to_ ∧
      (setValue_Anim frameTime ticks d to_ 0).to_ = to_ ∧
      (setValue_Anim frameTime ticks d to_ 0).when = frameTime ∧
      (setValue_Anim frameTime ticks d to_ 0).due = frameTime ∧
      (setValue_Anim frameTime ticks d to_ 0).bounce = 0 ∧
      (setValue_Anim frameTime ticks d to_ 0).flags = d.flags ∧
      (∀ now, valueAt_Anim_ (setValue_Anim frameTime ticks d to_ 0) now = to_) ∧
      (∀ t, isFinished_Anim t (setValue_Anim frameTime ticks d to_ 0) = true) := by
  have he : setValue_Anim frameTime ticks d to_ 0 =
      { d with from_ := to_, to_ := to_, when := frameTime, due := frameTime, bounce := 0 } := by
    unfold setValue_Anim
    simp
  rw [he]
  refine ⟨rfl, rfl, rfl, rfl, rfl, rfl, ?_, ?_⟩
  · intro now
    exact valueAt_Anim__of_from_eq_to _ now rfl (Or.inr rfl)
  · intro t
    unfold isFinished_Anim
    simp

theorem truncToInt_of_nonneg {q : ℚ} (h : 0 ≤ q) : truncToInt q = ⌊q⌋ := by
  unfold truncToInt
  rw [Int.tdiv_eq_ediv (Rat.num_nonneg.mpr h) (Int.ofNat_nonneg _), Rat.floor_def]

theorem truncToInt_nonneg {q : ℚ} (h : 0 ≤ q) : 0 ≤ truncToInt q := by
  rw [truncToInt_of_nonneg h]
  exact Int.floor_nonneg.mpr h

theorem truncToInt_le {q : ℚ} (h : 0 ≤ q) : (truncToInt q : ℚ) ≤ q := by
  rw [truncToInt_of_nonneg h]
  exact Int.floor_le q

theorem intToU32_of_lt {i : Int} (h0 : 0 ≤ i) (h1 : i < 2 ^ 32) : intToU32 i = i.toNat := by
  unfold intToU32
  rw [Int.emod_eq_of_lt h0 h1]

theorem valueAt_Anim__eq_easedValue (d : Anim) (now : Nat) :
    valueAt_Anim_ d now =
      if now ≥ d.due then d.to_
      else if now ≤ d.when then d.from_
      else easedValue_ d (pos_Anim_ d now) := rfl

/-- C15: for every animation (degenerate ones included, the tick fields being 32-bit
values) and every `now`, the evaluation with a fallible division succeeds and gives the
value of `valueAt_Anim_`; the position is computed only past both guards, that is when
`when < now < due`, where the divisor `due - when` is strictly positive and the position lies
strictly between 0 and 1. Division by zero is unreachable. -/
theorem C15_no_division_by_zero (d : Anim) (now : Nat) (hdue : d.due < 2 ^ 32) :
    valueAtChecked_Anim_ d now = some (valueAt_Anim_ d now) ∧
      (¬ now ≥ d.due → ¬ now ≤ d.when →
        d.when < now ∧ now < d.due ∧ 0 < u32sub d.due d.when ∧
          posChecked_Anim_ d now = some (pos_Anim_ d now) ∧
          0 < pos_Anim_ d now ∧ pos_Anim_ d now < 1) := by
  have key : ¬ now ≥ d.due → ¬ now ≤ d.when →
      d.when < now ∧ now < d.due ∧ 0 < u32sub d.due d.when ∧
        posChecked_Anim_ d now = some (pos_Anim_ d now) ∧
        0 < pos_Anim_ d now ∧ pos_Anim_ d now < 1 := by
    intro h1 h2
    have hw : d.when < now := by omega
    have hd : now < d.due := by omega
    have hdiv : 0 < u32sub d.due d.when := by
      rw [u32sub_of_le (by omega) hdue]
      omega
    have hp := pos_Anim__mem d now hw hd hdue
    refine ⟨hw, hd, hdiv, ?_, hp.1, hp.2⟩
    unfold posChecked_Anim_
    rw [if_neg (by omega)]
  refine ⟨?_, key⟩
  rw [valueAt_Anim__eq_easedValue]
  unfold valueAtChecked_Anim_
  by_cases h1 : now ≥ d.due
  · simp only [h1, if_true]
  · by_cases h2 : now ≤ d.when
    · simp only [h1, h2, if_true, if_false]
    · simp only [h1, h2, if_false]
      rw [(key h1 h2).2.2.2.1]
      rfl

/-- Witness of C15: the degenerate animation with `due = when = 10`, at tick 5. -/
theorem C15_no_division_by_zero_witness :
    sampleDegenerateAnim.due < 2 ^ 32 ∧
      valueAtChecked_Anim_ sampleDegenerateAnim 5 = some (valueAt_Anim_ sampleDegenerateAnim 5) :=
  ⟨by decide, (C15_no_division_by_zero sampleDegenerateAnim 5 (by decide)).1⟩

/-- C16, as the source has it: for an animation with `due ≤ when`, `valueAt_Anim_` returns
the target `to` for every `now ≥ due` and the start value `from` for every `now < due`, never
an interpolated value; `isFinished_Anim` reports finished exactly when `from = to` or the
frame time has reached `due`. With `from = to` (as `init_Anim`, `setValue_Anim` with span 0
and `stop_Anim` leave it, `bounce` being 0 or its flag clear) the value is `to` at every time
and the animation is finished. -/
theorem C16_degenerate_animation (d : Anim) (h : d.due ≤ d.when) :
    (∀ now, now ≥ d.due → valueAt_Anim_ d now = d.to_) ∧
      (∀ now, now < d.due → valueAt_Anim_ d now = d.from_) ∧
      (∀ t, isFinished_Anim t d = true ↔ (d.from_ = d.to_ ∨ t ≥ d.due)) ∧
      (d.from_ = d.to_ → ∀ now, valueAt_Anim_ d now = d.to_ ∧ isFinished_Anim now d = true) := by
  have hlt : ∀ now, now < d.due → valueAt_Anim_ d now = d.from_ :=
    fun now hn => valueAt_Anim__of_le_when d now (by omega) hn
  have hfin : ∀ t, isFinished_Anim t d = true ↔ (d.from_ = d.to_ ∨ t ≥ d.due) := by
    intro t
    unfold isFinished_Anim
    simp only [Bool.or_eq_true, decide_eq_true_eq]
  refine ⟨fun now hn => valueAt_Anim__of_due_le d now hn, hlt, hfin, ?_⟩
  intro he now
  refine ⟨?_, (hfin now).mpr (Or.inl he)⟩
  by_cases hn : now ≥ d.due
  · exact valueAt_Anim__of_due_le d now hn
  · rw [hlt now (by omega), he]

/-- Witness of C16: the degenerate animation with `due = when = 10`, from tick 10 on. -/
theorem C16_degenerate_animation_witness :
    sampleDegenerateAnim.due ≤ sampleDegenerateAnim.when ∧
      valueAt_Anim_ sampleDegenerateAnim 10 = sampleDegenerateAnim.to_ :=
  ⟨by decide, (C16_degenerate_animation sampleDegenerateAnim (by decide)).1 10 (by decide)⟩

/-- C16 as stated fails before `due`: the degenerate animation with `due = when = 10`, from
0 to 100, has the value 0 (its start value, not its target 100) at tick 5, and is not
finished at frame time 5. -/
theorem C16_counterexample :
    sampleDegenerateAnim.due ≤ sampleDegenerateAnim.when ∧
      valueAt_Anim_ sampleDegenerateAnim 5 = 0 ∧
      valueAt_Anim_ sampleDegenerateAnim 5 ≠ sampleDegenerateAnim.to_ ∧
      isFinished_Anim 5 sampleDegenerateAnim = false := by
  have hv : valueAt_Anim_ sampleDegenerateAnim 5 = 0 :=
    valueAt_Anim__of_le_when sampleDegenerateAnim 5 (by decide) (by decide)
  refine ⟨by decide, hv, ?_, ?_⟩
  · rw [hv]
    simp only [sampleDegenerateAnim]
    norm_num
  · unfold isFinished_Anim
    simp only [sampleDegenerateAnim]
    norm_num

/-- A linear animation (no flag set) in flight is at the plain interpolation. -/
theorem valueAt_Anim__linear (d : Anim) (now : Nat) (hw : d.when < now) (hd : now < d.due)
    (hdue : d.due < 2 ^ 32) (hf : d.flags = 0) :
    valueAt_Anim_ d now =
      d.from_ * (1 - ((now : ℚ) - (d.when : ℚ)) / ((d.due : ℚ) - (d.when : ℚ))) +
        d.to_ * (((now : ℚ) - (d.when : ℚ)) / ((d.due : ℚ) - (d.when : ℚ))) := by
  have hb : d.flags &&& bounce_AnimFlag = 0 := by rw [hf]; decide
  have hi : d.flags &&& easeIn_AnimFlag = 0 := by rw [hf]; decide
  have ho : d.flags &&& easeOut_AnimFlag = 0 := by rw [hf]; decide
  rw [valueAt_Anim__mid d now hw hd, pos_Anim__eq d now hw hd hdue,
    easedPosition_of_no_ease _ _ hi ho]
  simp only [hb, ne_eq, not_true_eq_false, if_false, add_zero]

theorem overscroll_SmoothScroll__cases (env : UiEnv) (d : SmoothScroll) :
    (d.overscroll ≠ 0 → truncToInt (value_Anim env.frameTime d.pos) ≤ 0 →
        overscroll_SmoothScroll_ env d = truncToInt (value_Anim env.frameTime d.pos)) ∧
      (d.overscroll ≠ 0 → 0 < truncToInt (value_Anim env.frameTime d.pos) →
        truncToInt (value_Anim env.frameTime d.pos) ≥ d.max →
        overscroll_SmoothScroll_ env d =
          truncToInt (value_Anim env.frameTime d.pos) - d.max) ∧
      (d.overscroll ≠ 0 → 0 < truncToInt (value_Anim env.frameTime d.pos) →
        truncToInt (value_Anim env.frameTime d.pos) < d.max →
        overscroll_SmoothScroll_ env d = 0) ∧
      (d.overscroll = 0 → overscroll_SmoothScroll_ env d = 0) := by
  unfold overscroll_SmoothScroll_
  refine ⟨?_, ?_, ?_, ?_⟩
  · intro h1 h2
    simp only [h1, ne_eq, not_false_eq_true, if_true, h2]
  · intro h1 h2 h3
    simp only [h1, ne_eq, not_false_eq_true, if_true, not_le.mpr h2, if_false, h3]
  · intro h1 h2 h3
    simp only [h1, ne_eq, not_false_eq_true, if_true, not_le.mpr h2, if_false,
      not_le.mpr h3]
  · intro h1
    simp only [h1, ne_eq, not_true_eq_false, if_false]

/-- C18, as the source has it: `pos_SmoothScroll` returns `value (pos) - 0.667 * p`, where
`p` is 0 when there is no overscroll allowance and is otherwise computed from the value
converted to `int`, `y = trunc (value (pos))` (the value itself when it is a whole number):
`p = y` when `y ≤ 0`, `p = y - max` when `y ≥ max`, `p = 0` when `0 < y < max`. Inside the
content range, `0 < value < max`, the reported offset equals the raw value. -/
theorem C18_pos_SmoothScroll (env : UiEnv) (d : SmoothScroll) :
    pos_SmoothScroll env d =
        value_Anim env.frameTime d.pos - (667 / 1000) * (overscroll_SmoothScroll_ env d : ℚ) ∧
      (d.overscroll ≠ 0 → truncToInt (value_Anim env.frameTime d.pos) ≤ 0 →
        overscroll_SmoothScroll_ env d = truncToInt (value_Anim env.frameTime d.pos)) ∧
      (d.overscroll ≠ 0 → 0 < truncToInt (value_Anim env.frameTime d.pos) →
        truncToInt (value_Anim env.frameTime d.pos) ≥ d.max →
        overscroll_SmoothScroll_ env d =
          truncToInt (value_Anim env.frameTime d.pos) - d.max) ∧
      (d.overscroll ≠ 0 → 0 < truncToInt (value_Anim env.frameTime d.pos) →
        truncToInt (value_Anim env.frameTime d.pos) < d.max →
        overscroll_SmoothScroll_ env d = 0) ∧
      (d.overscroll = 0 → overscroll_SmoothScroll_ env d = 0) ∧
      (∀ k : Int, value_Anim env.frameTime d.pos = (k : ℚ) →
        truncToInt (value_Anim env.frameTime d.pos) = k) ∧
      (0 < value_Anim env.frameTime d.pos → value_Anim env.frameTime d.pos < (d.max : ℚ) →
        pos_SmoothScroll env d = value_Anim env.frameTime d.pos) := by
  obtain ⟨c1, c2, c3, c4⟩ := overscroll_SmoothScroll__cases env d
  have hpos : pos_SmoothScroll env d =
      value_Anim env.frameTime d.pos -
        (667 / 1000) * (overscroll_SmoothScroll_ env d : ℚ) := by
    unfold pos_SmoothScroll
    ring
  refine ⟨hpos, c1, c2, c3, c4, ?_, ?_⟩
  · intro k hk
    rw [hk, truncToInt_intCast]
  · intro h0 hmax
    have hz : overscroll_SmoothScroll_ env d = 0 := by
      by_cases hos : d.overscroll = 0
      · exact c4 hos
      · have hy0 := truncToInt_nonneg (le_of_lt h0)
        have hyv := truncToInt_le (le_of_lt h0)
        have hlt : truncToInt (value_Anim env.frameTime d.pos) < d.max := by
          have : (truncToInt (value_Anim env.frameTime d.pos) : ℚ) < (d.max : ℚ) :=
            lt_of_le_of_lt hyv hmax
          exact_mod_cast this
        rcases lt_or_eq_of_le hy0 with hp | hp
        · exact c3 hos hp hlt
        · rw [c1 hos (by omega)]
          exact hp.symm
    rw [hpos, hz]
    simp

/-- Witness of C18: the scroller of the scenario, at rest at 980 inside the content range
`0 < 980 < 1000`, reports 980. -/
theorem C18_pos_SmoothScroll_witness :
    (0 < value_Anim sampleFrameEnv.frameTime sampleScenarioScroll.pos ∧
      value_Anim sampleFrameEnv.frameTime sampleScenarioScroll.pos <
        (sampleScenarioScroll.max : ℚ)) ∧
      pos_SmoothScroll sampleFrameEnv sampleScenarioScroll =
        value_Anim sampleFrameEnv.frameTime sampleScenarioScroll.pos := by
  have hv : value_Anim sampleFrameEnv.frameTime sampleScenarioScroll.pos = 980 :=
    valueAt_Anim__of_due_le _ _ (by decide)
  have h0 : 0 < value_Anim sampleFrameEnv.frameTime sampleScenarioScroll.pos := by
    rw [hv]
    norm_num
  have h1 : value_Anim sampleFrameEnv.frameTime sampleScenarioScroll.pos <
      (sampleScenarioScroll.max : ℚ) := by
    rw [hv]
    simp only [sampleScenarioScroll]
    norm_num
  exact ⟨⟨h0, h1⟩, (C18_pos_SmoothScroll sampleFrameEnv sampleScenarioScroll).2.2.2.2.2.2 h0 h1⟩

/-- C18 as stated fails in two ways. (1) The penalty is taken from the value converted to
`int`: a touch scroller with `max = 100` whose value is `149 + 1 / 2` reports
`149.5 - 0.667 * 49`, not `149.5 - 0.667 * 49.5`. (2) Without an overscroll allowance the
penalty is 0: a scroller with `max = 300` whose value is 400 reports 400, not
`400 - 0.667 * 100`. -/
theorem C18_counterexample :
    (value_Anim sampleFrameEnv.frameTime sampleBandScroll.pos = 299 / 2 ∧
        pos_SmoothScroll sampleFrameEnv sampleBandScroll = 299 / 2 - (667 / 1000) * 49 ∧
        pos_SmoothScroll sampleFrameEnv sampleBandScroll ≠
          value_Anim sampleFrameEnv.frameTime sampleBandScroll.pos -
            (667 / 1000) * (value_Anim sampleFrameEnv.frameTime sampleBandScroll.pos -
              (sampleBandScroll.max : ℚ))) ∧
      (value_Anim sampleFrameEnv.frameTime sampleShrunkScroll.pos = 400 ∧
        pos_SmoothScroll sampleFrameEnv sampleShrunkScroll = 400 ∧
        pos_SmoothScroll sampleFrameEnv sampleShrunkScroll ≠
          value_Anim sampleFrameEnv.frameTime sampleShrunkScroll.pos -
            (667 / 1000) * (value_Anim sampleFrameEnv.frameTime sampleShrunkScroll.pos -
              (sampleShrunkScroll.max : ℚ))) := by
  have hv1 : value_Anim sampleFrameEnv.frameTime sampleBandScroll.pos = 299 / 2 := by
    show valueAt_Anim_ sampleBandScroll.pos 100 = 299 / 2
    rw [valueAt_Anim__linear _ _ (by decide) (by decide) (by decide) rfl]
    simp only [sampleBandScroll]
    norm_num
  have hv2 : value_Anim sampleFrameEnv.frameTime sampleShrunkScroll.pos = 400 := by
    show valueAt_Anim_ sampleShrunkScroll.pos 100 = 400
    rw [valueAt_Anim__linear _ _ (by decide) (by decide) (by decide) rfl]
    simp only [sampleShrunkScroll]
    norm_num
  have ht : truncToInt (299 / 2 : ℚ) = 149 := by
    unfold truncToInt
    have hn : ((299 : ℚ) / 2).num = 299 := by norm_num
    have hd : ((299 : ℚ) / 2).den = 2 := by norm_num
    rw [hn, hd]
    decide
  have ho1 : overscroll_SmoothScroll_ sampleFrameEnv sampleBandScroll = 49 := by
    rw [(overscroll_SmoothScroll__cases sampleFrameEnv sampleBandScroll).2.1 (by decide)
      (by rw [hv1, ht]; decide) (by rw [hv1, ht]; decide), hv1, ht]
    rfl
  have ho2 : overscroll_SmoothScroll_ sampleFrameEnv sampleShrunkScroll = 0 :=
    (overscroll_SmoothScroll__cases sampleFrameEnv sampleShrunkScroll).2.2.2 rfl
  have hp1 : pos_SmoothScroll sampleFrameEnv sampleBandScroll =
      299 / 2 - (667 / 1000) * 49 := by
    unfold pos_SmoothScroll
    rw [hv1, ho1]
    norm_num
  have hp2 : pos_SmoothScroll sampleFrameEnv sampleShrunkScroll = 400 := by
    unfold pos_SmoothScroll
    rw [hv2, ho2]
    norm_num
  refine ⟨⟨hv1, hp1, ?_⟩, ⟨hv2, hp2, ?_⟩⟩
  · rw [hp1, hv1]
    simp only [sampleBandScroll]
    norm_num
  · rw [hp2, hv2]
    simp only [sampleShrunkScroll]
    norm_num

/-- Removal looks at the context of the probe alone. -/
theorem remove_SortedArray_context (ts : List Ticker) (x y : Ticker)
    (h : x.context = y.context) :
    remove_SortedArray cmp_Ticker_ ts x = remove_SortedArray cmp_Ticker_ ts y := by
  induction ts with
  | nil => rfl
  | cons z zs ih =>
    simp only [remove_SortedArray, cmp_Ticker_, h, ih]

/-- On a sorted collection removal deletes the entries of the probe's context, of which
there is at most one. -/
theorem remove_SortedArray_eq_filter (ts : List Ticker) (x : Ticker) (h : TickersSorted ts) :
    remove_SortedArray cmp_Ticker_ ts x = ts.filter (fun t => decide (t.context ≠ x.context)) := by
  unfold TickersSorted at h
  induction ts with
  | nil => rfl
  | cons y ys ih =>
    obtain ⟨hy, hys⟩ := List.pairwise_cons.mp h
    simp only [remove_SortedArray]
    split_ifs with h1
    · have hxy : x.context = y.context := (iCmp_eq_zero _ _).mp h1
      have hkeep : ys.filter (fun t => decide (t.context ≠ x.context)) = ys := by
        rw [List.filter_eq_self]
        intro z hz
        have := hy z hz
        simp only [ne_eq, decide_not, Bool.not_eq_true', decide_eq_false_iff_not]
        omega
      rw [List.filter_cons]
      simp only [hxy, ne_eq, not_true_eq_false, decide_False, Bool.false_eq_true, if_false]
      rw [← hxy]
      exact hkeep.symm
    · have hxy : ¬ x.context = y.context := fun hc => h1 ((iCmp_eq_zero _ _).mpr hc)
      have hyx : y.context ≠ x.context := fun hc => hxy hc.symm
      rw [List.filter_cons]
      simp only [hyx, ne_eq, not_false_eq_true, decide_True, if_true]
      rw [ih hys]

/-- C20: on the (sorted) ticker collection, `removeTicker_App` deletes the entry whose
context equals the given context if there is one, whatever the callback argument, and leaves
every other entry and the rest of the application unchanged; when no entry has that context
nothing changes at all. The function returns in either case. -/
theorem C20_removeTicker (d : App) (ticker : Option Nat) (context : Nat)
    (hs : TickersSorted d.tickers) :
    removeTicker_App d ticker context =
        { d with tickers := d.tickers.filter (fun t => decide (t.context ≠ context)) } ∧
      (∀ t ∈ (removeTicker_App d ticker context).tickers, t.context ≠ context) ∧
      (∀ t ∈ d.tickers, t.context ≠ context → t ∈ (removeTicker_App d ticker context).tickers) ∧
      (removeTicker_App d ticker context).tickers.Sublist d.tickers ∧
      (removeTicker_App d ticker context).tickers.length + countContext d.tickers context =
        d.tickers.length ∧
      (∀ other : Option Nat,
        removeTicker_App d other context = removeTicker_App d ticker context) ∧
      ((∀ t ∈ d.tickers, t.context ≠ context) → removeTicker_App d ticker context = d) := by
  have he : removeTicker_App d ticker context =
      { d with tickers := d.tickers.filter (fun t => decide (t.context ≠ context)) } := by
    unfold removeTicker_App
    rw [remove_SortedArray_eq_filter d.tickers ⟨context, none, ticker⟩ hs]
  have hlen : ∀ ts : List Ticker,
      (ts.filter (fun t => decide (t.context ≠ context))).length + countContext ts context =
        ts.length := by
    intro ts
    induction ts with
    | nil => rfl
    | cons y ys ih =>
      rw [countContext_cons, List.filter_cons]
      simp only [ne_eq] at ih
      by_cases hc : y.context = context
      · simp only [hc, ne_eq, not_true_eq_false, decide_False, Bool.false_eq_true, if_false,
          if_true, List.length_cons]
        omega
      · simp only [hc, ne_eq, not_false_eq_true, decide_True, if_true, if_false,
          List.length_cons]
        omega
  refine ⟨he, ?_, ?_, ?_, ?_, ?_, ?_⟩
  · intro t ht
    rw [he] at ht
    have := (List.mem_filter.mp ht).2
    simpa using this
  · intro t ht hc
    rw [he]
    exact List.mem_filter.mpr ⟨ht, by simpa using hc⟩
  · rw [he]
    exact List.filter_sublist _
  · rw [he]
    exact hlen d.tickers
  · intro other
    unfold removeTicker_App
    rw [remove_SortedArray_context d.tickers ⟨context, none, other⟩ ⟨context, none, ticker⟩ rfl]
  · intro habs
    rw [he]
    have hkeep : d.tickers.filter (fun t => decide (t.context ≠ context)) = d.tickers := by
      rw [List.filter_eq_self]
      intro z hz
      simpa using habs z hz
    rw [hkeep]

/-- Witness of C20: of the tickers of contexts 3 and 7, the one of context 3 is removed
(naming another callback than the registered one); removing the absent context 5 changes
nothing. -/
theorem C20_removeTicker_witness :
    TickersSorted sampleTickerApp.tickers ∧
      (removeTicker_App sampleTickerApp (some 99) 3).tickers = [⟨7, some 2, some 51⟩] ∧
      removeTicker_App sampleTickerApp none 5 = sampleTickerApp :=
  ⟨by unfold TickersSorted; decide,
    by
      rw [(C20_removeTicker sampleTickerApp (some 99) 3 (by unfold TickersSorted; decide)).1]
      decide,
    (C20_removeTicker sampleTickerApp none 5 (by unfold TickersSorted; decide)).2.2.2.2.2.2
      (by decide)⟩

/-! ## Posting commands: the empty text and the `!` marker -/

/-- C22: `postCommand_Root` with the empty text is a no-op, whatever the root argument and
the state: the application is unchanged, so no event is pushed, nothing is appended to the
launch-command list and nothing is echoed. -/
theorem C22_postCommand_empty (app : App) (d : Option Nat) :
    postCommand_Root app d [] = app ∧
      (postCommand_Root app d []).events = app.events ∧
      (postCommand_Root app d []).launchCommands = app.launchCommands ∧
      (postCommand_Root app d []).echoed = app.echoed := by
  have h : postCommand_Root app d [] = app := by
    unfold postCommand_Root
    simp
  rw [h]
  exact ⟨rfl, rfl, rfl, rfl⟩

/-- C23, as the source has it: for every text `r` that is not empty and does not itself
begin with `!`, posting `!` followed by `r` has exactly the effect of posting `r`. -/
theorem C23_bang_marker (app : App) (d : Option Nat) (r : List Char) (hne : r ≠ [])
    (hbang : r.head? ≠ some '!') :
    postCommand_Root app d ('!' :: r) = postCommand_Root app d r := by
  have hl : ¬ r.length = 0 := fun hc => hne (List.length_eq_zero.mp hc)
  unfold postCommand_Root
  simp only [List.length_cons, Nat.add_one_ne_zero, if_false, List.head?_cons, if_true,
    List.tail_cons, hl, hbang]

/-- Witness of C23: `!a` and `a`, posted after launch. -/
theorem C23_bang_marker_witness :
    (['a'] ≠ [] ∧ ['a'].head? ≠ some '!') ∧
      postCommand_Root sampleQuietApp none ['!', 'a'] =
        postCommand_Root sampleQuietApp none ['a'] :=
  ⟨⟨by decide, by decide⟩, C23_bang_marker sampleQuietApp none ['a'] (by decide) (by decide)⟩

/-- C23 as stated fails for the empty remainder and for a remainder that begins with `!`:
posting `!` alone pushes a command event with the empty text while posting the empty text
does nothing, and posting `!!a` pushes the text `!a` while posting `!a` pushes `a`. -/
theorem C23_counterexample :
    (postCommand_Root sampleQuietApp none ['!']).events = [Event.command [] none] ∧
      (postCommand_Root sampleQuietApp none []).events = [] ∧
      postCommand_Root sampleQuietApp none ('!' :: []) ≠ postCommand_Root sampleQuietApp none [] ∧
      (postCommand_Root sampleQuietApp none ['!', '!', 'a']).events =
        [Event.command ['!', 'a'] none] ∧
      (postCommand_Root sampleQuietApp none ['!', 'a']).events = [Event.command ['a'] none] ∧
      postCommand_Root sampleQuietApp none ('!' :: ['!', 'a']) ≠
        postCommand_Root sampleQuietApp none ['!', 'a'] := by
  have h1 : (postCommand_Root sampleQuietApp none ['!']).events = [Event.command [] none] := by
    decide
  have h2 : (postCommand_Root sampleQuietApp none []).events = [] := by decide
  have h3 : (postCommand_Root sampleQuietApp none ['!', '!', 'a']).events =
      [Event.command ['!', 'a'] none] := by decide
  have h4 : (postCommand_Root sampleQuietApp none ['!', 'a']).events =
      [Event.command ['a'] none] := by decide
  refine ⟨h1, h2, ?_, h3, h4, ?_⟩
  · intro hc
    have := congrArg App.events hc
    rw [h1, h2] at this
    exact absurd this (by decide)
  · intro hc
    have := congrArg App.events hc
    rw [h3, h4] at this
    exact absurd this (by decide)

/-! ## The symmetric easing -/

/-- What waiting being allowed amounts to. -/
theorem isWaitingAllowed_App__iff (B : Build) (frameTime : Nat) (d : App) :
    isWaitingAllowed_App_ B frameTime d = true ↔
      d.periodicIsEmpty = true ∧ d.warmupFrames ≤ 0 ∧
        ¬ (B.idleSleep = true ∧ d.isIdling = true) ∧
        ¬ (B.platformMobile = true ∧ isFinished_Anim frameTime d.rootOffset = false) ∧
        d.pendingRefresh = false ∧ d.tickers = [] := by
  unfold isWaitingAllowed_App_
  cases hp : d.periodicIsEmpty with
  | false => simp
  | true =>
    rw [if_neg (by simp)]
    by_cases h2 : d.warmupFrames > 0
    · rw [if_pos h2]
      constructor
      · intro hc
        exact absurd hc (by simp)
      · rintro ⟨-, hc, -⟩
        omega
    · rw [if_neg h2]
      by_cases h3 : B.idleSleep = true ∧ d.isIdling = true
      · rw [if_pos h3]
        constructor
        · intro hc
          exact absurd hc (by simp)
        · rintro ⟨-, -, hc, -⟩
          exact absurd h3 hc
      · rw [if_neg h3]
        by_cases h4 : B.platformMobile = true ∧ isFinished_Anim frameTime d.rootOffset = false
        · rw [if_pos h4]
          constructor
          · intro hc
            exact absurd hc (by simp)
          · rintro ⟨-, -, -, hc, -⟩
            exact absurd h4 hc
        · rw [if_neg h4]
          have hfin : (!d.pendingRefresh && d.tickers.isEmpty) = true ↔
              d.pendingRefresh = false ∧ d.tickers = [] := by
            simp [List.isEmpty_iff]
          rw [hfin]
          constructor
          · rintro ⟨a, b⟩
            exact ⟨rfl, by omega, h3, h4, a, b⟩
          · rintro ⟨-, -, -, -, a, b⟩
            exact ⟨a, b⟩

/-- The fetch chosen by `nextEvent_App_`: the unbounded wait when the mode is
`waitForNewEvents` and waiting is allowed, the poll otherwise. -/
theorem nextEvent_App__eq (B : Build) (frameTime : Nat) (d : App) (eventMode : AppEventMode) :
    nextEvent_App_ B frameTime d eventMode =
      if eventMode = AppEventMode.waitForNewEvents ∧ isWaitingAllowed_App_ B frameTime d = true
      then EventFetch.waitEvent else EventFetch.pollEvent := by
  unfold nextEvent_App_
  by_cases h : eventMode = AppEventMode.waitForNewEvents ∧
      isWaitingAllowed_App_ B frameTime d = true
  · have hp : d.periodicIsEmpty = true := ((isWaitingAllowed_App__iff B frameTime d).mp h.2).1
    simp only [h, and_self, if_true, hp, Bool.true_eq_false, if_false]
  · simp only [h, if_false]

/-- C24: `nextEvent_App_` chooses a blocking wait only if the mode is `waitForNewEvents`, no
periodic tasks are pending, the warmup countdown is not active (`warmupFrames ≤ 0`), the
application is not idling and no tickers are registered; in every other state it polls.
(Waiting further requires that no refresh is pending and, on mobile builds, that the
root-offset animation has finished.) -/
theorem C24_wait_only_if (B : Build) (frameTime : Nat) (d : App) (eventMode : AppEventMode) :
    ((nextEvent_App_ B frameTime d eventMode).blocks = true →
        eventMode = AppEventMode.waitForNewEvents ∧ d.periodicIsEmpty = true ∧
          d.warmupFrames ≤ 0 ∧ ¬ (B.idleSleep = true ∧ d.isIdling = true) ∧ d.tickers = []) ∧
      (¬ (eventMode = AppEventMode.waitForNewEvents ∧ d.periodicIsEmpty = true ∧
          d.warmupFrames ≤ 0 ∧ ¬ (B.idleSleep = true ∧ d.isIdling = true) ∧ d.tickers = []) →
        nextEvent_App_ B frameTime d eventMode = EventFetch.pollEvent) ∧
      ((nextEvent_App_ B frameTime d eventMode).blocks = true ↔
        eventMode = AppEventMode.waitForNewEvents ∧ d.periodicIsEmpty = true ∧
          d.warmupFrames ≤ 0 ∧ ¬ (B.idleSleep = true ∧ d.isIdling = true) ∧
          ¬ (B.platformMobile = true ∧ isFinished_Anim frameTime d.rootOffset = false) ∧
          d.pendingRefresh = false ∧ d.tickers = []) := by
  have hiff : (nextEvent_App_ B frameTime d eventMode).blocks = true ↔
      eventMode = AppEventMode.waitForNewEvents ∧ d.periodicIsEmpty = true ∧
        d.warmupFrames ≤ 0 ∧ ¬ (B.idleSleep = true ∧ d.isIdling = true) ∧
        ¬ (B.platformMobile = true ∧ isFinished_Anim frameTime d.rootOffset = false) ∧
        d.pendingRefresh = false ∧ d.tickers = [] := by
    rw [nextEvent_App__eq, ← isWaitingAllowed_App__iff]
    split_ifs with h
    · simp [EventFetch.blocks, h.1, h.2]
    · simp only [EventFetch.blocks, Bool.false_eq_true, false_iff]
      exact h
  have honly : (nextEvent_App_ B frameTime d eventMode).blocks = true →
      eventMode = AppEventMode.waitForNewEvents ∧ d.periodicIsEmpty = true ∧
        d.warmupFrames ≤ 0 ∧ ¬ (B.idleSleep = true ∧ d.isIdling = true) ∧ d.tickers = [] := by
    intro hb
    obtain ⟨a, b, c, e, -, -, g⟩ := hiff.mp hb
    exact ⟨a, b, c, e, g⟩
  refine ⟨honly, ?_, hiff⟩
  intro hn
  rw [nextEvent_App__eq]
  split_ifs with h
  · exfalso
    apply hn
    apply honly
    rw [nextEvent_App__eq, if_pos h]
    rfl
  · rfl

/-- Witness of C24: the quiet application waits in `waitForNewEvents` mode. -/
theorem C24_wait_only_if_witness :
    (nextEvent_App_ sampleBuild 1000 sampleQuietApp AppEventMode.waitForNewEvents).blocks = true ∧
      (AppEventMode.waitForNewEvents = AppEventMode.waitForNewEvents ∧
        sampleQuietApp.periodicIsEmpty = true ∧ sampleQuietApp.warmupFrames ≤ 0 ∧
        ¬ (sampleBuild.idleSleep = true ∧ sampleQuietApp.isIdling = true) ∧
        sampleQuietApp.tickers = []) :=
  ⟨by decide,
    (C24_wait_only_if sampleBuild 1000 sampleQuietApp AppEventMode.waitForNewEvents).1
      (by decide)⟩

/-- C25, on the code: with periodic tasks pending `nextEvent_App_` polls, in every state and
mode; the bounded wait of 500 ms is never chosen, because `isWaitingAllowed_App_` is false as
soon as periodic tasks are pending. For the application with periodic tasks pending, no
warmup countdown, not idling, no tickers and no refresh pending, in `waitForNewEvents` mode,
the fetch is the poll. -/
theorem C25_bounded_wait_unreachable :
    nextEvent_App_ sampleBuild 1000 samplePeriodicApp AppEventMode.waitForNewEvents =
        EventFetch.pollEvent ∧
      (samplePeriodicApp.periodicIsEmpty = false ∧ samplePeriodicApp.warmupFrames = 0 ∧
        samplePeriodicApp.isIdling = false ∧ samplePeriodicApp.tickers = [] ∧
        samplePeriodicApp.pendingRefresh = false) ∧
      (∀ (B : Build) (frameTime : Nat) (d : App) (eventMode : AppEventMode),
        nextEvent_App_ B frameTime { d with periodicIsEmpty := false } eventMode =
          EventFetch.pollEvent) ∧
      (∀ (B : Build) (frameTime : Nat) (d : App) (eventMode : AppEventMode) (ms : Nat),
        nextEvent_App_ B frameTime d eventMode ≠ EventFetch.waitEventTimeout ms) := by
  refine ⟨by decide, ⟨rfl, rfl, rfl, rfl, rfl⟩, ?_, ?_⟩
  · intro B frameTime d eventMode
    rw [nextEvent_App__eq, if_neg]
    rintro ⟨-, hw⟩
    have := ((isWaitingAllowed_App__iff B frameTime _).mp hw).1
    exact Bool.false_ne_true this
  · intro B frameTime d eventMode ms
    rw [nextEvent_App__eq]
    split_ifs <;> exact fun h => EventFetch.noConfusion h

/-! ## Refresh: when a redraw happens -/

/-- The three outcomes of `refresh_App`. -/
theorem refresh_App_cases (B : Build) (frameTime : Nat) (d : App) :
    ((B.idleSleep = true ∧ (d.warmupFrames = 0 ∧ d.isIdling = true)) →
        refresh_App B frameTime d = d) ∧
      (¬ (B.idleSleep = true ∧ (d.warmupFrames = 0 ∧ d.isIdling = true)) →
        d.pendingRefresh = false → isFinished_Anim frameTime d.rootOffset = true →
        refresh_App B frameTime d = { d with pendingRefresh := false }) ∧
      (¬ (B.idleSleep = true ∧ (d.warmupFrames = 0 ∧ d.isIdling = true)) →
        (d.pendingRefresh = true ∨ isFinished_Anim frameTime d.rootOffset = false) →
        refresh_App B frameTime d =
          { d with
            pendingRefresh := false
            draws := d.draws + 1
            warmupFrames := if d.warmupFrames > 0 then d.warmupFrames - 1 else d.warmupFrames }) := by
  refine ⟨?_, ?_, ?_⟩
  · intro hs
    unfold refresh_App
    rw [if_pos hs]
  · intro hs hp hf
    unfold refresh_App
    rw [if_neg hs]
    simp only [hp, hf, and_self, if_true]
  · intro hs hor
    have hc : ¬ (d.pendingRefresh = false ∧ isFinished_Anim frameTime d.rootOffset = true) := by
      rintro ⟨h1, h2⟩
      rcases hor with h | h
      · rw [h1] at h
        exact Bool.false_ne_true h
      · rw [h2] at h
        exact Bool.false_ne_true h.symm
    unfold refresh_App
    rw [if_neg hs]
    simp only [hc, if_false]
    split_ifs <;> rfl

/-- C28: `refresh_App` makes one `draw_Window` call if and only if it is not idle-suppressed
(not (`warmupFrames == 0` and idling)) and the pending-refresh flag was set or the
root-offset animation of the window is still in flight, and none otherwise; when it is not
idle-suppressed it leaves the flag clear, when it is suppressed it changes nothing; a redraw
lowers a positive `warmupFrames` by one and leaves any other value, so a non-negative
countdown never goes below zero. -/
theorem C28_refresh_redraw (B : Build) (frameTime : Nat) (d : App) :
    ((refresh_App B frameTime d).draws = d.draws + 1 ↔
        ¬ (B.idleSleep = true ∧ (d.warmupFrames = 0 ∧ d.isIdling = true)) ∧
          (d.pendingRefresh = true ∨ isFinished_Anim frameTime d.rootOffset = false)) ∧
      ((refresh_App B frameTime d).draws = d.draws ∨
        (refresh_App B frameTime d).draws = d.draws + 1) ∧
      (¬ (B.idleSleep = true ∧ (d.warmupFrames = 0 ∧ d.isIdling = true)) →
        (refresh_App B frameTime d).pendingRefresh = false) ∧
      ((B.idleSleep = true ∧ (d.warmupFrames = 0 ∧ d.isIdling = true)) →
        refresh_App B frameTime d = d) ∧
      ((refresh_App B frameTime d).draws = d.draws + 1 →
        (refresh_App B frameTime d).warmupFrames =
          if d.warmupFrames > 0 then d.warmupFrames - 1 else d.warmupFrames) ∧
      ((refresh_App B frameTime d).draws = d.draws →
        (refresh_App B frameTime d).warmupFrames = d.warmupFrames) ∧
      (0 ≤ d.warmupFrames → 0 ≤ (refresh_App B frameTime d).warmupFrames) := by
  obtain ⟨c1, c2, c3⟩ := refresh_App_cases B frameTime d
  by_cases hs : B.idleSleep = true ∧ (d.warmupFrames = 0 ∧ d.isIdling = true)
  · rw [c1 hs]
    refine ⟨?_, Or.inl rfl, fun h => absurd hs h, fun _ => rfl, ?_, fun _ => rfl, fun h => h⟩
    · constructor
      · intro h
        omega
      · rintro ⟨h, -⟩
        exact absurd hs h
    · intro h
      omega
  · by_cases hor : d.pendingRefresh = true ∨ isFinished_Anim frameTime d.rootOffset = false
    · rw [c3 hs hor]
      refine ⟨⟨fun _ => ⟨hs, hor⟩, fun _ => rfl⟩, Or.inr rfl, fun _ => rfl,
        fun h => absurd h hs, fun _ => rfl, ?_, ?_⟩
      · intro h
        have : d.draws + 1 = d.draws := h
        omega
      · intro h
        show 0 ≤ (if d.warmupFrames > 0 then d.warmupFrames - 1 else d.warmupFrames)
        split_ifs <;> omega
    · have hp : d.pendingRefresh = false := by
        cases hpr : d.pendingRefresh with
        | false => rfl
        | true => exact absurd (Or.inl hpr) hor
      have hf : isFinished_Anim frameTime d.rootOffset = true := by
        cases hfr : isFinished_Anim frameTime d.rootOffset with
        | false => exact absurd (Or.inr hfr) hor
        | true => rfl
      rw [c2 hs hp hf]
      refine ⟨?_, Or.inl rfl, fun _ => rfl, fun h => absurd h hs, ?_, fun _ => rfl,
        fun h => h⟩
      · constructor
        · intro h
          have : d.draws = d.draws + 1 := h
          omega
        · rintro ⟨-, h⟩
          exact absurd h hor
      · intro h
        have : d.draws = d.draws + 1 := h
        omega

/-- Witness of C28: a refresh is pending in the quiet application; one redraw follows. -/
theorem C28_refresh_redraw_witness :
    (¬ (sampleBuild.idleSleep = true ∧
        ((postRefresh_App sampleBuild sampleQuietApp).warmupFrames = 0 ∧
          (postRefresh_App sampleBuild sampleQuietApp).isIdling = true)) ∧
      ((postRefresh_App sampleBuild sampleQuietApp).pendingRefresh = true ∨
        isFinished_Anim 1000 (postRefresh_App sampleBuild sampleQuietApp).rootOffset = false)) ∧
    (refresh_App sampleBuild 1000 (postRefresh_App sampleBuild sampleQuietApp)).draws =
      (postRefresh_App sampleBuild sampleQuietApp).draws + 1 :=
  ⟨⟨by decide, Or.inl (by decide)⟩,
    (C28_refresh_redraw sampleBuild 1000 (postRefresh_App sampleBuild sampleQuietApp)).1.mpr
      ⟨by decide, Or.inl (by decide)⟩⟩

/-! ## The pending-refresh flag -/

theorem pushCommand__pendingRefresh (app : App) (d : Option Nat) (c : List Char) :
    (pushCommand_ app d c).pendingRefresh = app.pendingRefresh := by
  unfold pushCommand_
  simp only []
  split_ifs <;> rfl

theorem postCommand_Root_pendingRefresh (app : App) (d : Option Nat) (c : List Char) :
    (postCommand_Root app d c).pendingRefresh = app.pendingRefresh := by
  unfold postCommand_Root
  simp only []
  split_ifs <;> first | rfl | exact pushCommand__pendingRefresh _ _ _

theorem foldl_postCommandString_Root_pendingRefresh (cs : List (List Char)) (app : App) :
    (cs.foldl (fun a c => postCommandString_Root a none c) app).pendingRefresh =
      app.pendingRefresh := by
  induction cs generalizing app with
  | nil => rfl
  | cons c cs ih =>
    rw [List.foldl_cons, ih]
    exact postCommand_Root_pendingRefresh app none c

theorem postRefresh_App_pendingRefresh (B : Build) (d : App) :
    (postRefresh_App B d).pendingRefresh = true := by
  unfold postRefresh_App
  simp only []
  split_ifs <;> rfl

/-- C26: a redraw request is not lost. Of the modelled operations only `postRefresh_App`
(also through `addTicker_App` and `addTickerRoot_App`) sets the pending-refresh flag;
`postCommand_Root`, the end of launch, `removeTicker_App`, `setCurrent_Root`,
`postImmediateRefresh_App` and a ticker pass over an empty collection leave it as it is;
`refresh_App` never sets it, and a `refresh_App` call that finds the flag set and leaves it
clear makes a `draw_Window` call in that same call; a call that returns early because of
idle suppression changes nothing, so the flag stays set. -/
theorem C26_refresh_request_not_lost (B : Build) (frameTime : Nat) (d : App) :
    (d.pendingRefresh = true → (refresh_App B frameTime d).pendingRefresh = false →
        (refresh_App B frameTime d).draws = d.draws + 1) ∧
      ((B.idleSleep = true ∧ (d.warmupFrames = 0 ∧ d.isIdling = true)) →
        refresh_App B frameTime d = d) ∧
      (d.pendingRefresh = true →
        (refresh_App B frameTime d).pendingRefresh = true ∨
          (refresh_App B frameTime d).draws = d.draws + 1) ∧
      ((refresh_App B frameTime d).pendingRefresh = true → d.pendingRefresh = true) ∧
      (postRefresh_App B d).pendingRefresh = true ∧
      (∀ (ticker root : Option Nat) (context : Nat),
        (addTicker_App B d ticker context).pendingRefresh = true ∧
          (addTickerRoot_App B d ticker root context).pendingRefresh = true) ∧
      (∀ (root : Option Nat) (c : List Char),
        (postCommand_Root d root c).pendingRefresh = d.pendingRefresh) ∧
      (finishLaunching_App_ d).pendingRefresh = d.pendingRefresh ∧
      (∀ (ticker : Option Nat) (context : Nat),
        (removeTicker_App d ticker context).pendingRefresh = d.pendingRefresh) ∧
      (∀ root : Option Nat, (setCurrent_Root d root).pendingRefresh = d.pendingRefresh) ∧
      (postImmediateRefresh_App d).pendingRefresh = d.pendingRefresh ∧
      (∀ (run : Nat → Nat → App → App) (now : Nat), d.tickers = [] →
        (runTickers_App_ B run now d).1.pendingRefresh = d.pendingRefresh) := by
  obtain ⟨c1, c2, c3⟩ := refresh_App_cases B frameTime d
  have hdraw : d.pendingRefresh = true →
      (refresh_App B frameTime d).pendingRefresh = true ∨
        (refresh_App B frameTime d).draws = d.draws + 1 := by
    intro hp
    by_cases hs : B.idleSleep = true ∧ (d.warmupFrames = 0 ∧ d.isIdling = true)
    · rw [c1 hs]
      exact Or.inl hp
    · rw [c3 hs (Or.inl hp)]
      exact Or.inr rfl
  refine ⟨?_, c1, hdraw, ?_, postRefresh_App_pendingRefresh B d, ?_,
    fun root c => postCommand_Root_pendingRefresh d root c, ?_, fun _ _ => rfl, fun _ => rfl,
    rfl, ?_⟩
  · intro hp hclear
    rcases hdraw hp with h | h
    · rw [hclear] at h
      exact absurd h Bool.false_ne_true
    · exact h
  · intro hset
    by_cases hs : B.idleSleep = true ∧ (d.warmupFrames = 0 ∧ d.isIdling = true)
    · rw [c1 hs] at hset
      exact hset
    · by_cases hor : d.pendingRefresh = true ∨ isFinished_Anim frameTime d.rootOffset = false
      · rw [c3 hs hor] at hset
        exact absurd hset Bool.false_ne_true
      · have hp : d.pendingRefresh = false := by
          cases hpr : d.pendingRefresh with
          | false => rfl
          | true => exact absurd (Or.inl hpr) hor
        have hf : isFinished_Anim frameTime d.rootOffset = true := by
          cases hfr : isFinished_Anim frameTime d.rootOffset with
          | false => exact absurd (Or.inr hfr) hor
          | true => rfl
        rw [c2 hs hp hf] at hset
        exact absurd hset Bool.false_ne_true
  · intro ticker root context
    exact ⟨postRefresh_App_pendingRefresh B _, postRefresh_App_pendingRefresh B _⟩
  · unfold finishLaunching_App_
    exact foldl_postCommandString_Root_pendingRefresh _ _
  · intro run now he
    unfold runTickers_App_
    simp only [he, List.isEmpty_nil, if_true]

/-- Witness of C26: a refresh is pending in the quiet application; the refresh that clears
the flag draws. -/
theorem C26_refresh_request_not_lost_witness :
    ((postRefresh_App sampleBuild sampleQuietApp).pendingRefresh = true ∧
      (refresh_App sampleBuild 1000 (postRefresh_App sampleBuild sampleQuietApp)).pendingRefresh
        = false) ∧
    (refresh_App sampleBuild 1000 (postRefresh_App sampleBuild sampleQuietApp)).draws =
      (postRefresh_App sampleBuild sampleQuietApp).draws + 1 :=
  ⟨⟨by decide, by decide⟩,
    (C26_refresh_request_not_lost sampleBuild 1000
      (postRefresh_App sampleBuild sampleQuietApp)).1 (by decide) (by decide)⟩

/-! ## The ticker pass: what is called -/

/-- The calls of a pass are those of the entries of the collection at its start. -/
theorem runTickers_App__calls (B : Build) (run : Nat → Nat → App → App) (now : Nat) (d : App) :
    (runTickers_App_ B run now d).2 = d.tickers.filterMap tickerCall := by
  cases hts : d.tickers with
  | nil =>
    unfold runTickers_App_
    simp only [hts, List.isEmpty_nil, if_true, List.filterMap_nil]
  | cons y ys =>
    have hne : d.tickers.isEmpty = false := by rw [hts]; rfl
    rw [(runTickers_App__nonempty B run now d hne).1, runPending__calls, List.nil_append, hts]
    rfl

theorem TickerOp.apply_no_context (B : Build) (X : Nat) (d : App) (op : TickerOp)
    (hop : op.registers X = false) (h : ∀ t ∈ d.tickers, t.context ≠ X) :
    ∀ t ∈ (TickerOp.apply B d op).tickers, t.context ≠ X := by
  cases op with
  | addTicker ticker context =>
    intro t ht
    have hne : context ≠ X := by simpa [TickerOp.registers] using hop
    change t ∈ (addTicker_App B d ticker context).tickers at ht
    rw [addTicker_App_eq, addTickerRoot_App_tickers] at ht
    rcases mem_insert_SortedArray _ _ _ ht with h1 | h1
    · rw [h1]
      exact hne
    · exact h t h1
  | addTickerRoot ticker root context =>
    intro t ht
    have hne : context ≠ X := by simpa [TickerOp.registers] using hop
    change t ∈ (addTickerRoot_App B d ticker root context).tickers at ht
    rw [addTickerRoot_App_tickers] at ht
    rcases mem_insert_SortedArray _ _ _ ht with h1 | h1
    · rw [h1]
      exact hne
    · exact h t h1
  | removeTicker ticker context =>
    intro t ht
    exact h t ((remove_SortedArray_sublist _ _).subset ht)
  | setCurrent root => exact h

theorem foldl_apply_no_context (B : Build) (X : Nat) (ops : List TickerOp) (d : App)
    (hops : ∀ op ∈ ops, op.registers X = false) (h : ∀ t ∈ d.tickers, t.context ≠ X) :
    ∀ t ∈ (ops.foldl (TickerOp.apply B) d).tickers, t.context ≠ X := by
  induction ops generalizing d with
  | nil => exact h
  | cons op ops ih =>
    exact ih _ (fun o ho => hops o (List.mem_cons_of_mem _ ho))
      (TickerOp.apply_no_context B X d op (hops op (List.mem_cons_self _ _)) h)

/-- C21: after `addTicker_App (A, X)` followed by `removeTicker_App (A, X)`, with any
registration calls `ops1` before the removal, registration calls `ops2` after it that do not
register `X`, and no pass in between, no entry of context `X` is left and the next
`runTickers_App_` pass makes no call with context `X` (so it does not call `A` for `X`),
whatever the callbacks of the pass do. -/
theorem C21_removed_ticker_not_run (B : Build) (run : Nat → Nat → App → App) (now : Nat)
    (d : App) (A : Option Nat) (X : Nat) (ops1 ops2 : List TickerOp)
    (hs : TickersSorted d.tickers) (h2 : ∀ op ∈ ops2, op.registers X = false) :
    (∀ t ∈ (ops2.foldl (TickerOp.apply B)
          (removeTicker_App (ops1.foldl (TickerOp.apply B) (addTicker_App B d A X)) A X)).tickers,
        t.context ≠ X) ∧
      (∀ c ∈ (runTickers_App_ B run now
          (ops2.foldl (TickerOp.apply B)
            (removeTicker_App (ops1.foldl (TickerOp.apply B) (addTicker_App B d A X)) A X))).2,
        c.context ≠ X) := by
  have hs1 : TickersSorted (ops1.foldl (TickerOp.apply B) (addTicker_App B d A X)).tickers := by
    apply foldl_apply_sorted
    rw [addTicker_App_eq, addTickerRoot_App_tickers]
    exact insert_SortedArray_sorted _ _ hs
  have hrem : ∀ t ∈ (removeTicker_App
      (ops1.foldl (TickerOp.apply B) (addTicker_App B d A X)) A X).tickers, t.context ≠ X := by
    intro t ht
    unfold removeTicker_App at ht
    simp only at ht
    rw [remove_SortedArray_eq_filter _ _ hs1] at ht
    simpa using (List.mem_filter.mp ht).2
  have hno := foldl_apply_no_context B X ops2 _ h2 hrem
  refine ⟨hno, ?_⟩
  intro c hc
  rw [runTickers_App__calls] at hc
  obtain ⟨t, ht, htc⟩ := List.mem_filterMap.mp hc
  unfold tickerCall at htc
  cases hcb : t.callback with
  | none => simp [hcb] at htc
  | some f =>
    simp only [hcb, Option.map_some', Option.some.injEq] at htc
    rw [← htc]
    exact hno t ht

/-- Witness of C21: context 7 is registered with callback 51 and removed again, among calls
on the contexts 9 and 3; the pass makes no call with context 7. -/
theorem C21_removed_ticker_not_run_witness :
    (TickersSorted sampleTickerApp.tickers ∧
      (∀ op ∈ sampleOtherOps, op.registers 7 = false)) ∧
    ∀ c ∈ (runTickers_App_ sampleBuild sampleRun 5000
        (sampleOtherOps.foldl (TickerOp.apply sampleBuild)
          (removeTicker_App (sampleOtherOps.foldl (TickerOp.apply sampleBuild)
            (addTicker_App sampleBuild sampleTickerApp (some 51) 7)) (some 51) 7))).2,
      c.context ≠ 7 :=
  ⟨⟨by unfold TickersSorted; decide, by decide⟩,
    (C21_removed_ticker_not_run sampleBuild sampleRun 5000 sampleTickerApp (some 51) 7
      sampleOtherOps sampleOtherOps (by unfold TickersSorted; decide) (by decide)).2⟩

theorem easeIn_mono {a b : ℚ} (h0 : 0 ≤ a) (hab : a ≤ b) : easeIn_ a ≤ easeIn_ b := by
  unfold easeIn_
  nlinarith

theorem easeOut_mono {a b : ℚ} (hab : a ≤ b) (h1 : b ≤ 1) : easeOut_ a ≤ easeOut_ b := by
  unfold easeOut_
  nlinarith [mul_nonneg (sub_nonneg.mpr hab) (by linarith : (0 : ℚ) ≤ 2 - a - b)]

theorem easeBoth_mono {a b : ℚ} (h0 : 0 ≤ a) (hab : a ≤ b) (h1 : b ≤ 1) :
    easeBoth_ a ≤ easeBoth_ b := by
  unfold easeBoth_
  by_cases ha : a < 1 / 2
  · by_cases hb : b < 1 / 2
    · rw [if_pos ha, if_pos hb]
      have := easeIn_mono (a := a * 2) (b := b * 2) (by linarith) (by linarith)
      linarith
    · rw [if_pos ha, if_neg hb]
      have h2 : easeIn_ (a * 2) ≤ 1 := (easeIn_mem (by linarith) (by linarith)).2
      have h3 : 0 ≤ easeOut_ ((b - 1 / 2) * 2) :=
        (easeOut_mem (by linarith) (by linarith)).1
      linarith
  · have hb : ¬ b < 1 / 2 := by linarith
    rw [if_neg ha, if_neg hb]
    have := easeOut_mono (a := (a - 1 / 2) * 2) (b := (b - 1 / 2) * 2) (by linarith)
      (by linarith)
    linarith

theorem iterate_mono (f : ℚ → ℚ) (hf : ∀ t, 0 ≤ t → t ≤ 1 → 0 ≤ f t ∧ f t ≤ 1)
    (hm : ∀ a b, 0 ≤ a → a ≤ b → b ≤ 1 → f a ≤ f b) (k : Nat) {a b : ℚ} (h0 : 0 ≤ a)
    (hab : a ≤ b) (h1 : b ≤ 1) : f^[k] a ≤ f^[k] b := by
  induction k generalizing a b with
  | zero => exact hab
  | succ k ih =>
    rw [Function.iterate_succ_apply, Function.iterate_succ_apply]
    exact ih (hf a h0 (le_trans hab h1)).1 (hm a b h0 hab h1) (hf b (le_trans h0 hab) h1).2

theorem easedPosition_mono (flags : Nat) {a b : ℚ} (h0 : 0 ≤ a) (hab : a ≤ b) (h1 : b ≤ 1) :
    easedPosition flags a ≤ easedPosition flags b := by
  unfold easedPosition
  split_ifs
  · exact iterate_mono _ (fun _ x y => easeBoth_mem x y)
      (fun _ _ x y z => easeBoth_mono x y z) _ h0 hab h1
  · exact iterate_mono _ (fun _ x y => easeIn_mem x y)
      (fun _ _ x y _ => easeIn_mono x y) _ h0 hab h1
  · exact iterate_mono _ (fun _ x y => easeOut_mem x y)
      (fun _ _ _ y z => easeOut_mono y z) _ h0 hab h1
  · exact hab

theorem valueAt_Anim__eq_progress (d : Anim) (now : Nat)
    (hb : d.flags &&& bounce_AnimFlag = 0) :
    valueAt_Anim_ d now = d.from_ * (1 - progress_ d now) + d.to_ * progress_ d now := by
  unfold progress_
  by_cases h1 : now ≥ d.due
  · rw [valueAt_Anim__of_due_le d now h1, if_pos h1]
    ring
  · by_cases h2 : now ≤ d.when
    · rw [valueAt_Anim__of_le_when d now h2 (by omega), if_neg h1, if_pos h2]
      ring
    · rw [valueAt_Anim__mid d now (by omega) (by omega), if_neg h1, if_neg h2]
      simp only [hb, ne_eq, not_true_eq_false, if_false, add_zero]

theorem progress__mem (d : Anim) (now : Nat) (hdue : d.due < 2 ^ 32) :
    0 ≤ progress_ d now ∧ progress_ d now ≤ 1 := by
  unfold progress_
  split_ifs with h1 h2
  · exact ⟨by norm_num, le_refl _⟩
  · exact ⟨le_refl _, by norm_num⟩
  · have hp := pos_Anim__mem d now (by omega) (by omega) hdue
    exact easedPosition_mem d.flags (le_of_lt hp.1) (le_of_lt hp.2)

theorem progress__mono (d : Anim) (now1 now2 : Nat) (hdue : d.due < 2 ^ 32)
    (hle : now1 ≤ now2) : progress_ d now1 ≤ progress_ d now2 := by
  by_cases h2 : now2 ≥ d.due
  · have : progress_ d now2 = 1 := by
      unfold progress_
      rw [if_pos h2]
    rw [this]
    exact (progress__mem d now1 hdue).2
  · by_cases h1 : now1 ≤ d.when
    · have : progress_ d now1 = 0 := by
        unfold progress_
        rw [if_neg (by omega), if_pos h1]
      rw [this]
      exact (progress__mem d now2 hdue).1
    · have hw1 : d.when < now1 := by omega
      have hd2 : now2 < d.due := by omega
      unfold progress_
      rw [if_neg (by omega), if_neg h1, if_neg h2, if_neg (by omega)]
      have hp1 := pos_Anim__mem d now1 hw1 (by omega) hdue
      have hp2 := pos_Anim__mem d now2 (by omega) hd2 hdue
      apply easedPosition_mono d.flags (le_of_lt hp1.1) _ (le_of_lt hp2.2)
      rw [pos_Anim__eq d now1 hw1 (by omega) hdue, pos_Anim__eq d now2 (by omega) hd2 hdue]
      have hpos : (0 : ℚ) < (d.due : ℚ) - (d.when : ℚ) := by
        have : (d.when : ℚ) < (d.due : ℚ) := by exact_mod_cast (by omega : d.when < d.due)
        linarith
      have hn : (now1 : ℚ) ≤ (now2 : ℚ) := by exact_mod_cast hle
      exact div_le_div_of_nonneg_right (by linarith) (le_of_lt hpos)

/-- C30, in exact arithmetic (the `float` operations of `valueAt_Anim_` taken without
rounding): for an animation with the bounce flag clear (with `due > when`, and for a
degenerate one as well), for every combination of the easing and softness flags, the value
is monotone in time: with
`from ≤ to`, `now1 ≤ now2` gives `valueAt_Anim_ now1 ≤ valueAt_Anim_ now2`, and with
`from ≥ to` it gives `valueAt_Anim_ now2 ≤ valueAt_Anim_ now1`. Each easing function is
non-decreasing on `[0, 1]` and maps `[0, 1]` into itself. -/
theorem C30_value_monotone (d : Anim) (now1 now2 : Nat) (hdue : d.due < 2 ^ 32)
    (hb : d.flags &&& bounce_AnimFlag = 0) (hle : now1 ≤ now2) :
    (d.from_ ≤ d.to_ → valueAt_Anim_ d now1 ≤ valueAt_Anim_ d now2) ∧
      (d.from_ ≥ d.to_ → valueAt_Anim_ d now2 ≤ valueAt_Anim_ d now1) ∧
      (∀ a b : ℚ, 0 ≤ a → a ≤ b → b ≤ 1 →
        easeIn_ a ≤ easeIn_ b ∧ easeOut_ a ≤ easeOut_ b ∧ easeBoth_ a ≤ easeBoth_ b) ∧
      (∀ t : ℚ, 0 ≤ t → t ≤ 1 →
        (0 ≤ easeIn_ t ∧ easeIn_ t ≤ 1) ∧ (0 ≤ easeOut_ t ∧ easeOut_ t ≤ 1) ∧
          (0 ≤ easeBoth_ t ∧ easeBoth_ t ≤ 1)) := by
  have hp := progress__mono d now1 now2 hdue hle
  have e1 := valueAt_Anim__eq_progress d now1 hb
  have e2 := valueAt_Anim__eq_progress d now2 hb
  refine ⟨?_, ?_, ?_, ?_⟩
  · intro hft
    rw [e1, e2]
    nlinarith [mul_nonneg (sub_nonneg.mpr hft) (sub_nonneg.mpr hp)]
  · intro hft
    rw [e1, e2]
    nlinarith [mul_nonneg (sub_nonneg.mpr hft) (sub_nonneg.mpr hp)]
  · intro a b h0 hab h1
    exact ⟨easeIn_mono h0 hab, easeOut_mono hab h1, easeBoth_mono h0 hab h1⟩
  · intro t h0 h1
    exact ⟨easeIn_mem h0 h1, easeOut_mem h0 h1, easeBoth_mem h0 h1⟩

/-- Witness of C30: the softer ease-in-out animation from 10 down to 0, at the ticks 50 and
150. -/
theorem C30_value_monotone_witness :
    (sampleSoftAnim.when < sampleSoftAnim.due ∧ sampleSoftAnim.due < 2 ^ 32 ∧
      sampleSoftAnim.flags &&& bounce_AnimFlag = 0 ∧ (50 : Nat) ≤ 150 ∧
      sampleSoftAnim.from_ ≥ sampleSoftAnim.to_) ∧
    valueAt_Anim_ sampleSoftAnim 150 ≤ valueAt_Anim_ sampleSoftAnim 50 :=
  ⟨⟨by decide, by decide, by decide, by decide, by simp only [sampleSoftAnim]; norm_num⟩,
    (C30_value_monotone sampleSoftAnim 50 150 (by decide) (by decide) (by decide)).2.1
      (by simp only [sampleSoftAnim]; norm_num)⟩

/-! ## Binary32: the rounding -/

theorem floorLog2Fuel_spec (fuel n : Nat) (h1 : 1 ≤ n) (h2 : n ≤ fuel) :
    2 ^ floorLog2Fuel fuel n ≤ n ∧ n < 2 ^ (floorLog2Fuel fuel n + 1) := by
  induction fuel generalizing n with
  | zero => omega
  | succ fuel ih =>
    unfold floorLog2Fuel
    split_ifs with h
    · obtain ⟨ih1, ih2⟩ := ih (n / 2) (by omega) (by omega)
      constructor
      · rw [pow_succ]
        omega
      · rw [pow_succ]
        omega
    · have hn : n = 1 := by omega
      subst hn
      simp

theorem floorLog2_spec (n : Nat) (h1 : 1 ≤ n) :
    2 ^ floorLog2 n ≤ n ∧ n < 2 ^ (floorLog2 n + 1) :=
  floorLog2Fuel_spec n n h1 (le_refl _)

/-- The binary exponent brackets the magnitude. -/
theorem binaryExponent_spec (q : ℚ) (hq : q ≠ 0) :
    (2 : ℚ) ^ binaryExponent q ≤ |q| ∧ |q| < (2 : ℚ) ^ (binaryExponent q + 1) := by
  have hn1 : 1 ≤ q.num.natAbs := by
    have : q.num ≠ 0 := Rat.num_ne_zero.mpr hq
    omega
  have hm1 : 1 ≤ q.den := q.den_pos
  obtain ⟨a1, a2⟩ := floorLog2_spec q.num.natAbs hn1
  obtain ⟨b1, b2⟩ := floorLog2_spec q.den hm1
  have habs : |q| = (q.num.natAbs : ℚ) / (q.den : ℚ) := by
    have h := Rat.num_div_den q
    have hd : (0 : ℚ) < (q.den : ℚ) := by exact_mod_cast q.den_pos
    rw [← h, abs_div, abs_of_pos hd, Rat.num_div_den, Nat.cast_natAbs, Int.cast_abs]
  have hden : (0 : ℚ) < (q.den : ℚ) := by exact_mod_cast q.den_pos
  have a1' : (2 : ℚ) ^ (floorLog2 q.num.natAbs) ≤ (q.num.natAbs : ℚ) := by exact_mod_cast a1
  have a2' : (q.num.natAbs : ℚ) < (2 : ℚ) ^ (floorLog2 q.num.natAbs + 1) := by
    exact_mod_cast a2
  have b1' : (2 : ℚ) ^ (floorLog2 q.den) ≤ (q.den : ℚ) := by exact_mod_cast b1
  have b2' : (q.den : ℚ) < (2 : ℚ) ^ (floorLog2 q.den + 1) := by exact_mod_cast b2
  have h2 : (2 : ℚ) ≠ 0 := by norm_num
  have hA : (0 : ℚ) < (2 : ℚ) ^ (floorLog2 q.num.natAbs) := by positivity
  have hB : (0 : ℚ) < (2 : ℚ) ^ (floorLog2 q.den) := by positivity
  -- the two coarse bounds
  have hlo : (2 : ℚ) ^ ((floorLog2 q.num.natAbs : Int) - (floorLog2 q.den : Int) - 1) <
      |q| := by
    rw [habs, zpow_sub₀ h2, zpow_sub₀ h2, zpow_natCast, zpow_natCast, zpow_one,
      div_div, lt_div_iff₀ hden, div_mul_eq_mul_div, div_lt_iff₀ (by positivity)]
    calc (2 : ℚ) ^ floorLog2 q.num.natAbs * (q.den : ℚ)
        < (2 : ℚ) ^ floorLog2 q.num.natAbs * (2 : ℚ) ^ (floorLog2 q.den + 1) := by
          exact mul_lt_mul_of_pos_left b2' hA
      _ = (2 : ℚ) ^ floorLog2 q.num.natAbs * ((2 : ℚ) ^ floorLog2 q.den * 2) := by
          rw [pow_succ]
      _ ≤ (q.num.natAbs : ℚ) * ((2 : ℚ) ^ floorLog2 q.den * 2) := by
          exact mul_le_mul_of_nonneg_right a1' (by positivity)
  have hhi : |q| <
      (2 : ℚ) ^ ((floorLog2 q.num.natAbs : Int) - (floorLog2 q.den : Int) + 1) := by
    rw [habs, zpow_add₀ h2, zpow_sub₀ h2, zpow_natCast, zpow_natCast, zpow_one,
      div_lt_iff₀ hden, div_mul_eq_mul_div, div_mul_eq_mul_div, lt_div_iff₀ hB]
    calc (q.num.natAbs : ℚ) * (2 : ℚ) ^ floorLog2 q.den
        ≤ (q.num.natAbs : ℚ) * (q.den : ℚ) := by
          exact mul_le_mul_of_nonneg_left b1' (by positivity)
      _ < (2 : ℚ) ^ (floorLog2 q.num.natAbs + 1) * (q.den : ℚ) := by
          exact mul_lt_mul_of_pos_right a2' hden
      _ = (2 : ℚ) ^ floorLog2 q.num.natAbs * 2 * (q.den : ℚ) := by rw [pow_succ]
  unfold binaryExponent
  simp only
  split_ifs with h
  · exact ⟨h, hhi⟩
  · refine ⟨le_of_lt hlo, ?_⟩
    rw [sub_add_cancel]
    exact not_le.mp h

/-- The nearest integer is at most `N` below `N + 1/2`. -/
theorem roundHalfEven_le (x : ℚ) (N : Int) (h : x < (N : ℚ) + 1 / 2) :
    roundHalfEven x ≤ N := by
  have hf1 : ((⌊x⌋ : Int) : ℚ) ≤ x := Int.floor_le x
  have hfN : ⌊x⌋ ≤ N := by
    have : ((⌊x⌋ : Int) : ℚ) < (N : ℚ) + 1 := by linarith
    have : (⌊x⌋ : Int) < N + 1 := by exact_mod_cast this
    omega
  have key : (1 : ℚ) / 2 ≤ x - ((⌊x⌋ : Int) : ℚ) → ⌊x⌋ + 1 ≤ N := by
    intro hr
    have : ((⌊x⌋ : Int) : ℚ) < (N : ℚ) := by linarith
    have : (⌊x⌋ : Int) < N := by exact_mod_cast this
    omega
  unfold roundHalfEven
  simp only
  split_ifs with h1 h2 h3
  · exact hfN
  · exact key (le_of_lt h2)
  · exact hfN
  · exact key (not_lt.mp h1)

/-- The nearest integer is at least `N` above `N - 1/2`. -/
theorem le_roundHalfEven (x : ℚ) (N : Int) (h : (N : ℚ) - 1 / 2 < x) :
    N ≤ roundHalfEven x := by
  have hf2 : x < ((⌊x⌋ : Int) : ℚ) + 1 := Int.lt_floor_add_one x
  have hfN : N - 1 ≤ ⌊x⌋ := by
    have : (N : ℚ) - 2 < ((⌊x⌋ : Int) : ℚ) := by linarith
    have : (((N - 2 : Int)) : ℚ) < ((⌊x⌋ : Int) : ℚ) := by push_cast; linarith
    have : N - 2 < ⌊x⌋ := by exact_mod_cast this
    omega
  have key : x - ((⌊x⌋ : Int) : ℚ) < 1 / 2 → N ≤ ⌊x⌋ := by
    intro hr
    have : (N : ℚ) - 1 < ((⌊x⌋ : Int) : ℚ) := by linarith
    have : (((N - 1 : Int)) : ℚ) < ((⌊x⌋ : Int) : ℚ) := by push_cast; linarith
    have : N - 1 < ⌊x⌋ := by exact_mod_cast this
    omega
  unfold roundHalfEven
  simp only
  split_ifs with h1 h2 h3
  · exact key h1
  · omega
  · have h4 : x - ((⌊x⌋ : Int) : ℚ) = 1 / 2 := le_antisymm (not_lt.mp h2) (not_lt.mp h1)
    by_contra hc
    have h5 : ⌊x⌋ = N - 1 := by omega
    rw [h5] at h4
    push_cast at h4
    linarith
  · omega

/-- The `float` constant `0.0001f`. -/
theorem roundF32_tolerance : roundF32 (1 / 10000) = 13743895 / 137438953472 := by decide!

/-- The rounded difference of two targets that differ by at most 0.0001 does not exceed the
`float` constant `0.0001f`. -/
theorem roundF32_le_tolerance (x : ℚ) (hx : |x| ≤ 1 / 10000) :
    |roundF32 x| ≤ roundF32 (1 / 10000) := by
  rw [roundF32_tolerance]
  by_cases h0 : x = 0
  · rw [h0]
    have : roundF32 0 = 0 := by decide!
    rw [this]
    norm_num
  obtain ⟨e1, e2⟩ := binaryExponent_spec x h0
  have h2 : (1 : ℚ) < 2 := by norm_num
  have he : binaryExponent x ≤ -14 := by
    have : (2 : ℚ) ^ binaryExponent x < (2 : ℚ) ^ (-13 : Int) := by
      have h13 : (1 : ℚ) / 10000 < (2 : ℚ) ^ (-13 : Int) := by norm_num
      exact lt_of_le_of_lt (le_trans e1 hx) h13
    have := (zpow_lt_zpow_iff_right₀ h2).mp this
    omega
  have hr : roundF32 x =
      (roundHalfEven (x / (2 : ℚ) ^ (max (binaryExponent x) (-126) - 23)) : ℚ) *
        (2 : ℚ) ^ (max (binaryExponent x) (-126) - 23) := by
    unfold roundF32
    rw [if_neg h0]
  rw [hr]
  generalize hE : max (binaryExponent x) (-126) = E
  have hE1 : E ≤ -14 := by rw [← hE]; exact max_le he (by norm_num)
  have hE2 : -126 ≤ E := by rw [← hE]; exact le_max_right _ _
  have hxE : |x| < (2 : ℚ) ^ (E + 1) := by
    refine lt_of_lt_of_le e2 (zpow_le_zpow_right₀ (le_of_lt h2) ?_)
    have : binaryExponent x ≤ E := by rw [← hE]; exact le_max_left _ _
    omega
  have hu : (0 : ℚ) < (2 : ℚ) ^ (E - 23) := by positivity
  rw [abs_mul, abs_of_pos hu]
  obtain ⟨hx1, hx2⟩ := abs_le.mp hx
  obtain ⟨hy1, hy2⟩ := abs_lt.mp hxE
  by_cases hc : E = -14
  · subst hc
    have hu' : (2 : ℚ) ^ ((-14 : Int) - 23) = 1 / 137438953472 := by norm_num
    rw [hu']
    have hle : roundHalfEven (x / (1 / 137438953472)) ≤ 13743895 :=
      roundHalfEven_le _ _ (by push_cast; rw [div_lt_iff₀ (by norm_num)]; linarith)
    have hge : -13743895 ≤ roundHalfEven (x / (1 / 137438953472)) :=
      le_roundHalfEven _ _ (by push_cast; rw [lt_div_iff₀ (by norm_num)]; linarith)
    have hq1 : (roundHalfEven (x / (1 / 137438953472)) : ℚ) ≤ 13743895 := by
      exact_mod_cast hle
    have hq2 : (-13743895 : ℚ) ≤ (roundHalfEven (x / (1 / 137438953472)) : ℚ) := by
      exact_mod_cast hge
    have : |(roundHalfEven (x / (1 / 137438953472)) : ℚ)| ≤ 13743895 := abs_le.mpr ⟨hq2, hq1⟩
    calc |(roundHalfEven (x / (1 / 137438953472)) : ℚ)| * (1 / 137438953472)
        ≤ 13743895 * (1 / 137438953472) := by
          exact mul_le_mul_of_nonneg_right this (by norm_num)
      _ = 13743895 / 137438953472 := by norm_num
  · have hE3 : E ≤ -15 := by omega
    have hsplit : (2 : ℚ) ^ (E + 1) = 16777216 * (2 : ℚ) ^ (E - 23) := by
      have : E + 1 = 24 + (E - 23) := by ring
      rw [this, zpow_add₀ (by norm_num : (2 : ℚ) ≠ 0)]
      norm_num
    rw [hsplit] at hy1 hy2
    have hle : roundHalfEven (x / (2 : ℚ) ^ (E - 23)) ≤ 16777216 :=
      roundHalfEven_le _ _ (by push_cast; rw [div_lt_iff₀ hu]; nlinarith)
    have hge : -16777216 ≤ roundHalfEven (x / (2 : ℚ) ^ (E - 23)) :=
      le_roundHalfEven _ _ (by push_cast; rw [lt_div_iff₀ hu]; nlinarith)
    have hq1 : (roundHalfEven (x / (2 : ℚ) ^ (E - 23)) : ℚ) ≤ 16777216 := by
      exact_mod_cast hle
    have hq2 : (-16777216 : ℚ) ≤ (roundHalfEven (x / (2 : ℚ) ^ (E - 23)) : ℚ) := by
      exact_mod_cast hge
    have habs : |(roundHalfEven (x / (2 : ℚ) ^ (E - 23)) : ℚ)| ≤ 16777216 :=
      abs_le.mpr ⟨hq2, hq1⟩
    have hpow : (2 : ℚ) ^ (E + 1) ≤ (2 : ℚ) ^ (-14 : Int) :=
      zpow_le_zpow_right₀ (le_of_lt h2) (by omega)
    calc |(roundHalfEven (x / (2 : ℚ) ^ (E - 23)) : ℚ)| * (2 : ℚ) ^ (E - 23)
        ≤ 16777216 * (2 : ℚ) ^ (E - 23) := mul_le_mul_of_nonneg_right habs (le_of_lt hu)
      _ = (2 : ℚ) ^ (E + 1) := hsplit.symm
      _ ≤ (2 : ℚ) ^ (-14 : Int) := hpow
      _ ≤ 13743895 / 137438953472 := by norm_num

/-- The nearest integer is within one half. -/
theorem roundHalfEven_sub_le (x : ℚ) : |(roundHalfEven x : ℚ) - x| ≤ 1 / 2 := by
  have hle : roundHalfEven x ≤ ⌊x⌋ + 1 := by
    refine roundHalfEven_le x (⌊x⌋ + 1) ?_
    have := Int.lt_floor_add_one x
    push_cast
    linarith
  have hge : ⌊x⌋ ≤ roundHalfEven x := by
    refine le_roundHalfEven x ⌊x⌋ ?_
    have := Int.floor_le x
    linarith
  have hf1 : ((⌊x⌋ : Int) : ℚ) ≤ x := Int.floor_le x
  have hf2 : x < ((⌊x⌋ : Int) : ℚ) + 1 := Int.lt_floor_add_one x
  rw [abs_le]
  by_cases hr : x - ((⌊x⌋ : Int) : ℚ) < 1 / 2
  · have : roundHalfEven x ≤ ⌊x⌋ := roundHalfEven_le x ⌊x⌋ (by linarith)
    have he : roundHalfEven x = ⌊x⌋ := le_antisymm this hge
    rw [he]
    constructor <;> linarith
  · by_cases hr2 : x - ((⌊x⌋ : Int) : ℚ) > 1 / 2
    · have : ⌊x⌋ + 1 ≤ roundHalfEven x := le_roundHalfEven x (⌊x⌋ + 1) (by push_cast; linarith)
      have he : roundHalfEven x = ⌊x⌋ + 1 := le_antisymm hle this
      rw [he]
      push_cast
      constructor <;> linarith
    · have h4 : x - ((⌊x⌋ : Int) : ℚ) = 1 / 2 := le_antisymm (not_lt.mp hr2) (not_lt.mp hr)
      have hcases : roundHalfEven x = ⌊x⌋ ∨ roundHalfEven x = ⌊x⌋ + 1 := by omega
      rcases hcases with he | he
      · rw [he]
        constructor <;> linarith
      · rw [he]
        push_cast
        constructor <;> linarith

/-- The rounding is to the nearest point of the binary32 grid: the result of `roundF32` is
an integer multiple of the spacing `2 ^ (e - 23)` at the exponent `e` of `q` (by definition)
and differs from `q` by at most half of that spacing. -/
theorem roundF32_error (q : ℚ) :
    |roundF32 q - q| ≤ (2 : ℚ) ^ (max (binaryExponent q) (-126) - 23) / 2 := by
  have hu : (0 : ℚ) < (2 : ℚ) ^ (max (binaryExponent q) (-126) - 23) := by positivity
  by_cases h0 : q = 0
  · rw [h0]
    have : roundF32 0 = 0 := by decide!
    rw [this, sub_self, abs_zero]
    positivity
  · have hr : roundF32 q =
        (roundHalfEven (q / (2 : ℚ) ^ (max (binaryExponent q) (-126) - 23)) : ℚ) *
          (2 : ℚ) ^ (max (binaryExponent q) (-126) - 23) := by
      unfold roundF32
      rw [if_neg h0]
    have key := roundHalfEven_sub_le (q / (2 : ℚ) ^ (max (binaryExponent q) (-126) - 23))
    have heq : (roundHalfEven (q / (2 : ℚ) ^ (max (binaryExponent q) (-126) - 23)) : ℚ) *
          (2 : ℚ) ^ (max (binaryExponent q) (-126) - 23) - q =
        ((roundHalfEven (q / (2 : ℚ) ^ (max (binaryExponent q) (-126) - 23)) : ℚ) -
          q / (2 : ℚ) ^ (max (binaryExponent q) (-126) - 23)) *
          (2 : ℚ) ^ (max (binaryExponent q) (-126) - 23) := by
      rw [sub_mul, div_mul_cancel₀ _ (ne_of_gt hu)]
    rw [hr, heq, abs_mul, abs_of_pos hu]
    calc |(roundHalfEven (q / (2 : ℚ) ^ (max (binaryExponent q) (-126) - 23)) : ℚ) -
            q / (2 : ℚ) ^ (max (binaryExponent q) (-126) - 23)| *
          (2 : ℚ) ^ (max (binaryExponent q) (-126) - 23)
        ≤ 1 / 2 * (2 : ℚ) ^ (max (binaryExponent q) (-126) - 23) :=
          mul_le_mul_of_nonneg_right key (le_of_lt hu)
      _ = (2 : ℚ) ^ (max (binaryExponent q) (-126) - 23) / 2 := by ring

/-- Two known values of the rounding: 0.1 is `13421773 / 2 ^ 27` in binary32, and the tie
`2 ^ 24 + 1` goes to the even `2 ^ 24`. -/
theorem roundF32_known_values :
    roundF32 (1 / 10) = 13421773 / 134217728 ∧ roundF32 16777217 = 16777216 ∧
      roundF32 16777219 = 16777220 ∧ roundF32 (-(1 / 10)) = -(13421773 / 134217728) := by
  refine ⟨by decide!, by decide!, by decide!, by decide!⟩

/-! ## Binary32: `valueAt_Anim_` -/

theorem valueAtF32_Anim__of_due_le (d : Anim) (now : Nat) (h : d.due ≤ now) :
    valueAtF32_Anim_ d now = d.to_ := by
  have e1 : now ≥ d.due := h
  unfold valueAtF32_Anim_
  simp only [e1, if_true]

/-- In flight, a much softer ease-out animation without bounce applies `easeOut_` three
times to the position before interpolating. -/
theorem valueAtF32_Anim__muchSofter_easeOut (d : Anim) (now : Nat) (h1 : now < d.due)
    (h2 : d.when < now) (hfl : d.flags = easeOut_AnimFlag ||| muchSofter_AnimFlag) :
    valueAtF32_Anim_ d now =
      roundF32 (roundF32 (d.from_ *
          roundF32 (1 - easeOutF32_ (easeOutF32_ (easeOutF32_ (posF32_Anim_ d now))))) +
        roundF32 (d.to_ * easeOutF32_ (easeOutF32_ (easeOutF32_ (posF32_Anim_ d now))))) := by
  have e1 : ¬ now ≥ d.due := by omega
  have e2 : ¬ now ≤ d.when := by omega
  have f1 : ¬ (easeOut_AnimFlag ||| muchSofter_AnimFlag) &&& easeBoth_AnimFlag =
      easeBoth_AnimFlag := by decide
  have f2 : ¬ (easeOut_AnimFlag ||| muchSofter_AnimFlag) &&& easeIn_AnimFlag ≠ 0 := by decide
  have f3 : (easeOut_AnimFlag ||| muchSofter_AnimFlag) &&& easeOut_AnimFlag ≠ 0 := by decide
  have f4 : ((easeOut_AnimFlag ||| muchSofter_AnimFlag) &&& softer_AnimFlag != 0) = false := by
    decide
  have f5 : ((easeOut_AnimFlag ||| muchSofter_AnimFlag) &&& muchSofter_AnimFlag != 0) =
      true := by decide
  have f6 : ¬ (easeOut_AnimFlag ||| muchSofter_AnimFlag) &&& bounce_AnimFlag ≠ 0 := by decide
  unfold valueAtF32_Anim_
  rw [if_neg e1, if_neg e2, hfl]
  simp only [if_neg f1, if_neg f2, if_pos f3, if_neg f6, f4, f5, if_true, if_false,
    Bool.false_eq_true]

/-- In flight, a linear animation (no flags) interpolates at the position. -/
theorem valueAtF32_Anim__linear (d : Anim) (now : Nat) (h1 : now < d.due)
    (h2 : d.when < now) (hfl : d.flags = 0) :
    valueAtF32_Anim_ d now =
      roundF32 (roundF32 (d.from_ * roundF32 (1 - posF32_Anim_ d now)) +
        roundF32 (d.to_ * posF32_Anim_ d now)) := by
  have e1 : ¬ now ≥ d.due := by omega
  have e2 : ¬ now ≤ d.when := by omega
  have f1 : ¬ (0 : Nat) &&& easeBoth_AnimFlag = easeBoth_AnimFlag := by decide
  have f2 : ¬ (0 : Nat) &&& easeIn_AnimFlag ≠ 0 := by decide
  have f3 : ¬ (0 : Nat) &&& easeOut_AnimFlag ≠ 0 := by decide
  have f6 : ¬ (0 : Nat) &&& bounce_AnimFlag ≠ 0 := by decide
  unfold valueAtF32_Anim_
  rw [if_neg e1, if_neg e2, hfl]
  simp only [if_neg f1, if_neg f2, if_neg f3, if_neg f6]

theorem sampleMuchSofterAnim_174 : valueAtF32_Anim_ sampleMuchSofterAnim 174 = 100 := by
  have hp : posF32_Anim_ sampleMuchSofterAnim 174 = 7298089 / 8388608 := by decide!
  have h1 : easeOutF32_ (7298089 / 8388608) = 16493681 / 16777216 := by decide!
  have h2 : easeOutF32_ (16493681 / 16777216) = 16772425 / 16777216 := by decide!
  have h3 : easeOutF32_ (16772425 / 16777216) = 1 := by decide!
  have hv : roundF32 (roundF32 (sampleMuchSofterAnim.from_ * roundF32 (1 - 1)) +
      roundF32 (sampleMuchSofterAnim.to_ * 1)) = 100 := by decide!
  rw [valueAtF32_Anim__muchSofter_easeOut _ _ (by decide) (by decide) rfl, hp, h1, h2, h3, hv]

theorem sampleMuchSofterAnim_175 :
    valueAtF32_Anim_ sampleMuchSofterAnim 175 = 13107199 / 131072 := by
  have hp : posF32_Anim_ sampleMuchSofterAnim 175 = 7 / 8 := by decide!
  have h1 : easeOutF32_ (7 / 8) = 63 / 64 := by decide!
  have h2 : easeOutF32_ (63 / 64) = 4095 / 4096 := by decide!
  have h3 : easeOutF32_ (4095 / 4096) = 16777215 / 16777216 := by decide!
  have hv : roundF32 (roundF32 (sampleMuchSofterAnim.from_ *
        roundF32 (1 - 16777215 / 16777216)) +
      roundF32 (sampleMuchSofterAnim.to_ * (16777215 / 16777216))) = 13107199 / 131072 := by
    decide!
  rw [valueAtF32_Anim__muchSofter_easeOut _ _ (by decide) (by decide) rfl, hp, h1, h2, h3, hv]

/-- C30 as stated fails for the values the program computes, which are binary32: the much
softer ease-out animation from 0 to 100 over the ticks 0..200 has the bounce flag clear,
`due > when` and `from ≤ to`, and is at 100 at tick 174 and at `100 - 2 ^ (-17)`
(99.99999237...) at tick 175. The easing itself is not non-decreasing there: `easeOut_`
gives 1 at `16772425 / 2 ^ 24` and less than 1 at the larger `4095 / 4096`. -/
theorem C30_counterexample :
    (sampleMuchSofterAnim.when < sampleMuchSofterAnim.due ∧
      sampleMuchSofterAnim.flags &&& bounce_AnimFlag = 0 ∧
      sampleMuchSofterAnim.from_ ≤ sampleMuchSofterAnim.to_ ∧ (174 : Nat) ≤ 175) ∧
    (valueAtF32_Anim_ sampleMuchSofterAnim 174 = 100 ∧
      valueAtF32_Anim_ sampleMuchSofterAnim 175 = 13107199 / 131072 ∧
      ¬ valueAtF32_Anim_ sampleMuchSofterAnim 174 ≤
        valueAtF32_Anim_ sampleMuchSofterAnim 175) ∧
    ((16772425 : ℚ) / 16777216 ≤ 4095 / 4096 ∧
      ¬ easeOutF32_ (16772425 / 16777216) ≤ easeOutF32_ (4095 / 4096)) := by
  refine ⟨⟨by decide, by decide, by decide!, by decide⟩,
    ⟨sampleMuchSofterAnim_174, sampleMuchSofterAnim_175, ?_⟩, by norm_num, by decide!⟩
  rw [sampleMuchSofterAnim_174, sampleMuchSofterAnim_175]
  norm_num

/-! ## Binary32: `setValueSpeed_Anim` -/

theorem sampleLinearAnim_250 : valueAtF32_Anim_ sampleLinearAnim 250 = 25 := by
  have hp : posF32_Anim_ sampleLinearAnim 250 = 1 / 4 := by decide!
  have hv : roundF32 (roundF32 (sampleLinearAnim.from_ * roundF32 (1 - 1 / 4)) +
      roundF32 (sampleLinearAnim.to_ * (1 / 4))) = 25 := by decide!
  rw [valueAtF32_Anim__linear _ _ (by decide) (by decide) rfl, hp, hv]

/-- The order `due ≥ when` is preserved by the binary32 `setValueSpeed_Anim` as it is by the
exact one: whenever `now` plus the computed span does not wrap. -/
theorem setValueSpeedF32_Anim_due_ge_when (now : Nat) (d : Anim) (to_ : ℚ)
    (unitsPerSecond : ℚ) (h : d.due ≥ d.when)
    (hlt : now + intToU32 (truncToInt (roundF32
      (roundF32 (|roundF32 (to_ - valueAtF32_Anim_ d now)| / unitsPerSecond) * 1000))) <
        2 ^ 32) :
    (setValueSpeedF32_Anim now d to_ unitsPerSecond).due ≥
      (setValueSpeedF32_Anim now d to_ unitsPerSecond).when := by
  unfold setValueSpeedF32_Anim
  split_ifs with h1
  · show now ≤ u32add now _
    rw [u32add_of_lt hlt]
    omega
  · exact h

/-- C14, as the source has it. The test of `setValueSpeed_Anim` is the `float` one: the
rounded difference of the targets against the constant `0.0001f`.
(1) When the test holds, the call at time `now` sets `from` to the current value (the
program's `valueAt_Anim_ now`), `to` to the new target, `when` to `now`, `bounce` to 0,
leaves the flags, and sets `due` to the `uint32_t` sum of `now` and the span, the span being
the binary32 value of `(|to - from| / speed) * 1000` (subtraction, division and
multiplication each rounded) converted to `uint32_t`; when the speed is positive, the three
operations are exact and the sum stays below `2 ^ 32`, `due` is
`now + trunc (1000 * |to - from| / speed)`.
(2) When the test fails the animation is unchanged.
(3) The test fails whenever the targets differ by at most 0.0001.
(4) The test holds whenever the targets differ by more than 0.0001 and their difference is
exact in binary32. -/
theorem C14_setValueSpeed (now : Nat) (d : Anim) (to_ : ℚ) (unitsPerSecond : ℚ) :
    (|roundF32 (d.to_ - to_)| > roundF32 (1 / 10000) →
        setValueSpeedF32_Anim now d to_ unitsPerSecond =
            { from_ := valueAtF32_Anim_ d now
              to_ := to_
              when := now
              due := u32add now
                (intToU32 (truncToInt (roundF32
                  (roundF32 (|roundF32 (to_ - valueAtF32_Anim_ d now)| / unitsPerSecond) *
                    1000))))
              flags := d.flags
              bounce := 0 } ∧
          (0 < unitsPerSecond →
            roundF32 (to_ - valueAtF32_Anim_ d now) = to_ - valueAtF32_Anim_ d now →
            roundF32 (|to_ - valueAtF32_Anim_ d now| / unitsPerSecond) =
              |to_ - valueAtF32_Anim_ d now| / unitsPerSecond →
            roundF32 (|to_ - valueAtF32_Anim_ d now| / unitsPerSecond * 1000) =
              |to_ - valueAtF32_Anim_ d now| / unitsPerSecond * 1000 →
            (now : Int) + truncToInt (1000 * |to_ - valueAtF32_Anim_ d now| / unitsPerSecond)
              < 2 ^ 32 →
            ((setValueSpeedF32_Anim now d to_ unitsPerSecond).due : Int) =
              (now : Int) +
                truncToInt (1000 * |to_ - valueAtF32_Anim_ d now| / unitsPerSecond))) ∧
      (¬ |roundF32 (d.to_ - to_)| > roundF32 (1 / 10000) →
        setValueSpeedF32_Anim now d to_ unitsPerSecond = d) ∧
      (|d.to_ - to_| ≤ 1 / 10000 → ¬ |roundF32 (d.to_ - to_)| > roundF32 (1 / 10000)) ∧
      (|d.to_ - to_| > 1 / 10000 → roundF32 (d.to_ - to_) = d.to_ - to_ →
        |roundF32 (d.to_ - to_)| > roundF32 (1 / 10000)) := by
  refine ⟨?_, ?_, ?_, ?_⟩
  · intro hgt
    have he : setValueSpeedF32_Anim now d to_ unitsPerSecond =
        { from_ := valueAtF32_Anim_ d now
          to_ := to_
          when := now
          due := u32add now
            (intToU32 (truncToInt (roundF32
              (roundF32 (|roundF32 (to_ - valueAtF32_Anim_ d now)| / unitsPerSecond) *
                1000))))
          flags := d.flags
          bounce := 0 } := by
      unfold setValueSpeedF32_Anim
      rw [if_pos hgt]
    refine ⟨he, ?_⟩
    intro hs h1 h2 h3 hlt
    have hq : (|to_ - valueAtF32_Anim_ d now| / unitsPerSecond) * 1000 =
        1000 * |to_ - valueAtF32_Anim_ d now| / unitsPerSecond := by ring
    have hnn : 0 ≤ truncToInt (1000 * |to_ - valueAtF32_Anim_ d now| / unitsPerSecond) :=
      truncToInt_nonneg (div_nonneg (mul_nonneg (by norm_num) (abs_nonneg _)) (le_of_lt hs))
    rw [he]
    show ((u32add now (intToU32 _) : Nat) : Int) = _
    rw [h1, h2, h3, hq]
    have hn0 : (0 : Int) ≤ (now : Int) := Int.ofNat_nonneg _
    rw [intToU32_of_lt hnn (by omega)]
    unfold u32add
    omega
  · intro hle
    unfold setValueSpeedF32_Anim
    rw [if_neg hle]
  · intro hle
    exact not_lt.mpr (roundF32_le_tolerance _ hle)
  · intro hgt hex
    rw [hex, roundF32_tolerance]
    have : (13743895 : ℚ) / 137438953472 < 1 / 10000 := by norm_num
    exact lt_trans this hgt

/-- Witness of C14: the linear sample animation, in flight at tick 250 with the value 25,
sent to 57 at 64 units per second: the distance 32 takes 500 ms, every operation being
exact, and `due` is 750. -/
theorem C14_setValueSpeed_witness :
    (|roundF32 (sampleLinearAnim.to_ - 57)| > roundF32 (1 / 10000) ∧ (0 : ℚ) < 64 ∧
      valueAtF32_Anim_ sampleLinearAnim 250 = 25 ∧
      truncToInt (1000 * |57 - valueAtF32_Anim_ sampleLinearAnim 250| / 64) = 500) ∧
    setValueSpeedF32_Anim 250 sampleLinearAnim 57 64 =
        { from_ := 25, to_ := 57, when := 250, due := 750, flags := 0, bounce := 0 } ∧
      ((setValueSpeedF32_Anim 250 sampleLinearAnim 57 64).due : Int) =
        (250 : Int) + truncToInt (1000 * |57 - valueAtF32_Anim_ sampleLinearAnim 250| / 64) := by
  have hgt : |roundF32 (sampleLinearAnim.to_ - 57)| > roundF32 (1 / 10000) := by decide!
  have htr : truncToInt (1000 * |57 - valueAtF32_Anim_ sampleLinearAnim 250| / 64) = 500 := by
    rw [sampleLinearAnim_250]
    decide!
  refine ⟨⟨hgt, by norm_num, sampleLinearAnim_250, htr⟩, ?_,
    (C14_setValueSpeed 250 sampleLinearAnim 57 64).1 hgt |>.2 (by norm_num)
      (by rw [sampleLinearAnim_250]; decide!) (by rw [sampleLinearAnim_250]; decide!)
      (by rw [sampleLinearAnim_250]; decide!) (by rw [htr]; decide)⟩
  have hspan : intToU32 (truncToInt (roundF32 (roundF32 (|roundF32 ((57 : ℚ) - 25)| / 64) *
      1000))) = 500 := by decide!
  unfold setValueSpeedF32_Anim
  rw [if_pos hgt]
  simp only [sampleLinearAnim_250, hspan]
  rfl

/-- C14 as stated fails, in three ways. (1) Rounding of the span: an animation at rest at 0
sent to 163 at 5 units per second gets `due = 32599`, not `0 + trunc (1000 * 163 / 5) =
32600`: the quotient `163 / 5` rounds to `4272947 / 2 ^ 17`, just below 32.6, and its
product with 1000 to `32599.998...`. (2) Wrap: at the last 32-bit tick, an animation at rest
at 0 sent to 1 at 1 unit per second gets `due = 999`, the sum `4294967295 + 1000` reduced
modulo `2 ^ 32`. (3) Rounding of the test: an animation at rest at `0.0001f` (that is
`13743895 / 2 ^ 37`) sent to `-3 / 2 ^ 40` has targets that differ by more than 0.0001, but
their difference rounds to `0.0001f`, which does not exceed `0.0001f`: the animation is
left unchanged. -/
theorem C14_counterexample :
    (|(init_Anim 0 0).to_ - 163| > 1 / 10000 ∧ (0 : ℚ) < 5 ∧
      valueAtF32_Anim_ (init_Anim 0 0) 0 = 0 ∧
      roundF32 (roundF32 (|roundF32 ((163 : ℚ) - 0)| / 5) * 1000) = 16691199 / 512 ∧
      (setValueSpeedF32_Anim 0 (init_Anim 0 0) 163 5).due = 32599 ∧
      (0 : Int) + truncToInt (1000 * |163 - valueAtF32_Anim_ (init_Anim 0 0) 0| / 5) =
        32600) ∧
    (|(init_Anim 0 0).to_ - 1| > 1 / 10000 ∧ (0 : ℚ) < 1 ∧
      valueAtF32_Anim_ (init_Anim 0 0) 4294967295 = 0 ∧
      (setValueSpeedF32_Anim 4294967295 (init_Anim 0 0) 1 1).due = 999 ∧
      (4294967295 : Int) +
          truncToInt (1000 * |1 - valueAtF32_Anim_ (init_Anim 0 0) 4294967295| / 1) =
        4294968295) ∧
    (|(init_Anim 0 (13743895 / 137438953472)).to_ - -(3 / 1099511627776)| > 1 / 10000 ∧
      (0 : ℚ) < 1 ∧
      roundF32 (13743895 / 137438953472) = 13743895 / 137438953472 ∧
      roundF32 (-(3 / 1099511627776)) = -(3 / 1099511627776) ∧
      setValueSpeedF32_Anim 0 (init_Anim 0 (13743895 / 137438953472))
          (-(3 / 1099511627776)) 1 = init_Anim 0 (13743895 / 137438953472)) := by
  have hv0 : valueAtF32_Anim_ (init_Anim 0 0) 0 = 0 :=
    valueAtF32_Anim__of_due_le _ _ (by decide)
  have hv1 : valueAtF32_Anim_ (init_Anim 0 0) 4294967295 = 0 :=
    valueAtF32_Anim__of_due_le _ _ (by decide)
  have hgt0 : |roundF32 ((init_Anim 0 0).to_ - 163)| > roundF32 (1 / 10000) := by decide!
  have hgt1 : |roundF32 ((init_Anim 0 0).to_ - 1)| > roundF32 (1 / 10000) := by decide!
  have hs0 : roundF32 (roundF32 (|roundF32 ((163 : ℚ) - 0)| / 5) * 1000) = 16691199 / 512 := by
    decide!
  have hs1 : roundF32 (roundF32 (|roundF32 ((1 : ℚ) - 0)| / 1) * 1000) = 1000 := by decide!
  have hle2 : ¬ |roundF32 ((init_Anim 0 (13743895 / 137438953472)).to_ -
      -(3 / 1099511627776))| > roundF32 (1 / 10000) := by decide!
  refine ⟨⟨by decide!, by norm_num, hv0, hs0, ?_, ?_⟩, ⟨by decide!, by norm_num, hv1, ?_, ?_⟩,
    by decide!, by norm_num, by decide!, by decide!, ?_⟩
  · unfold setValueSpeedF32_Anim
    rw [if_pos hgt0]
    simp only [hv0, hs0]
    decide!
  · rw [hv0]
    decide!
  · unfold setValueSpeedF32_Anim
    rw [if_pos hgt1]
    simp only [hv1, hs1]
    decide!
  · rw [hv1]
    decide!
  · unfold setValueSpeedF32_Anim
    rw [if_neg hle2]

end Lagrange
